import Mathlib

/-!
# Verification of the CPU scheduling simulator

Shallow embedding of `src/scheduler.py` and `src/utils.py` from the
`cpu-scheduling-simulator` repository.  Clock values, burst times and
priorities are modelled as rationals (the Python code uses floats with an
explicit `1e-9` tolerance, which we carry over verbatim as `eps`).  Each
Python `while` loop becomes a fuel-indexed iteration of a step function;
`none` means the fuel ran out (or an internal lookup failed, which the
Python code would surface as an exception).  Timelines are kept in
reverse order internally (most recent segment first, mirroring the
`timeline[-1]` accesses) and reversed on return.
-/

set_option maxHeartbeats 1000000

set_option allowUnsafeReducibility true
attribute [semireducible] Rat.add Rat.mul Rat.sub Rat.div Rat.inv Rat.blt

/-- A timeline segment `(subject, start, end)` as produced by the Python code;
the subject is a process id or the string `"Idle"`. -/
abbrev Seg := String × ℚ × ℚ

/-- Per-process metrics `(CT, TAT, WT)`, mirroring the Python dict
`{'CT': ct, 'TAT': tat, 'WT': wt}`. -/
abbrev Metric := ℚ × ℚ × ℚ

/-- An input process record: keys `pid`, `arrival`, `burst`, `priority` of the
Python process dict. -/
structure Proc where
  pid : String
  arrival : ℚ
  burst : ℚ
  priority : ℚ
  deriving DecidableEq, Repr

/-- A working copy of a process with the derived `remaining` field added by the
preemptive algorithms (`p['remaining'] = p['burst']`). -/
structure PProc where
  pid : String
  arrival : ℚ
  burst : ℚ
  priority : ℚ
  remaining : ℚ
  deriving DecidableEq, Repr

/-- `copy.deepcopy` plus the `remaining := burst` initialisation. -/
def toPProc (p : Proc) : PProc :=
  { pid := p.pid, arrival := p.arrival, burst := p.burst
    priority := p.priority, remaining := p.burst }

/-- The floating-point tolerance `1e-9` used throughout the Python code. -/
def eps : ℚ := 1 / 1000000000

/-- Python's `min` over a non-empty list of numbers. -/
def minQ : List ℚ → Option ℚ
  | [] => none
  | x :: xs => some (xs.foldl min x)

/-- Python's `min(filter(good, l), key)`: returns the context
`(before, chosen, after)` of the first element of `l` satisfying `good` that
attains the minimal `key` among all such elements, or `none` when no element
satisfies `good`.  The context is returned so that in-place mutation of the
chosen element (Python dicts are mutated through the reference returned by
`min`) can be expressed as `before ++ changed :: after`. -/
def pickMin {α : Type} (good : α → Bool) (key : α → ℚ) :
    List α → Option (List α × α × List α)
  | [] => none
  | p :: rest =>
    match pickMin good key rest with
    | none => if good p then some ([], p, rest) else none
    | some (pre, c, post) =>
      if good p then
        if key p ≤ key c then some ([], p, rest)
        else some (p :: pre, c, post)
      else some (p :: pre, c, post)

/-- Appending/extending an `Idle` segment (the repeated Python fragment
`if timeline and timeline[-1][0] == 'Idle': ... else: timeline.append(...)`).
The timeline is in reverse order, newest segment first. -/
def pushIdle (tl : List Seg) (t na : ℚ) : List Seg :=
  match tl with
  | (subj, st, en) :: rest =>
    if subj = "Idle" then ("Idle", st, na) :: rest
    else ("Idle", t, na) :: (subj, st, en) :: rest
  | [] => [("Idle", t, na)]

/-- Appending a run slice with merging of contiguous blocks (the Python
fragment guarded by `abs(timeline[-1][2] - start_time) < 1e-9`). -/
def mergePush (tl : List Seg) (pid : String) (st en : ℚ) : List Seg :=
  match tl with
  | (subj, s0, e0) :: rest =>
    if subj = pid ∧ |e0 - st| < eps then (pid, s0, en) :: rest
    else (pid, st, en) :: (subj, s0, e0) :: rest
  | [] => [(pid, st, en)]

/-- Python's `set.add` on the `completed` set of pids. -/
def addPid (c : List String) (pid : String) : List String :=
  if pid ∈ c then c else pid :: c

/-- Result of one iteration of a scheduling `while` loop: continue with a new
state, leave the loop with a final state, or raise (the `next(...)` lookup in
the Python code would throw `StopIteration` if the pid were absent). -/
inductive StepRes (σ : Type) where
  | next (s : σ)
  | stop (s : σ)
  | crash
  deriving Repr, DecidableEq

/-- Run a loop body for at most `fuel` iterations. -/
def iterate {σ : Type} (body : σ → StepRes σ) : Nat → σ → Option σ
  | 0, _ => none
  | fuel + 1, s =>
    match body s with
    | .stop s' => some s'
    | .next s' => iterate body fuel s'
    | .crash => none

/-! ## Non-preemptive SJF and Priority scheduling

`sjf_non_preemptive` and `priority_non_preemptive` in `scheduler.py` are
line-for-line identical except for the selection key (`p['burst']` vs
`p['priority']`), so they share one loop body parameterised by the key. -/

/-- State of the non-preemptive loops: the clock, the (reversed) timeline, the
metrics dict (as an association list in insertion order), the `completed` set
and `last_process_id`. -/
structure NPState where
  time : ℚ
  timeline : List Seg
  metrics : List (String × Metric)
  completed : List String
  lastPid : Option String
  deriving DecidableEq, Repr

/-- The initial state of every scheduling loop. -/
def npInit : NPState :=
  { time := 0, timeline := [], metrics := [], completed := [], lastPid := none }

/-- One iteration of the `while len(completed) < n` loop shared by
`sjf_non_preemptive` (key `burst`) and `priority_non_preemptive`
(key `priority`). -/
def npBody (key : Proc → ℚ) (procs : List Proc) (cso : ℚ) (s : NPState) :
    StepRes NPState :=
  if s.completed.length < procs.length then
    match pickMin (fun p => decide (p.arrival ≤ s.time) &&
        !(s.completed.contains p.pid)) key procs with
    | none =>
      match minQ ((procs.filter
          (fun p => !(s.completed.contains p.pid))).map (fun p => p.arrival)) with
      | none => .stop s
      | some na =>
        .next { s with time := na, timeline := pushIdle s.timeline s.time na }
    | some (_, cur, _) =>
      let t1 := s.time +
        (match s.lastPid with
         | some l => if l ≠ cur.pid then cso else 0
         | none => if 0 < s.time then cso else 0)
      let en := t1 + cur.burst
      .next { time := en
              timeline := (cur.pid, t1, en) :: s.timeline
              metrics := s.metrics ++
                [(cur.pid, (en, en - cur.arrival, en - cur.arrival - cur.burst))]
              completed := addPid s.completed cur.pid
              lastPid := some cur.pid }
  else .stop s

/-- `sjf_non_preemptive(processes, cso_time)`; `fuel` bounds the number of loop
iterations, `none` meaning the bound was hit. -/
def sjf_non_preemptive (procs : List Proc) (cso : ℚ) (fuel : Nat) :
    Option (List Seg × List (String × Metric)) :=
  (iterate (npBody (fun p => p.burst) procs cso) fuel npInit).map
    (fun s => (s.timeline.reverse, s.metrics))

/-- `priority_non_preemptive(processes, cso_time)`. -/
def priority_non_preemptive (procs : List Proc) (cso : ℚ) (fuel : Nat) :
    Option (List Seg × List (String × Metric)) :=
  (iterate (npBody (fun p => p.priority) procs cso) fuel npInit).map
    (fun s => (s.timeline.reverse, s.metrics))

/-! ## Preemptive SRTF and Priority scheduling

`srtf_preemptive` and `priority_preemptive` are identical except for the
selection key (`remaining` vs `priority`) and the computation of the next
preemption point, so they share one loop body parameterised by these two. -/

/-- State of the preemptive loops: the working copies with their `remaining`
fields, the clock, the (reversed) timeline, the metrics, the `completed_pids`
set and `last_run_pid` (which the idle branch sets to the string `'Idle'`). -/
structure PState where
  work : List PProc
  time : ℚ
  timeline : List Seg
  metrics : List (String × Metric)
  completed : List String
  lastRun : Option String
  deriving DecidableEq, Repr

/-- The initial state of the preemptive loops on input `procs`. -/
def pInit (procs : List Proc) : PState :=
  { work := procs.map toPProc, time := 0, timeline := [], metrics := []
    completed := [], lastRun := none }

/-- `srtf_preemptive`, lines 119-129: the time until the next preemption
event.  Only the earliest future arrival is inspected, and a process arriving
then preempts when its `burst` is smaller than the current `remaining`. -/
def srtfNPT (work : List PProc) (completed : List String) (t : ℚ)
    (cur : PProc) : ℚ :=
  match minQ ((work.filter (fun p => decide (t < p.arrival) &&
      !(completed.contains p.pid))).map (fun p => p.arrival)) with
  | none => cur.remaining
  | some na =>
    if work.any (fun p => p.arrival = na && p.burst < cur.remaining) then
      na - t
    else cur.remaining

/-- `priority_preemptive`, lines 253-268: the scan over all future arrivals
keeping the smallest priority seen so far; the preemption point is the arrival
time of the process recorded by the final update of that scan. -/
def prioNPT (work : List PProc) (completed : List String) (t : ℚ)
    (cur : PProc) : ℚ :=
  match ((work.filter (fun p => decide (t < p.arrival) &&
      !(completed.contains p.pid))).foldl
    (fun (b : Option ℚ × ℚ) p =>
      if p.priority < b.2 then (some p.arrival, p.priority) else b)
    (none, cur.priority)).1 with
  | none => cur.remaining
  | some pa => pa - t

/-- One iteration of the `while len(completed_pids) < n` loop shared by
`srtf_preemptive` (`sel` = `remaining`, `npt` = `srtfNPT`) and
`priority_preemptive` (`sel` = `priority`, `npt` = `prioNPT`).  `procs0` is
the original input list, which the completion branch consults for the
arrival/burst used in the metrics. -/
def pBody (sel : PProc → ℚ)
    (npt : List PProc → List String → ℚ → PProc → ℚ)
    (procs0 : List Proc) (cso : ℚ) (s : PState) : StepRes PState :=
  if s.completed.length < s.work.length then
    match pickMin (fun p => decide (p.arrival ≤ s.time) &&
        !(s.completed.contains p.pid)) sel s.work with
    | none =>
      match minQ ((s.work.filter (fun p => !(s.completed.contains p.pid) &&
          decide (s.time < p.arrival))).map (fun p => p.arrival)) with
      | none => .stop s
      | some na =>
        .next { s with time := na, timeline := pushIdle s.timeline s.time na
                       lastRun := some "Idle" }
    | some (pre, cur, post) =>
      let t1 := s.time +
        (match s.lastRun with
         | some l => if l ≠ cur.pid then cso else 0
         | none => 0)
      let run_for := min cur.remaining (npt s.work s.completed t1 cur)
      let en := t1 + run_for
      let cur' : PProc := { cur with remaining := cur.remaining - run_for }
      let work' := pre ++ cur' :: post
      let tl' := mergePush s.timeline cur.pid t1 en
      if cur'.remaining ≤ eps then
        match procs0.find? (fun p => p.pid = cur.pid) with
        | some pd =>
          .next { work := work', time := en, timeline := tl'
                  metrics := s.metrics ++
                    [(cur.pid, (en, en - pd.arrival, en - pd.arrival - pd.burst))]
                  completed := addPid s.completed cur.pid
                  lastRun := some cur.pid }
        | none => .crash
      else
        .next { work := work', time := en, timeline := tl'
                metrics := s.metrics, completed := s.completed
                lastRun := some cur.pid }
  else .stop s

/-- `srtf_preemptive(processes, cso_time)`. -/
def srtf_preemptive (procs : List Proc) (cso : ℚ) (fuel : Nat) :
    Option (List Seg × List (String × Metric)) :=
  (iterate (pBody (fun p => p.remaining) srtfNPT procs cso) fuel
      (pInit procs)).map (fun s => (s.timeline.reverse, s.metrics))

/-- `priority_preemptive(processes, cso_time)`. -/
def priority_preemptive (procs : List Proc) (cso : ℚ) (fuel : Nat) :
    Option (List Seg × List (String × Metric)) :=
  (iterate (pBody (fun p => p.priority) prioNPT procs cso) fuel
      (pInit procs)).map (fun s => (s.timeline.reverse, s.metrics))

/-! ## FCFS -/

/-- The first component of the most recent timeline segment
(`timeline[-1][0]`). -/
def headSubj (tl : List Seg) : Option String :=
  (tl.head?).map (fun seg => seg.1)

/-- The `for p in procs` loop of `fcfs`, lines 308-341, running over the
arrival-sorted working list with state `(time, timeline, metrics)`. -/
def fcfsGo (cso : ℚ) :
    List Proc → ℚ → List Seg → List (String × Metric) →
      (List Seg × List (String × Metric))
  | [], _, tl, ms => (tl, ms)
  | p :: rest, time, tl, ms =>
    let time1 := if time < p.arrival then p.arrival else time
    let tl1 := if time < p.arrival then pushIdle tl time p.arrival else tl
    let time2 :=
      if tl1 ≠ [] ∧ (¬headSubj tl1 = some "Idle" ∨ tl1.length = 0) then time1
      else if 0 < time1 ∧ (tl1 = [] ∨ headSubj tl1 = some "Idle") then
        max p.arrival (time1 + cso)
      else time1
    let en := time2 + p.burst
    fcfsGo cso rest en ((p.pid, time2, en) :: tl1)
      (ms ++ [(p.pid, (en, en - p.arrival, en - p.arrival - p.burst))])

/-- `fcfs(processes, cso_time)`: a stable sort by arrival time (Python's
`list.sort` is stable; `List.insertionSort` is a stable sort, used here
because it is structurally recursive) followed by the sequential loop.
(This loop always terminates, so it takes no fuel.) -/
def fcfs (procs : List Proc) (cso : ℚ) :
    List Seg × List (String × Metric) :=
  let res := fcfsGo cso
    (List.insertionSort (fun a b => a.arrival ≤ b.arrival) procs) 0 [] []
  (res.1.reverse, res.2)

/-! ## Round Robin -/

/-- State of the `round_robin` loop: the working array (in input order), the
FIFO ready queue, the admission index `arrival_index`, and the shared
clock/timeline/metrics/completed/`last_run_pid` fields. -/
structure RRState where
  work : List PProc
  queue : List PProc
  arrivalIdx : Nat
  time : ℚ
  timeline : List Seg
  metrics : List (String × Metric)
  completed : List String
  lastRun : Option String
  deriving DecidableEq, Repr

/-- The initial `round_robin` state on input `procs`. -/
def rrInit (procs : List Proc) : RRState :=
  { work := procs.map toPProc, queue := [], arrivalIdx := 0, time := 0
    timeline := [], metrics := [], completed := [], lastRun := none }

/-- The admission loop at the top of each `round_robin` iteration
(lines 363-367): walk the unadmitted suffix of the working array in input
order while `arrival <= time`, appending each process to the queue unless a
process with the same pid is already queued.  Returns the new queue and the
new `arrival_index`. -/
def rrAdmit (time : ℚ) : List PProc → List PProc → Nat → List PProc × Nat
  | queue, [], idx => (queue, idx)
  | queue, p :: rest, idx =>
    if p.arrival ≤ time then
      rrAdmit time
        (if (queue.map (fun q => q.pid)).contains p.pid then queue
         else queue ++ [p])
        rest (idx + 1)
    else (queue, idx)

/-- The slice-time admission loop (lines 422-427): collect the newly arrived
processes, in input order, without the duplicate check.  Returns the list of
new arrivals and the new `arrival_index`. -/
def rrAdmit2 (time : ℚ) : List PProc → Nat → List PProc × Nat
  | [], idx => ([], idx)
  | p :: rest, idx =>
    if p.arrival ≤ time then
      let r := rrAdmit2 time rest (idx + 1)
      (p :: r.1, r.2)
    else ([], idx)

/-- One iteration of the `while len(completed_pids) < n` loop of
`round_robin`. -/
def rrBody (procs0 : List Proc) (quantum cso : ℚ) (s : RRState) :
    StepRes RRState :=
  if s.completed.length < s.work.length then
    let a1 := rrAdmit s.time s.queue (s.work.drop s.arrivalIdx) s.arrivalIdx
    match a1.1 with
    | [] =>
      match minQ ((s.work.filter (fun p => !(s.completed.contains p.pid) &&
          decide (s.time < p.arrival))).map (fun p => p.arrival)) with
      | none => .stop { s with queue := a1.1, arrivalIdx := a1.2 }
      | some na =>
        .next { s with queue := a1.1, arrivalIdx := a1.2, time := na
                       timeline := pushIdle s.timeline s.time na
                       lastRun := some "Idle" }
    | cur :: qrest =>
      let t1 := s.time +
        (match s.lastRun with
         | some l => if l ≠ cur.pid then cso else 0
         | none => 0)
      let run_for := min quantum cur.remaining
      let en := t1 + run_for
      let cur' : PProc := { cur with remaining := cur.remaining - run_for }
      let tl' := mergePush s.timeline cur.pid t1 en
      if cur'.remaining ≤ eps then
        match procs0.find? (fun p => p.pid = cur.pid) with
        | some pd =>
          .next { work := s.work, queue := qrest, arrivalIdx := a1.2, time := en
                  timeline := tl'
                  metrics := s.metrics ++
                    [(cur.pid, (en, en - pd.arrival, en - pd.arrival - pd.burst))]
                  completed := addPid s.completed cur.pid
                  lastRun := some cur.pid }
        | none => .crash
      else
        let a2 := rrAdmit2 en (s.work.drop a1.2) a1.2
        .next { work := s.work, queue := qrest ++ a2.1 ++ [cur']
                arrivalIdx := a2.2, time := en, timeline := tl'
                metrics := s.metrics, completed := s.completed
                lastRun := some cur.pid }
  else .stop s

/-- `round_robin(processes, quantum, cso_time)`. -/
def round_robin (procs : List Proc) (quantum cso : ℚ) (fuel : Nat) :
    Option (List Seg × List (String × Metric)) :=
  (iterate (rrBody procs quantum cso) fuel (rrInit procs)).map
    (fun s => (s.timeline.reverse, s.metrics))

/-! ## Metrics aggregation (`utils.py`) -/

/-- `calculate_average_metrics(metrics, final_time)` from `utils.py`: returns
the empty dict for empty metrics, otherwise the four summary statistics, with
throughput defined as `0` when `final_time` is not positive. -/
def calculate_average_metrics (metrics : List (String × Metric))
    (final_time : ℚ) : List (String × ℚ) :=
  if metrics = [] then []
  else
    let n : ℚ := metrics.length
    let total_tat := (metrics.map (fun m => m.2.2.1)).sum
    let total_wt := (metrics.map (fun m => m.2.2.2)).sum
    [("Average Turnaround Time", total_tat / n),
     ("Average Waiting Time", total_wt / n),
     ("Total Waiting Time", total_wt),
     ("Throughput (proc/unit)", if 0 < final_time then n / final_time else 0)]

/-- `calculate_cpu_utilization(timeline, final_time)` from `utils.py`. -/
def calculate_cpu_utilization (timeline : List Seg) (final_time : ℚ) : ℚ :=
  if final_time ≤ 0 then 0
  else
    ((timeline.filter (fun seg => seg.1 ≠ "Idle")).map
      (fun seg => seg.2.2 - seg.2.1)).sum / final_time * 100

/-! ## Generic lemmas about `iterate` -/

/-- One extra unit of fuel does not change a result that was already reached. -/
theorem iterate_succ {σ : Type} (body : σ → StepRes σ) :
    ∀ {fuel : Nat} {s r : σ}, iterate body fuel s = some r →
      iterate body (fuel + 1) s = some r := by
  intro fuel
  induction fuel with
  | zero => intro s r h; simp [iterate] at h
  | succ n ih =>
    intro s r h
    rw [iterate] at h ⊢
    cases hb : body s with
    | stop s' => rw [hb] at h; exact h
    | next s' => rw [hb] at h; exact ih h
    | crash => rw [hb] at h; exact Option.noConfusion h

/-- Once a loop terminates within some fuel bound, any larger bound returns the
same result. -/
theorem iterate_mono {σ : Type} (body : σ → StepRes σ) {fuel fuel' : Nat}
    {s r : σ} (h : iterate body fuel s = some r) (hle : fuel ≤ fuel') :
    iterate body fuel' s = some r := by
  induction fuel', hle using Nat.le_induction with
  | base => exact h
  | succ n hn ih => exact iterate_succ body ih

/-- A loop whose body maps a state to itself never terminates, whatever the
fuel. -/
theorem iterate_fixpoint {σ : Type} (body : σ → StepRes σ) {s : σ}
    (h : body s = .next s) : ∀ fuel, iterate body fuel s = none := by
  intro fuel
  induction fuel with
  | zero => rfl
  | succ n ih => rw [iterate, h]; exact ih

/-- Fuel monotonicity transported through the final `Option.map` used by the
scheduling entry points. -/
theorem iterate_map_mono {σ β : Type} (body : σ → StepRes σ) (f : σ → β)
    {fuel fuel' : Nat} {init : σ} {res : β}
    (h : (iterate body fuel init).map f = some res) (hle : fuel ≤ fuel') :
    (iterate body fuel' init).map f = some res := by
  obtain ⟨s, hs, hf⟩ := Option.map_eq_some'.mp h
  rw [iterate_mono body hs hle]
  simpa using hf

/-! ## Concrete scenario and counterexample theorems -/

/-- Claim C8: on the workload P1(0,5), P2(1,3), P3(2,1), Round Robin with
quantum 2 and CSO 0 returns exactly the timeline
`[(P1,0,2),(P2,2,4),(P3,4,5),(P1,5,7),(P2,7,8),(P1,8,9)]` and the metrics
P1 = (CT 9, TAT 9, WT 4), P2 = (CT 8, TAT 7, WT 4), P3 = (CT 5, TAT 3, WT 2)
(the metrics dict lists processes in completion order), for every
sufficient fuel bound. -/
theorem c8_round_robin_scenarioB (fuel : Nat) :
    round_robin [⟨"P1",0,5,0⟩, ⟨"P2",1,3,0⟩, ⟨"P3",2,1,0⟩] 2 0 (9 + fuel) =
      some ([("P1",0,2),("P2",2,4),("P3",4,5),("P1",5,7),("P2",7,8),("P1",8,9)],
            [("P3",5,3,2),("P2",8,7,4),("P1",9,9,4)]) := by
  have h : round_robin [⟨"P1",0,5,0⟩, ⟨"P2",1,3,0⟩, ⟨"P3",2,1,0⟩] 2 0 9 =
      some ([("P1",0,2),("P2",2,4),("P3",4,5),("P1",5,7),("P2",7,8),("P1",8,9)],
            [("P3",5,3,2),("P2",8,7,4),("P1",9,9,4)]) := by decide
  unfold round_robin at h ⊢
  exact iterate_map_mono _ _ h (by omega)

/-- Claim C5: calling `round_robin` with quantum 0 on the single process
P1(0,5) never terminates, whatever the iteration bound: each loop iteration
runs a zero-length slice and re-queues the process with its state unchanged.
The quantum is never validated inside `round_robin`, and the GUI check fires
only after this call. -/
theorem c5_round_robin_zero_quantum_diverges (fuel : Nat) :
    round_robin [⟨"P1",0,5,0⟩] 0 0 fuel = none := by
  cases fuel with
  | zero => rfl
  | succ n =>
    have h0 : rrBody [⟨"P1",0,5,0⟩] 0 0 (rrInit [⟨"P1",0,5,0⟩]) =
        .next { work := [⟨"P1",0,5,0,5⟩], queue := [⟨"P1",0,5,0,5⟩]
                arrivalIdx := 1, time := 0, timeline := [("P1",0,0)]
                metrics := [], completed := [], lastRun := some "P1" } := by
      decide
    have h1 : rrBody [⟨"P1",0,5,0⟩] 0 0
        { work := [⟨"P1",0,5,0,5⟩], queue := [⟨"P1",0,5,0,5⟩]
          arrivalIdx := 1, time := 0, timeline := [("P1",0,0)]
          metrics := [], completed := [], lastRun := some "P1" } =
        .next { work := [⟨"P1",0,5,0,5⟩], queue := [⟨"P1",0,5,0,5⟩]
                arrivalIdx := 1, time := 0, timeline := [("P1",0,0)]
                metrics := [], completed := [], lastRun := some "P1" } := by
      decide
    unfold round_robin
    rw [iterate, h0]
    show (iterate (rrBody [⟨"P1",0,5,0⟩] 0 0) n
        { work := [⟨"P1",0,5,0,5⟩], queue := [⟨"P1",0,5,0,5⟩]
          arrivalIdx := 1, time := 0, timeline := [("P1",0,0)]
          metrics := [], completed := [], lastRun := some "P1" }).map
      (fun s => (s.timeline.reverse, s.metrics)) = none
    rw [iterate_fixpoint _ h1 n]
    rfl

/-- Claim C1 (counterexample): the claim is false.  For SRTF on
A(0, burst 10), B(1, burst 20), C(2, burst 1), the arrival of C at time 2
(burst 1 < remaining 10 of A) would preempt A, so by the claim A's first
slice must end no later than 2 — but the code inspects only the earliest
future arrival (B at time 1, which does not preempt) and runs A to
completion at time 10.  For preemptive Priority on A(0,10,pri 5),
B(1,10,pri 4), C(5,10,pri 1), B's arrival at time 1 (priority 4 < 5) would
preempt A, so by the claim A's slice must end no later than 1 — but the scan
keeps the arrival of the globally best-priority future process C and A runs
until time 5. -/
theorem c1_counterexample :
    srtf_preemptive [⟨"A",0,10,0⟩, ⟨"B",1,20,0⟩, ⟨"C",2,1,0⟩] 0 50 =
      some ([("A",0,10),("C",10,11),("B",11,31)],
            [("A",10,10,0),("C",11,9,8),("B",31,30,10)]) ∧
    ((1:ℚ) < 10 ∧ ¬((10:ℚ) ≤ 2)) ∧
    priority_preemptive [⟨"A",0,10,5⟩, ⟨"B",1,10,4⟩, ⟨"C",5,10,1⟩] 0 50 =
      some ([("A",0,5),("C",5,15),("B",15,25),("A",25,30)],
            [("C",15,10,0),("B",25,24,14),("A",30,30,20)]) ∧
    ((4:ℚ) < 5 ∧ ¬((5:ℚ) ≤ 1)) :=
  ⟨by decide, by decide, by decide, by decide⟩

/-- Claim C2 (counterexample): with a positive context-switch overhead the
timeline is not contiguous and its durations do not sum to the final
completion time.  SRTF on Q1(0,2), Q2(0,1) with cso = 1 yields
`[(Q2,0,1),(Q1,2,4)]`: the first segment ends at 1 but the second starts at
2, and the durations sum to 3 while the last completion time is 4. -/
theorem c2_counterexample :
    srtf_preemptive [⟨"Q1",0,2,0⟩, ⟨"Q2",0,1,0⟩] 1 50 =
      some ([("Q2",0,1),("Q1",2,4)], [("Q2",1,1,0),("Q1",4,4,2)]) ∧
    ¬((1:ℚ) = 2) ∧ ¬((1 - 0) + (4 - 2) = (4:ℚ)) := by decide

/-- Claim C3 (counterexample): the claim says CSO is charged exactly when the
subject about to run differs from the subject of the immediately preceding
non-Idle segment, which would mean no charge when there is no preceding
non-Idle segment at all.  But SJF on the single process R1(arrival 1,
burst 1) with cso = 1 yields `[(Idle,0,1),(R1,2,3)]`: R1 starts at 2, not at
the idle end 1, i.e. CSO was charged after the initial idle gap although no
non-Idle segment precedes it. -/
theorem c3_counterexample :
    sjf_non_preemptive [⟨"R1",1,1,0⟩] 1 50 =
      some ([("Idle",0,1),("R1",2,3)], [("R1",3,2,1)]) ∧ ¬((2:ℚ) = 1) := by
  decide

/-- Claim C6 (counterexample): the claim is false in two ways even though
every burst is at most the quantum.  (i) Round Robin admits processes in
input order, not arrival order: on the input list [B(5,1), A(0,1)] with
quantum 10 and cso 0 it produces subjects [Idle, B, A] while FCFS (which
sorts by arrival) produces [A, Idle, B].  (ii) With cso = 2 on
[A(0,1), B(0,1), C(5/2,1)] with quantum 10, Round Robin's subject sequence
[A, B, C] has no Idle segment while FCFS produces [A, B, Idle, C], so the
subject sequences differ with a zero quantum excess as well. -/
theorem c6_counterexample :
    (round_robin [⟨"B",5,1,0⟩, ⟨"A",0,1,0⟩] 10 0 50).map
        (fun r => r.1.map (fun seg => seg.1)) = some ["Idle","B","A"] ∧
    (fcfs [⟨"B",5,1,0⟩, ⟨"A",0,1,0⟩] 0).1.map (fun seg => seg.1) =
      ["A","Idle","B"] ∧
    ¬((["Idle","B","A"] : List String) = ["A","Idle","B"]) ∧
    (round_robin [⟨"A",0,1,0⟩, ⟨"B",0,1,0⟩, ⟨"C",5/2,1,0⟩] 10 2 50).map
        (fun r => r.1.map (fun seg => seg.1)) = some ["A","B","C"] ∧
    (fcfs [⟨"A",0,1,0⟩, ⟨"B",0,1,0⟩, ⟨"C",5/2,1,0⟩] 2).1.map
        (fun seg => seg.1) = ["A","B","Idle","C"] ∧
    ((1:ℚ) ≤ 10 ∧ (1:ℚ) ≤ 10) := by decide

/-- Claim C7 (counterexample): the epsilon completion tolerance can make WT
negative and CT smaller than arrival + burst.  SRTF on S1(0, burst 1) and
S2(arrival 1 − 1e-9, burst 5e-10): S2's arrival preempts S1 at time
1 − 1e-9, where S1's remaining time 1e-9 is within the tolerance, so S1 is
marked complete with CT = 1 − 1e-9 < 0 + 1 and WT = −1e-9 < 0. -/
theorem c7_counterexample :
    srtf_preemptive [⟨"S1",0,1,0⟩, ⟨"S2",1 - 1/1000000000, 1/2000000000, 0⟩]
        0 50 =
      some ([("S1", 0, 1 - 1/1000000000),
             ("S2", 1 - 1/1000000000, 1 - 1/2000000000)],
            [("S1", (1 - 1/1000000000, 1 - 1/1000000000, -(1/1000000000))),
             ("S2", (1 - 1/2000000000, 1/2000000000, 0))]) ∧
    (-(1/1000000000) : ℚ) < 0 ∧ (1 - 1/1000000000 : ℚ) < 0 + 1 := by decide

/-- Claim C10 (counterexample): admission walks the working array in input
order, so an unadmitted process whose arrival is within the ended slice can
be skipped when an earlier-indexed process has a later arrival.  On the
input list [T1(0,5), T3(3,1), T2(1,1)] with quantum 2, the first slice ends
at time 2 with T1 still holding remaining time 3; T2 arrived at 1 ≤ 2 and
was never admitted, yet the resulting ready queue is just [T1] (admission
stopped at T3, arrival 3 > 2).  Consequently T2 does not receive the CPU
before the preempted T1 runs again, as the full run shows. -/
theorem c10_counterexample :
    rrBody [⟨"T1",0,5,0⟩, ⟨"T3",3,1,0⟩, ⟨"T2",1,1,0⟩] 2 0
        (rrInit [⟨"T1",0,5,0⟩, ⟨"T3",3,1,0⟩, ⟨"T2",1,1,0⟩]) =
      .next { work := [⟨"T1",0,5,0,5⟩, ⟨"T3",3,1,0,1⟩, ⟨"T2",1,1,0,1⟩]
              queue := [⟨"T1",0,5,0,3⟩], arrivalIdx := 1, time := 2
              timeline := [("T1",0,2)], metrics := [], completed := []
              lastRun := some "T1" } ∧
    ((1:ℚ) ≤ 2 ∧ ¬("T2" = "T1")) ∧
    (round_robin [⟨"T1",0,5,0⟩, ⟨"T3",3,1,0⟩, ⟨"T2",1,1,0⟩] 2 0 50).map
        (fun r => r.1.map (fun seg => seg.1)) =
      some ["T1","T3","T2","T1"] := by decide

/-- Claim C9 (counterexample): for the empty workload
`calculate_average_metrics` returns the empty dict, so the average and
throughput statistics are not "defined as 0" — they are absent
altogether. -/
theorem c9_counterexample :
    calculate_average_metrics [] 0 = [] ∧
    (calculate_average_metrics [] 0).lookup "Average Turnaround Time" =
      none := by
  exact ⟨rfl, rfl⟩

/-- Claim C9 (amended): each of the six scheduling functions maps the empty
workload to an empty timeline and empty metrics without error;
`calculate_cpu_utilization` is 0 when the final time is 0; but
`calculate_average_metrics` returns the empty dict (no statistics at all)
for empty metrics, defining throughput as 0 only when the metrics are
non-empty and the final time is 0. -/
theorem c9_empty_workload_behaviour :
    (∀ cso : ℚ, ∀ fuel : Nat,
      sjf_non_preemptive [] cso (fuel + 1) = some ([], [])) ∧
    (∀ cso : ℚ, ∀ fuel : Nat,
      priority_non_preemptive [] cso (fuel + 1) = some ([], [])) ∧
    (∀ cso : ℚ, ∀ fuel : Nat,
      srtf_preemptive [] cso (fuel + 1) = some ([], [])) ∧
    (∀ cso : ℚ, ∀ fuel : Nat,
      priority_preemptive [] cso (fuel + 1) = some ([], [])) ∧
    (∀ cso : ℚ, fcfs [] cso = ([], [])) ∧
    (∀ q cso : ℚ, ∀ fuel : Nat,
      round_robin [] q cso (fuel + 1) = some ([], [])) ∧
    calculate_cpu_utilization [] 0 = 0 ∧
    calculate_average_metrics [] 0 = [] ∧
    (∀ ms : List (String × Metric), ms ≠ [] →
      (calculate_average_metrics ms 0).lookup "Throughput (proc/unit)" =
        some 0) := by
  refine ⟨?_, ?_, ?_, ?_, ?_, ?_, rfl, rfl, ?_⟩
  · intro cso fuel
    have hb : npBody (fun p => p.burst) [] cso npInit = .stop npInit := rfl
    unfold sjf_non_preemptive
    rw [iterate, hb]; rfl
  · intro cso fuel
    have hb : npBody (fun p => p.priority) [] cso npInit = .stop npInit := rfl
    unfold priority_non_preemptive
    rw [iterate, hb]; rfl
  · intro cso fuel
    have hb : pBody (fun p => p.remaining) srtfNPT [] cso (pInit []) =
        .stop (pInit []) := rfl
    unfold srtf_preemptive
    rw [iterate, hb]; rfl
  · intro cso fuel
    have hb : pBody (fun p => p.priority) prioNPT [] cso (pInit []) =
        .stop (pInit []) := rfl
    unfold priority_preemptive
    rw [iterate, hb]; rfl
  · intro cso; rfl
  · intro q cso fuel
    have hb : rrBody [] q cso (rrInit []) = .stop (rrInit []) := rfl
    unfold round_robin
    rw [iterate, hb]; rfl
  · intro ms hms
    unfold calculate_average_metrics
    rw [if_neg hms]
    simp [List.lookup]

/-- Witness for C9: the throughput clause of `c9_empty_workload_behaviour`
applied to a concrete non-empty metrics map with final time 0. -/
theorem c9_empty_workload_behaviour_witness :
    (calculate_average_metrics [("X", (1, 1, 1))] 0).lookup
      "Throughput (proc/unit)" = some 0 :=
  c9_empty_workload_behaviour.2.2.2.2.2.2.2.2 [("X", (1, 1, 1))] (by decide)

/-! ## Properties of the selection and timeline primitives -/

/-- If `pickMin` finds nothing, no list element satisfies `good`. -/
theorem pickMin_none_all {α : Type} {good : α → Bool} {key : α → ℚ} :
    ∀ {l : List α}, pickMin good key l = none → ∀ x ∈ l, good x = false := by
  intro l
  induction l with
  | nil => intro _ x hx; cases hx
  | cons p rest ih =>
    intro h x hx
    rw [pickMin] at h
    rcases hr : pickMin good key rest with - | ⟨pre, c, post⟩ <;>
      simp only [hr] at h
    · by_cases hg : good p = true
      · rw [if_pos hg] at h; cases h
      · rcases List.mem_cons.mp hx with rfl | hx'
        · simpa using hg
        · exact ih hr x hx'
    · by_cases hg : good p = true
      · rw [if_pos hg] at h
        by_cases hk : key p ≤ key c
        · rw [if_pos hk] at h; cases h
        · rw [if_neg hk] at h; cases h
      · rw [if_neg hg] at h; cases h

/-- What a successful `pickMin` returns: the chosen element's context within
the list, its `good`-ness, and its minimality among the `good` elements. -/
theorem pickMin_some {α : Type} {good : α → Bool} {key : α → ℚ} :
    ∀ {l : List α} {pre : List α} {c : α} {post : List α},
      pickMin good key l = some (pre, c, post) →
      l = pre ++ c :: post ∧ good c = true ∧
        ∀ x ∈ l, good x = true → key c ≤ key x := by
  intro l
  induction l with
  | nil => intro pre c post h; cases h
  | cons p rest ih =>
    intro pre c post h
    rw [pickMin] at h
    rcases hr : pickMin good key rest with - | ⟨pre1, c1, post1⟩ <;>
      simp only [hr] at h
    · by_cases hg : good p = true
      · rw [if_pos hg] at h
        obtain ⟨rfl, rfl, rfl⟩ :
            pre = [] ∧ c = p ∧ post = rest := by
          simp only [Option.some.injEq, Prod.mk.injEq] at h
          exact ⟨h.1.symm, h.2.1.symm, h.2.2.symm⟩
        refine ⟨rfl, hg, ?_⟩
        intro x hx hgx
        rcases List.mem_cons.mp hx with rfl | hx'
        · exact le_refl _
        · exact absurd hgx (by simp [pickMin_none_all hr x hx'])
      · rw [if_neg hg] at h; cases h
    · obtain ⟨hdec, hgood, hmin⟩ := ih hr
      by_cases hg : good p = true
      · rw [if_pos hg] at h
        by_cases hk : key p ≤ key c1
        · rw [if_pos hk] at h
          obtain ⟨rfl, rfl, rfl⟩ :
              pre = [] ∧ c = p ∧ post = rest := by
            simp only [Option.some.injEq, Prod.mk.injEq] at h
            exact ⟨h.1.symm, h.2.1.symm, h.2.2.symm⟩
          refine ⟨rfl, hg, ?_⟩
          intro x hx hgx
          rcases List.mem_cons.mp hx with rfl | hx'
          · exact le_refl _
          · exact le_trans hk (hmin x hx' hgx)
        · rw [if_neg hk] at h
          obtain ⟨rfl, rfl, rfl⟩ :
              pre = p :: pre1 ∧ c = c1 ∧ post = post1 := by
            simp only [Option.some.injEq, Prod.mk.injEq] at h
            exact ⟨h.1.symm, h.2.1.symm, h.2.2.symm⟩
          refine ⟨by rw [hdec]; rfl, hgood, ?_⟩
          intro x hx hgx
          rcases List.mem_cons.mp hx with rfl | hx'
          · exact le_of_lt (lt_of_not_le hk)
          · exact hmin x hx' hgx
      · rw [if_neg hg] at h
        obtain ⟨rfl, rfl, rfl⟩ :
            pre = p :: pre1 ∧ c = c1 ∧ post = post1 := by
          simp only [Option.some.injEq, Prod.mk.injEq] at h
          exact ⟨h.1.symm, h.2.1.symm, h.2.2.symm⟩
        refine ⟨by rw [hdec]; rfl, hgood, ?_⟩
        intro x hx hgx
        rcases List.mem_cons.mp hx with rfl | hx'
        · exact absurd hgx (by simp [hg])
        · exact hmin x hx' hgx

/-- `minQ` agrees with the library minimum. -/
theorem minQ_eq_min? (l : List ℚ) : minQ l = l.min? := by
  cases l <;> rfl

/-- `minQ` returns `none` exactly on the empty list. -/
theorem minQ_eq_none {l : List ℚ} : minQ l = none ↔ l = [] := by
  cases l <;> simp [minQ]

/-- Specification of `minQ`: a membership that bounds the list from below. -/
theorem minQ_some_iff {l : List ℚ} {a : ℚ} :
    minQ l = some a ↔ a ∈ l ∧ ∀ b ∈ l, a ≤ b := by
  rw [minQ_eq_min?]
  exact @List.min?_eq_some_iff ℚ a _ _ ⟨@fun a b h1 h2 => le_antisymm h1 h2⟩
    (fun a => le_refl a) (fun a b => min_choice a b)
    (fun a b c => le_min_iff) l

/-- Membership in `addPid`. -/
theorem mem_addPid {c : List String} {pid q : String} :
    q ∈ addPid c pid ↔ q = pid ∨ q ∈ c := by
  unfold addPid
  split_ifs with h
  · constructor
    · exact fun hq => Or.inr hq
    · rintro (rfl | hq) <;> [exact h; exact hq]
  · simp [List.mem_cons]

/-- Length of `addPid`. -/
theorem length_addPid {c : List String} {pid : String} :
    (addPid c pid).length = if pid ∈ c then c.length else c.length + 1 := by
  unfold addPid
  split_ifs <;> rfl

/-- `addPid` preserves distinctness. -/
theorem nodup_addPid {c : List String} {pid : String} (h : c.Nodup) :
    (addPid c pid).Nodup := by
  unfold addPid
  split_ifs with hmem
  · exact h
  · exact List.Nodup.cons hmem h

/-! ### Timeline well-formedness predicates

The timeline is kept in reverse order: the head is the most recent segment. -/

/-- In the reversed timeline each newer segment `a` starts exactly
`gap a.1 b.1` after the end of the adjacent older segment `b`, where the gap
depends only on the two subjects. -/
def Chained (gap : String → String → ℚ) : List Seg → Prop
  | a :: b :: t => a.2.1 = b.2.2 + gap a.1 b.1 ∧ Chained gap (b :: t)
  | _ => True

/-- Adjacent segments never share a subject. -/
def AdjDistinct : List Seg → Prop
  | a :: b :: t => a.1 ≠ b.1 ∧ AdjDistinct (b :: t)
  | _ => True

/-- The subject of the most recent non-Idle segment, if any. -/
def lastBusy (tl : List Seg) : Option String :=
  (tl.find? (fun seg => seg.1 != "Idle")).map (fun seg => seg.1)

/-- Total duration of all segments (Idle included). -/
def durSum (tl : List Seg) : ℚ :=
  (tl.map (fun seg => seg.2.2 - seg.2.1)).sum

/-- The gap rule of SJF, SRTF, both Priority policies and Round Robin: the
context-switch overhead precedes every non-Idle segment that has a
predecessor, and Idle segments start flush at the previous end. -/
def npGap (cso : ℚ) (a _b : String) : ℚ := if a = "Idle" then 0 else cso

/-- The gap rule of FCFS: the overhead is inserted exactly after an Idle
segment. -/
def fcfsGap (cso : ℚ) (_a b : String) : ℚ := if b = "Idle" then cso else 0

/-- A zero-gap chain telescopes: the total duration is the distance from the
oldest start to the newest end. -/
theorem durSum_of_chained {gap : String → String → ℚ}
    (hzero : ∀ a b, gap a b = 0) :
    ∀ {tl : List Seg}, Chained gap tl →
      ∀ a ∈ tl.head?, ∀ z ∈ tl.getLast?, durSum tl = a.2.2 - z.2.1 := by
  intro tl
  induction tl with
  | nil => intro _ a ha; cases ha
  | cons x t ih =>
    intro hch a ha z hz
    rw [List.head?_cons, Option.mem_some_iff] at ha
    subst ha
    cases t with
    | nil =>
      rw [List.getLast?_singleton, Option.mem_some_iff] at hz
      subst hz
      simp [durSum]
    | cons y t' =>
      obtain ⟨hxy, hch'⟩ := hch
      have hz' : z ∈ (y :: t').getLast? := by
        rwa [List.getLast?_cons_cons] at hz
      have hrec := ih hch' y (by simp) z hz'
      have hsum : durSum (x :: y :: t') =
          (x.2.2 - x.2.1) + durSum (y :: t') := by
        simp [durSum]
      rw [hsum, hrec, hxy, hzero]
      ring

/-- `pushIdle` onto an Idle head extends it. -/
theorem pushIdle_idle (s0 e0 t na : ℚ) (rest : List Seg) :
    pushIdle (("Idle", s0, e0) :: rest) t na = ("Idle", s0, na) :: rest := by
  simp [pushIdle]

/-- `pushIdle` onto a non-Idle head prepends a fresh Idle segment. -/
theorem pushIdle_busy {subj : String} (h : subj ≠ "Idle") (s0 e0 t na : ℚ)
    (rest : List Seg) :
    pushIdle ((subj, s0, e0) :: rest) t na =
      ("Idle", t, na) :: (subj, s0, e0) :: rest := by
  simp [pushIdle, h]

/-- `mergePush` merges into a same-subject head within tolerance. -/
theorem mergePush_same {pid : String} {e0 st : ℚ} (h : |e0 - st| < eps)
    (s0 en : ℚ) (rest : List Seg) :
    mergePush ((pid, s0, e0) :: rest) pid st en = (pid, s0, en) :: rest := by
  simp [mergePush, h]

/-- `mergePush` onto a different subject prepends a fresh segment. -/
theorem mergePush_diff {subj pid : String} (h : subj ≠ pid) (s0 e0 st en : ℚ)
    (rest : List Seg) :
    mergePush ((subj, s0, e0) :: rest) pid st en =
      (pid, st, en) :: (subj, s0, e0) :: rest := by
  simp [mergePush, fun hc : subj = pid => h hc]

/-- The most recent busy subject is unchanged by `pushIdle`. -/
theorem lastBusy_pushIdle (tl : List Seg) (t na : ℚ) :
    lastBusy (pushIdle tl t na) = lastBusy tl := by
  match tl with
  | [] => simp [pushIdle, lastBusy]
  | (subj, s0, e0) :: rest =>
    by_cases h : subj = "Idle"
    · subst h
      rw [pushIdle_idle]
      simp [lastBusy, List.find?]
    · rw [pushIdle_busy h]
      simp [lastBusy, List.find?, h]

/-- A non-Idle head is the most recent busy subject. -/
theorem lastBusy_cons_busy {subj : String} (h : subj ≠ "Idle") (st en : ℚ)
    (tl : List Seg) : lastBusy ((subj, st, en) :: tl) = some subj := by
  have hb : (subj != "Idle") = true := by simpa using h
  simp [lastBusy, List.find?, hb]

/-- `lastBusy` of a timeline with no busy segment. -/
theorem lastBusy_eq_none {tl : List Seg} (h : lastBusy tl = none) :
    ∀ seg ∈ tl, seg.1 = "Idle" := by
  intro seg hseg
  unfold lastBusy at h
  rw [Option.map_eq_none'] at h
  have := List.find?_eq_none.mp h seg hseg
  simpa using this

/-- `lastBusy` returning a subject exhibits a busy segment carrying it. -/
theorem lastBusy_eq_some {tl : List Seg} {l : String}
    (h : lastBusy tl = some l) :
    ∃ seg ∈ tl, seg.1 = l ∧ l ≠ "Idle" := by
  unfold lastBusy at h
  rw [Option.map_eq_some'] at h
  obtain ⟨seg, hfind, rfl⟩ := h
  refine ⟨seg, List.mem_of_find?_eq_some hfind, rfl, ?_⟩
  have := List.find?_some hfind
  simpa using this

/-- An all-Idle timeline with distinct adjacent subjects has at most one
segment. -/
theorem all_idle_short {tl : List Seg} (hadj : AdjDistinct tl)
    (hall : ∀ seg ∈ tl, seg.1 = "Idle") :
    tl = [] ∨ ∃ seg, tl = [seg] ∧ seg.1 = "Idle" := by
  match tl with
  | [] => exact Or.inl rfl
  | [seg] => exact Or.inr ⟨seg, rfl, hall seg (by simp)⟩
  | a :: b :: t =>
    exact absurd (hall b (by simp)) (by
      have ha := hall a (by simp)
      have := hadj.1
      rw [ha] at this
      exact fun hb => this hb.symm)

/-- The validity conditions of spec §3/§4.1, plus the requirement that no
process uses the reserved subject name `"Idle"`. -/
def ValidWorkload (procs : List Proc) : Prop :=
  (∀ p ∈ procs, 0 < p.burst ∧ 0 ≤ p.arrival ∧ 0 ≤ p.priority ∧
    p.pid ≠ "Idle") ∧
  (procs.map (fun p => p.pid)).Nodup

/-- The timeline portion of every policy's loop invariant: all segments have
positive duration, consecutive segments are separated exactly by the policy's
gap rule, adjacent segments have distinct subjects, the newest segment ends
at the clock, and the oldest starts at 0. -/
structure TLWF (gap : String → String → ℚ) (time : ℚ) (tl : List Seg) :
    Prop where
  time0 : 0 ≤ time
  pos : ∀ seg ∈ tl, seg.2.1 < seg.2.2
  chain : Chained gap tl
  adj : AdjDistinct tl
  hd : ∀ seg ∈ tl.head?, seg.2.2 = time
  base : ∀ seg ∈ tl.getLast?, seg.2.1 = 0
  emp : tl = [] → time = 0

/-- `pushIdle` preserves timeline well-formedness when the gap before an Idle
segment is zero. -/
theorem TLWF.pushIdle_pres {gap : String → String → ℚ} {time : ℚ}
    {tl : List Seg} (h : TLWF gap time tl) {na : ℚ} (hna : time < na)
    (hgapI : ∀ b, b ≠ "Idle" → gap "Idle" b = 0) :
    TLWF gap na (pushIdle tl time na) := by
  rcases htl : tl with - | ⟨⟨subj, s0, e0⟩, rest⟩
  · subst htl
    have h0 := h.emp rfl
    constructor
    · exact le_of_lt (h0 ▸ hna)
    · intro seg hseg
      rcases List.mem_singleton.mp hseg with rfl
      exact hna
    · trivial
    · trivial
    · intro seg hseg
      rcases Option.mem_some_iff.mp hseg with rfl
      rfl
    · intro seg hseg
      rcases Option.mem_some_iff.mp hseg with rfl
      exact h0
    · intro hcon; cases hcon
  · subst htl
    have hstop : e0 = time := h.hd (subj, s0, e0) (by simp)
    by_cases hs : subj = "Idle"
    · subst hs
      rw [pushIdle_idle]
      constructor
      · exact le_trans h.time0 (le_of_lt hna)
      · intro seg hseg
        rcases List.mem_cons.mp hseg with rfl | hseg'
        · exact lt_trans (hstop ▸ h.pos ("Idle", s0, e0) (by simp)) hna
        · exact h.pos seg (List.mem_cons_of_mem _ hseg')
      · rcases rest with - | ⟨b, rest'⟩
        · trivial
        · exact ⟨h.chain.1, h.chain.2⟩
      · rcases rest with - | ⟨b, rest'⟩
        · trivial
        · exact ⟨h.adj.1, h.adj.2⟩
      · intro seg hseg
        rcases Option.mem_some_iff.mp hseg with rfl
        rfl
      · intro seg hseg
        rcases rest with - | ⟨b, rest'⟩
        · rcases Option.mem_some_iff.mp hseg with rfl
          exact h.base ("Idle", s0, e0) (by simp)
        · rw [List.getLast?_cons_cons] at hseg
          exact h.base seg (by rw [List.getLast?_cons_cons]; exact hseg)
      · intro hcon; cases hcon
    · rw [pushIdle_busy hs]
      constructor
      · exact le_trans h.time0 (le_of_lt hna)
      · intro seg hseg
        rcases List.mem_cons.mp hseg with rfl | hseg'
        · exact hna
        · exact h.pos seg hseg'
      · exact ⟨by simp [hstop, hgapI subj hs], h.chain⟩
      · exact ⟨by simpa using Ne.symm hs, h.adj⟩
      · intro seg hseg
        rcases Option.mem_some_iff.mp hseg with rfl
        rfl
      · intro seg hseg
        rw [List.getLast?_cons_cons] at hseg
        exact h.base seg hseg
      · intro hcon; cases hcon

/-- Plain `cons` of a non-Idle segment (the non-preemptive policies and FCFS
append without merging) preserves timeline well-formedness. -/
theorem TLWF.push_busy {gap : String → String → ℚ} {time : ℚ}
    {tl : List Seg} (h : TLWF gap time tl) {pid : String} {t1 en : ℚ}
    (hlt : t1 < en) (htime : time ≤ t1)
    (hstart : ∀ b ∈ tl.head?, t1 = b.2.2 + gap pid b.1)
    (hstart0 : tl = [] → t1 = 0)
    (hadj : ∀ b ∈ tl.head?, pid ≠ b.1) :
    TLWF gap en ((pid, t1, en) :: tl) := by
  constructor
  · exact le_of_lt (lt_of_le_of_lt (le_trans h.time0 htime) hlt)
  · intro seg hseg
    rcases List.mem_cons.mp hseg with rfl | hseg'
    · exact hlt
    · exact h.pos seg hseg'
  · rcases htl : tl with - | ⟨b, rest⟩
    · trivial
    · exact ⟨by simpa using hstart b (by rw [htl]; simp), htl ▸ h.chain⟩
  · rcases htl : tl with - | ⟨b, rest⟩
    · trivial
    · exact ⟨by simpa using hadj b (by rw [htl]; simp), htl ▸ h.adj⟩
  · intro seg hseg
    rcases Option.mem_some_iff.mp hseg with rfl
    rfl
  · intro seg hseg
    rcases htl : tl with - | ⟨b, rest⟩
    · subst htl
      rcases Option.mem_some_iff.mp hseg with rfl
      exact hstart0 rfl
    · subst htl
      rw [List.getLast?_cons_cons] at hseg
      exact h.base seg hseg
  · intro hcon; cases hcon

/-- `mergePush` of a non-Idle slice preserves timeline well-formedness,
provided the slice starts flush at the clock when it continues the same
subject (no charge on a resume) and starts by the gap rule otherwise. -/
theorem TLWF.mergePush_pres {gap : String → String → ℚ} {time : ℚ}
    {tl : List Seg} (h : TLWF gap time tl) {pid : String} {st en : ℚ}
    (hlt : st < en) (htime : time ≤ st)
    (hsame : ∀ b ∈ tl.head?, b.1 = pid → st = time)
    (hdiff : ∀ b ∈ tl.head?, b.1 ≠ pid → st = b.2.2 + gap pid b.1)
    (hstart0 : tl = [] → st = 0) :
    TLWF gap en (mergePush tl pid st en) := by
  rcases htl : tl with - | ⟨⟨subj, s0, e0⟩, rest⟩
  · subst htl
    have h0 : st = 0 := hstart0 rfl
    rw [mergePush]
    exact h.push_busy hlt htime (by intro b hb; cases hb)
      (fun _ => h0) (by intro b hb; cases hb)
  · subst htl
    have hstop : e0 = time := h.hd (subj, s0, e0) (by simp)
    by_cases hsubj : subj = pid
    · subst hsubj
      have hst : st = time := hsame (subj, s0, e0) (by simp) rfl
      have hmerge : |e0 - st| < eps := by
        rw [hstop, hst]
        simpa using by norm_num [eps]
      rw [mergePush_same hmerge]
      constructor
      · exact le_of_lt (lt_of_le_of_lt (le_trans h.time0 htime) hlt)
      · intro seg hseg
        rcases List.mem_cons.mp hseg with rfl | hseg'
        · calc s0 < e0 := h.pos (subj, s0, e0) (by simp)
            _ = time := hstop
            _ ≤ st := htime
            _ < en := hlt
        · exact h.pos seg (List.mem_cons_of_mem _ hseg')
      · rcases rest with - | ⟨b, rest'⟩
        · trivial
        · exact ⟨h.chain.1, h.chain.2⟩
      · rcases rest with - | ⟨b, rest'⟩
        · trivial
        · exact ⟨h.adj.1, h.adj.2⟩
      · intro seg hseg
        rcases Option.mem_some_iff.mp hseg with rfl
        rfl
      · intro seg hseg
        rcases rest with - | ⟨b, rest'⟩
        · rcases Option.mem_some_iff.mp hseg with rfl
          exact h.base (subj, s0, e0) (by simp)
        · rw [List.getLast?_cons_cons] at hseg
          exact h.base seg (by rw [List.getLast?_cons_cons]; exact hseg)
      · intro hcon; cases hcon
    · rw [mergePush_diff hsubj]
      exact h.push_busy hlt htime
        (by
          intro b hb
          rcases Option.mem_some_iff.mp hb with rfl
          exact hdiff (subj, s0, e0) (by simp) (fun hc => hsubj hc))
        (by intro hcon; cases hcon)
        (by
          intro b hb
          rcases Option.mem_some_iff.mp hb with rfl
          exact fun hc => hsubj hc.symm)

/-! ## Invariant of the non-preemptive loops -/

/-- Loop invariant of `sjf_non_preemptive` / `priority_non_preemptive`. -/
structure NPInv (procs : List Proc) (cso : ℚ) (s : NPState) : Prop where
  tl : TLWF (npGap cso) s.time s.timeline
  lastB : s.lastPid = lastBusy s.timeline
  subj_comp : ∀ seg ∈ s.timeline, seg.1 = "Idle" ∨ seg.1 ∈ s.completed
  comp_sub : ∀ pid ∈ s.completed, pid ∈ procs.map (fun p => p.pid)
  comp_nodup : s.completed.Nodup
  comp_metrics : ∀ pid : String,
    pid ∈ s.completed ↔ pid ∈ s.metrics.map (fun e => e.1)
  metrics_ok : ∀ e ∈ s.metrics, ∃ p ∈ procs, p.pid = e.1 ∧
    e.2.2.1 = e.2.1 - p.arrival ∧ e.2.2.2 = e.2.2.1 - p.burst ∧
    p.arrival + p.burst ≤ e.2.1 ∧ e.2.1 ≤ s.time
  last_ct : s.completed.length = procs.length →
    s.metrics = [] ∨ ∃ e ∈ s.metrics, e.2.1 = s.time
  metrics_tl : s.metrics ≠ [] → s.timeline ≠ []

/-- The invariant holds initially. -/
theorem npInv_init (procs : List Proc) (cso : ℚ) : NPInv procs cso npInit := by
  constructor
  · constructor
    · exact le_refl 0
    · intro seg hseg; cases hseg
    · trivial
    · trivial
    · intro seg hseg; cases hseg
    · intro seg hseg; cases hseg
    · intro _; rfl
  · rfl
  · intro seg hseg; cases hseg
  · intro pid hpid; cases hpid
  · exact List.nodup_nil
  · intro pid; simp [npInit]
  · intro e he; cases he
  · intro h
    exact Or.inl rfl
  · intro h
    exact absurd rfl h

/-- `pushIdle` never returns an empty timeline. -/
theorem pushIdle_ne_nil (tl : List Seg) (t na : ℚ) : pushIdle tl t na ≠ [] := by
  rcases tl with - | ⟨⟨subj, s0, e0⟩, rest⟩
  · exact List.cons_ne_nil _ _
  · rw [pushIdle]
    split_ifs <;> exact List.cons_ne_nil _ _

/-- `mergePush` never returns an empty timeline. -/
theorem mergePush_ne_nil (tl : List Seg) (pid : String) (st en : ℚ) :
    mergePush tl pid st en ≠ [] := by
  rcases tl with - | ⟨⟨subj, s0, e0⟩, rest⟩
  · exact List.cons_ne_nil _ _
  · rw [mergePush]
    split_ifs <;> exact List.cons_ne_nil _ _

/-- Segments of `pushIdle tl t na` are Idle or come from `tl`. -/
theorem mem_pushIdle {tl : List Seg} {t na : ℚ} {seg : Seg}
    (h : seg ∈ pushIdle tl t na) : seg.1 = "Idle" ∨ seg ∈ tl := by
  rcases tl with - | ⟨⟨subj, s0, e0⟩, rest⟩
  · rcases List.mem_singleton.mp h with rfl
    exact Or.inl rfl
  · by_cases hs : subj = "Idle"
    · subst hs
      rw [pushIdle_idle] at h
      rcases List.mem_cons.mp h with rfl | h'
      · exact Or.inl rfl
      · exact Or.inr (List.mem_cons_of_mem _ h')
    · rw [pushIdle_busy hs] at h
      rcases List.mem_cons.mp h with rfl | h'
      · exact Or.inl rfl
      · exact Or.inr h'

/-- Segments of `mergePush tl pid st en` carry `pid` or come from `tl`. -/
theorem mem_mergePush {tl : List Seg} {pid : String} {st en : ℚ} {seg : Seg}
    (h : seg ∈ mergePush tl pid st en) : seg.1 = pid ∨ seg ∈ tl := by
  rcases tl with - | ⟨⟨subj, s0, e0⟩, rest⟩
  · rcases List.mem_singleton.mp h with rfl
    exact Or.inl rfl
  · rw [mergePush] at h
    split_ifs at h
    · rcases List.mem_cons.mp h with rfl | h'
      · exact Or.inl rfl
      · exact Or.inr (List.mem_cons_of_mem _ h')
    · rcases List.mem_cons.mp h with rfl | h'
      · exact Or.inl rfl
      · exact Or.inr h'

/-- One step of a non-preemptive loop preserves the invariant and never
decreases the clock. -/
theorem npInv_step {key : Proc → ℚ} {procs : List Proc} {cso : ℚ}
    {s s' : NPState} (hv : ValidWorkload procs) (hcso : 0 ≤ cso)
    (hinv : NPInv procs cso s)
    (hstep : npBody key procs cso s = .next s' ∨
      npBody key procs cso s = .stop s') :
    NPInv procs cso s' ∧ s.time ≤ s'.time := by
  unfold npBody at hstep
  by_cases hlen : s.completed.length < procs.length
  case neg =>
    rw [if_neg hlen] at hstep
    rcases hstep with h | h
    · cases h
    · cases h
      exact ⟨hinv, le_refl _⟩
  rw [if_pos hlen] at hstep
  rcases hsel : pickMin (fun p => decide (p.arrival ≤ s.time) &&
      !(s.completed.contains p.pid)) key procs with - | ⟨pre, cur, post⟩ <;>
    simp only [hsel] at hstep
  · rcases hna : minQ ((procs.filter
        (fun p => !(s.completed.contains p.pid))).map (fun p => p.arrival))
      with - | na <;> simp only [hna] at hstep
    · rcases hstep with h | h
      · cases h
      · cases h
        exact ⟨hinv, le_refl _⟩
    · rcases hstep with h | h
      swap
      · cases h
      cases h
      obtain ⟨hmem, -⟩ := minQ_some_iff.mp hna
      obtain ⟨p0, hp0mem, hp0na⟩ := List.mem_map.mp hmem
      obtain ⟨hp0procs, hp0fil⟩ := List.mem_filter.mp hp0mem
      have hp0c : s.completed.contains p0.pid = false := by
        simpa using hp0fil
      have hgood := pickMin_none_all hsel p0 hp0procs
      have htlt : s.time < na := by
        rw [← hp0na]
        by_contra hcon
        push_neg at hcon
        simp [hcon] at hgood
        exact absurd hgood (by simpa using hp0c)
      refine ⟨?_, le_of_lt htlt⟩
      constructor
      · exact hinv.tl.pushIdle_pres htlt (fun b hb => by simp [npGap])
      · rw [lastBusy_pushIdle]
        exact hinv.lastB
      · intro seg hseg
        rcases mem_pushIdle hseg with h1 | h1
        · exact Or.inl h1
        · exact hinv.subj_comp seg h1
      · exact hinv.comp_sub
      · exact hinv.comp_nodup
      · exact hinv.comp_metrics
      · intro e he
        obtain ⟨p, hp, h1, h2, h3, h4, h5⟩ := hinv.metrics_ok e he
        exact ⟨p, hp, h1, h2, h3, h4, le_trans h5 (le_of_lt htlt)⟩
      · intro hfull
        exact absurd hfull (Nat.ne_of_lt hlen)
      · intro _
        exact pushIdle_ne_nil _ _ _
  · rcases hstep with h | h
    swap
    · cases h
    cases h
    obtain ⟨hdec, hgood, -⟩ := pickMin_some hsel
    have hcurmem : cur ∈ procs := by
      rw [hdec]
      exact List.mem_append_right _ (List.mem_cons_self _ _)
    obtain ⟨hburst, harr0, -, hpidI⟩ := hv.1 cur hcurmem
    rw [Bool.and_eq_true] at hgood
    have havail : cur.arrival ≤ s.time := by
      have := hgood.1; simpa using this
    have hnotc : cur.pid ∉ s.completed := by
      have := hgood.2; simpa using this
    have hch0 : 0 ≤ (match s.lastPid with
        | some l => if l ≠ cur.pid then cso else 0
        | none => if 0 < s.time then cso else 0) := by
      rcases s.lastPid with - | l
      · show 0 ≤ if 0 < s.time then cso else 0
        split_ifs <;> simp [hcso]
      · show 0 ≤ if l ≠ cur.pid then cso else 0
        split_ifs <;> simp [hcso]
    have htlemono : s.time ≤ s.time + (match s.lastPid with
        | some l => if l ≠ cur.pid then cso else 0
        | none => if 0 < s.time then cso else 0) := by
      exact le_add_of_nonneg_right hch0
    have hchcso : s.timeline ≠ [] → (match s.lastPid with
        | some l => if l ≠ cur.pid then cso else 0
        | none => if 0 < s.time then cso else 0) = cso := by
      intro htlne
      rcases hlp : s.lastPid with - | l
      · have hlb : lastBusy s.timeline = none := by
          rw [← hinv.lastB, hlp]
        have hall := lastBusy_eq_none hlb
        rcases all_idle_short hinv.tl.adj hall with h1 | ⟨seg, h1, h2⟩
        · exact absurd h1 htlne
        · have hstop : seg.2.2 = s.time := hinv.tl.hd seg (by rw [h1]; simp)
          have hstart : seg.2.1 = 0 := hinv.tl.base seg (by rw [h1]; simp)
          have hposseg := hinv.tl.pos seg (by rw [h1]; simp)
          have : 0 < s.time := by
            rw [← hstop, ← hstart]
            exact hposseg
          simp [this]
      · have hlb : lastBusy s.timeline = some l := by
          rw [← hinv.lastB, hlp]
        obtain ⟨seg, hsegmem, hsegl, hlI⟩ := lastBusy_eq_some hlb
        have : seg.1 ∈ s.completed := by
          rcases hinv.subj_comp seg hsegmem with h1 | h1
          · exact absurd (hsegl ▸ h1) hlI
          · exact h1
        have hlne : l ≠ cur.pid := by
          rw [← hsegl]
          intro hcon
          exact hnotc (hcon ▸ this)
        simp [hlne]
    have hch00 : s.timeline = [] → (match s.lastPid with
        | some l => if l ≠ cur.pid then cso else 0
        | none => if 0 < s.time then cso else 0) = 0 := by
      intro htle
      have hlp : s.lastPid = none := by
        rw [hinv.lastB, htle]; rfl
      rw [hlp]
      have h0 : s.time = 0 := hinv.tl.emp htle
      simp [h0]
    refine ⟨?_, le_trans htlemono (le_add_of_nonneg_right (le_of_lt hburst))⟩
    constructor
    · refine hinv.tl.push_busy (lt_add_of_pos_right _ hburst) htlemono ?_ ?_ ?_
      · intro b hb
        have htlne : s.timeline ≠ [] := by
          intro hcon
          rw [hcon] at hb
          cases hb
        rw [hchcso htlne]
        have hbstop : b.2.2 = s.time := hinv.tl.hd b hb
        rw [hbstop]
        have : npGap cso cur.pid b.1 = cso := by
          simp [npGap, hpidI]
        rw [this]
      · intro htle
        rw [hch00 htle, hinv.tl.emp htle]
        norm_num
      · intro b hb
        rcases hinv.subj_comp b (by
          rcases htl2 : s.timeline with - | ⟨x, rest⟩
          · rw [htl2] at hb; cases hb
          · rw [htl2] at hb
            rcases Option.mem_some_iff.mp hb with rfl
            simp [htl2]) with h1 | h1
        · rw [h1]
          exact hpidI
        · intro hcon
          exact hnotc (hcon ▸ h1)
    · rw [lastBusy_cons_busy hpidI]
    · intro seg hseg
      rcases List.mem_cons.mp hseg with rfl | h1
      · exact Or.inr (mem_addPid.mpr (Or.inl rfl))
      · rcases hinv.subj_comp seg h1 with h2 | h2
        · exact Or.inl h2
        · exact Or.inr (mem_addPid.mpr (Or.inr h2))
    · intro pid hpid
      rcases mem_addPid.mp hpid with rfl | h1
      · exact List.mem_map_of_mem _ hcurmem
      · exact hinv.comp_sub pid h1
    · exact nodup_addPid hinv.comp_nodup
    · intro pid
      rw [mem_addPid, List.map_append, List.mem_append]
      constructor
      · rintro (rfl | h1)
        · exact Or.inr (by simp)
        · exact Or.inl ((hinv.comp_metrics pid).mp h1)
      · rintro (h1 | h1)
        · exact Or.inr ((hinv.comp_metrics pid).mpr h1)
        · simp at h1
          exact Or.inl h1
    · intro e he
      rcases List.mem_append.mp he with h1 | h1
      · obtain ⟨p, hp, h2, h3, h4, h5, h6⟩ := hinv.metrics_ok e h1
        refine ⟨p, hp, h2, h3, h4, h5, le_trans h6 ?_⟩
        exact le_trans htlemono (le_add_of_nonneg_right (le_of_lt hburst))
      · rcases List.mem_singleton.mp h1 with rfl
        refine ⟨cur, hcurmem, rfl, rfl, by ring, ?_, le_refl _⟩
        exact add_le_add_right (le_trans havail htlemono) cur.burst
    · intro hfull
      exact Or.inr ⟨_, List.mem_append_right _ (List.mem_singleton_self _), rfl⟩
    · intro _
      exact List.cons_ne_nil _ _

/-- The invariant holds at any state a non-preemptive loop reaches. -/
theorem npInv_iterate {key : Proc → ℚ} {procs : List Proc} {cso : ℚ}
    (hv : ValidWorkload procs) (hcso : 0 ≤ cso) :
    ∀ {fuel : Nat} {s s' : NPState}, NPInv procs cso s →
      iterate (npBody key procs cso) fuel s = some s' →
      NPInv procs cso s' := by
  intro fuel
  induction fuel with
  | zero => intro s s' _ h; cases h
  | succ n ih =>
    intro s s' hinv h
    rw [iterate] at h
    cases hb : npBody key procs cso s with
    | stop s2 =>
      rw [hb] at h
      cases h
      exact (npInv_step hv hcso hinv (Or.inr hb)).1
    | next s2 =>
      rw [hb] at h
      exact ih (npInv_step hv hcso hinv (Or.inl hb)).1 h
    | crash => rw [hb] at h; cases h

/-! ## Invariant of the preemptive loops -/

/-- Abstract specification of the next-preemption-time computation: it either
returns the current remaining time (run to completion) or the distance to
some strictly future arrival in the working set. -/
def NptSpec (npt : List PProc → List String → ℚ → PProc → ℚ) : Prop :=
  ∀ work completed t cur, npt work completed t cur = cur.remaining ∨
    ∃ p ∈ work, t < p.arrival ∧ npt work completed t cur = p.arrival - t

/-- `srtfNPT` satisfies the abstract spec. -/
theorem srtfNPT_spec : NptSpec srtfNPT := by
  intro work completed t cur
  unfold srtfNPT
  rcases hna : minQ ((work.filter (fun p => decide (t < p.arrival) &&
      !(completed.contains p.pid))).map (fun p => p.arrival)) with - | na <;>
    simp only [hna]
  · exact Or.inl trivial
  · obtain ⟨hmem, -⟩ := minQ_some_iff.mp hna
    obtain ⟨p0, hp0mem, hp0na⟩ := List.mem_map.mp hmem
    obtain ⟨hp0w, hp0f⟩ := List.mem_filter.mp hp0mem
    have harr : t < p0.arrival := by
      rcases Bool.and_eq_true .. ▸ hp0f with ⟨h1, -⟩
      simpa using h1
    split_ifs
    · exact Or.inr ⟨p0, hp0w, harr, by rw [hp0na]⟩
    · exact Or.inl rfl

/-- The scan of `priority_preemptive` records the arrival of some scanned
process (or nothing). -/
theorem prio_scan_spec (fa : List PProc) :
    ∀ b : Option ℚ × ℚ,
      (fa.foldl (fun (b : Option ℚ × ℚ) p =>
        if p.priority < b.2 then (some p.arrival, p.priority) else b) b).1 =
          b.1 ∨
      ∃ p ∈ fa, (fa.foldl (fun (b : Option ℚ × ℚ) p =>
        if p.priority < b.2 then (some p.arrival, p.priority) else b) b).1 =
          some p.arrival := by
  induction fa with
  | nil => intro b; exact Or.inl rfl
  | cons q rest ih =>
    intro b
    rw [List.foldl_cons]
    rcases ih (if q.priority < b.2 then (some q.arrival, q.priority) else b)
      with h | ⟨p, hp, h⟩
    · rw [h]
      split_ifs
      · exact Or.inr ⟨q, List.mem_cons_self _ _, rfl⟩
      · exact Or.inl rfl
    · exact Or.inr ⟨p, List.mem_cons_of_mem _ hp, h⟩

/-- `prioNPT` satisfies the abstract spec. -/
theorem prioNPT_spec : NptSpec prioNPT := by
  intro work completed t cur
  unfold prioNPT
  rcases prio_scan_spec (work.filter (fun p => decide (t < p.arrival) &&
      !(completed.contains p.pid))) (none, cur.priority) with h | ⟨p, hp, h⟩
  · simp only [show ((work.filter (fun p => decide (t < p.arrival) &&
        !(completed.contains p.pid))).foldl
        (fun (b : Option ℚ × ℚ) p =>
          if p.priority < b.2 then (some p.arrival, p.priority) else b)
        (none, cur.priority)).1 = none from h]
    exact Or.inl trivial
  · simp only [h]
    obtain ⟨hpw, hpf⟩ := List.mem_filter.mp hp
    have harr : t < p.arrival := by
      rcases Bool.and_eq_true .. ▸ hpf with ⟨h1, -⟩
      simpa using h1
    exact Or.inr ⟨p, hpw, harr, rfl⟩

/-- Loop invariant of `srtf_preemptive` / `priority_preemptive`. -/
structure PInv (procs : List Proc) (cso : ℚ) (s : PState) : Prop where
  tl : TLWF (npGap cso) s.time s.timeline
  lastRun_hd : (s.timeline = [] ∧ s.lastRun = none) ∨
    (∃ seg ∈ s.timeline.head?, s.lastRun = some seg.1)
  work_rel : ∀ q ∈ s.work, ∃ p ∈ procs, p.pid = q.pid ∧
    p.arrival = q.arrival ∧ p.burst = q.burst ∧ p.priority = q.priority
  work_pids : s.work.map (fun q => q.pid) = procs.map (fun p => p.pid)
  rem_le : ∀ q ∈ s.work, q.remaining ≤ q.burst
  rem_pos : ∀ q ∈ s.work, q.pid ∉ s.completed → 0 < q.remaining
  rem_nonneg : ∀ q ∈ s.work, 0 ≤ q.remaining
  exec : ∀ q ∈ s.work, q.burst - q.remaining ≤ s.time - q.arrival ∨
    (s.time < q.arrival ∧ q.remaining = q.burst)
  comp_sub : ∀ pid ∈ s.completed, pid ∈ procs.map (fun p => p.pid)
  comp_nodup : s.completed.Nodup
  comp_metrics : ∀ pid : String,
    pid ∈ s.completed ↔ pid ∈ s.metrics.map (fun e => e.1)
  metrics_ok : ∀ e ∈ s.metrics, ∃ p ∈ procs, p.pid = e.1 ∧
    e.2.2.1 = e.2.1 - p.arrival ∧ e.2.2.2 = e.2.2.1 - p.burst ∧
    p.arrival + p.burst - eps ≤ e.2.1 ∧ e.2.1 ≤ s.time
  last_ct : s.completed.length = s.work.length →
    s.metrics = [] ∨ ∃ e ∈ s.metrics, e.2.1 = s.time
  metrics_tl : s.metrics ≠ [] → s.timeline ≠ []

/-- The invariant holds initially. -/
theorem pInv_init (procs : List Proc) (cso : ℚ) (hv : ValidWorkload procs) :
    PInv procs cso (pInit procs) := by
  constructor
  · constructor
    · exact le_refl 0
    · intro seg hseg; cases hseg
    · trivial
    · trivial
    · intro seg hseg; cases hseg
    · intro seg hseg; cases hseg
    · intro _; rfl
  · exact Or.inl ⟨rfl, rfl⟩
  · intro q hq
    obtain ⟨p, hp, rfl⟩ := List.mem_map.mp hq
    exact ⟨p, hp, rfl, rfl, rfl, rfl⟩
  · simp [pInit, toPProc]
  · intro q hq
    obtain ⟨p, hp, rfl⟩ := List.mem_map.mp hq
    exact le_refl _
  · intro q hq _
    obtain ⟨p, hp, rfl⟩ := List.mem_map.mp hq
    exact (hv.1 p hp).1
  · intro q hq
    obtain ⟨p, hp, rfl⟩ := List.mem_map.mp hq
    exact le_of_lt (hv.1 p hp).1
  · intro q hq
    obtain ⟨p, hp, rfl⟩ := List.mem_map.mp hq
    show p.burst - p.burst ≤ 0 - p.arrival ∨ (0 < p.arrival ∧ p.burst = p.burst)
    rcases lt_or_le 0 p.arrival with h1 | h1
    · exact Or.inr ⟨h1, rfl⟩
    · left
      have := (hv.1 p hp).2.1
      have h0 : p.arrival = 0 := le_antisymm h1 this
      simp [h0]
  · intro pid hpid; cases hpid
  · exact List.nodup_nil
  · intro pid; simp [pInit]
  · intro e he; cases he
  · intro h
    exact Or.inl rfl
  · intro h
    exact absurd rfl h

/-- The head of `mergePush` always carries the pushed pid and end time. -/
theorem mergePush_head (tl : List Seg) (pid : String) (st en : ℚ) :
    ∃ st', (mergePush tl pid st en).head? = some (pid, st', en) := by
  rcases tl with - | ⟨⟨subj, s0, e0⟩, rest⟩
  · exact ⟨st, rfl⟩
  · rw [mergePush]
    split_ifs with h
    · exact ⟨s0, rfl⟩
    · exact ⟨st, rfl⟩

/-- One step of a preemptive loop preserves the invariant and never decreases
the clock. -/
theorem pInv_step {sel : PProc → ℚ}
    {npt : List PProc → List String → ℚ → PProc → ℚ} (hnpt : NptSpec npt)
    {procs : List Proc} {cso : ℚ} {s s' : PState}
    (hv : ValidWorkload procs) (hcso : 0 ≤ cso) (hinv : PInv procs cso s)
    (hstep : pBody sel npt procs cso s = .next s' ∨
      pBody sel npt procs cso s = .stop s') :
    PInv procs cso s' ∧ s.time ≤ s'.time := by
  unfold pBody at hstep
  by_cases hlen : s.completed.length < s.work.length
  case neg =>
    rw [if_neg hlen] at hstep
    rcases hstep with h | h
    · cases h
    · cases h
      exact ⟨hinv, le_refl _⟩
  rw [if_pos hlen] at hstep
  rcases hsel : pickMin (fun p => decide (p.arrival ≤ s.time) &&
      !(s.completed.contains p.pid)) sel s.work with - | ⟨pre, cur, post⟩ <;>
    simp only [hsel] at hstep
  · rcases hna : minQ ((s.work.filter (fun p =>
        !(s.completed.contains p.pid) &&
        decide (s.time < p.arrival))).map (fun p => p.arrival)) with - | na <;>
      simp only [hna] at hstep
    · rcases hstep with h | h
      · cases h
      · cases h
        exact ⟨hinv, le_refl _⟩
    · rcases hstep with h | h
      swap
      · cases h
      cases h
      obtain ⟨hmem, -⟩ := minQ_some_iff.mp hna
      obtain ⟨p0, hp0mem, hp0na⟩ := List.mem_map.mp hmem
      obtain ⟨hp0w, hp0f⟩ := List.mem_filter.mp hp0mem
      have htlt : s.time < na := by
        rw [← hp0na]
        rcases Bool.and_eq_true .. ▸ hp0f with ⟨-, h2⟩
        simpa using h2
      refine ⟨?_, le_of_lt htlt⟩
      constructor
      · exact hinv.tl.pushIdle_pres htlt (fun b hb => by simp [npGap])
      · right
        rcases htl2 : s.timeline with - | ⟨⟨subj, s0, e0⟩, rest⟩
        · exact ⟨("Idle", s.time, na), by simp [pushIdle], rfl⟩
        · by_cases hs : subj = "Idle"
          · subst hs
            rw [pushIdle_idle]
            exact ⟨("Idle", s0, na), by simp, rfl⟩
          · rw [pushIdle_busy hs]
            exact ⟨("Idle", s.time, na), by simp, rfl⟩
      · exact hinv.work_rel
      · exact hinv.work_pids
      · exact hinv.rem_le
      · exact hinv.rem_pos
      · exact hinv.rem_nonneg
      · intro q hq
        rcases hinv.exec q hq with h1 | ⟨h1, h2⟩
        · exact Or.inl (by linarith)
        · rcases lt_or_le na q.arrival with h3 | h3
          · exact Or.inr ⟨h3, h2⟩
          · left
            rw [h2]
            simp only [sub_self]
            linarith
      · exact hinv.comp_sub
      · exact hinv.comp_nodup
      · exact hinv.comp_metrics
      · intro e he
        obtain ⟨p, hp, h1, h2, h3, h4, h5⟩ := hinv.metrics_ok e he
        exact ⟨p, hp, h1, h2, h3, h4, le_trans h5 (le_of_lt htlt)⟩
      · intro hfull
        exact absurd hfull (Nat.ne_of_lt hlen)
      · intro _
        exact pushIdle_ne_nil _ _ _
  · obtain ⟨hdec, hgood, -⟩ := pickMin_some hsel
    have hcurw : cur ∈ s.work := by
      rw [hdec]
      exact List.mem_append_right _ (List.mem_cons_self _ _)
    obtain ⟨pc, hpc, hpcpid, hpcarr, hpcburst, hpcprio⟩ :=
      hinv.work_rel cur hcurw
    obtain ⟨hpcb, hpca0, -, hpcI⟩ := hv.1 pc hpc
    have hpidI : cur.pid ≠ "Idle" := hpcpid ▸ hpcI
    have hburstpos : 0 < cur.burst := hpcburst ▸ hpcb
    rw [Bool.and_eq_true] at hgood
    have havail : cur.arrival ≤ s.time := by
      have := hgood.1; simpa using this
    have hnotc : cur.pid ∉ s.completed := by
      have := hgood.2; simpa using this
    have hrempos : 0 < cur.remaining := hinv.rem_pos cur hcurw hnotc
    have hremle : cur.remaining ≤ cur.burst := hinv.rem_le cur hcurw
    have hch0 : 0 ≤ (match s.lastRun with
        | some l => if l ≠ cur.pid then cso else 0
        | none => 0) := by
      rcases s.lastRun with - | l
      · exact le_refl 0
      · show 0 ≤ if l ≠ cur.pid then cso else 0
        split_ifs <;> simp [hcso]
    have htlemono : s.time ≤ s.time + (match s.lastRun with
        | some l => if l ≠ cur.pid then cso else 0
        | none => 0) := le_add_of_nonneg_right hch0
    have hrfpos : 0 < min cur.remaining (npt s.work s.completed
        (s.time + (match s.lastRun with
          | some l => if l ≠ cur.pid then cso else 0
          | none => 0)) cur) := by
      rcases hnpt s.work s.completed (s.time + (match s.lastRun with
          | some l => if l ≠ cur.pid then cso else 0
          | none => 0)) cur with h1 | ⟨p, hp, hplt, h1⟩
      · rw [h1]
        simpa using hrempos
      · rw [h1]
        refine lt_min hrempos ?_
        have := le_trans htlemono (le_of_lt hplt)
        linarith
    have hrfle : min cur.remaining (npt s.work s.completed
        (s.time + (match s.lastRun with
          | some l => if l ≠ cur.pid then cso else 0
          | none => 0)) cur) ≤ cur.remaining := min_le_left _ _
    have hsame : ∀ b ∈ s.timeline.head?, b.1 = cur.pid →
        s.time + (match s.lastRun with
          | some l => if l ≠ cur.pid then cso else 0
          | none => 0) = s.time := by
      intro b hb hbpid
      rcases hinv.lastRun_hd with ⟨htle, -⟩ | ⟨seg, hseg, hlr⟩
      · rw [htle] at hb; cases hb
      · have hsb : seg = b := Option.mem_unique hseg hb
        subst hsb
        rw [hlr, hbpid]
        simp
    have hdiff : ∀ b ∈ s.timeline.head?, b.1 ≠ cur.pid →
        s.time + (match s.lastRun with
          | some l => if l ≠ cur.pid then cso else 0
          | none => 0) = b.2.2 + npGap cso cur.pid b.1 := by
      intro b hb hbpid
      rcases hinv.lastRun_hd with ⟨htle, -⟩ | ⟨seg, hseg, hlr⟩
      · rw [htle] at hb; cases hb
      · have hsb : seg = b := Option.mem_unique hseg hb
        rw [hsb] at hlr
        rw [hlr]
        have hbstop : b.2.2 = s.time := hinv.tl.hd b hb
        rw [hbstop]
        simp [npGap, hpidI, hbpid]
    have hstart0 : s.timeline = [] → s.time + (match s.lastRun with
        | some l => if l ≠ cur.pid then cso else 0
        | none => 0) = 0 := by
      intro htle
      rcases hinv.lastRun_hd with ⟨-, hlr⟩ | ⟨seg, hseg, hlr⟩
      · rw [hlr, hinv.tl.emp htle]
        simp
      · rw [htle] at hseg; cases hseg
    split_ifs at hstep with hcomp
    · rcases hfind : procs.find? (fun p => p.pid = cur.pid) with - | pd <;>
        simp only [hfind] at hstep
      · rcases hstep with h | h <;> cases h
      rcases hstep with h | h
      swap
      · cases h
      cases h
      have hpd : pd = pc := by
        have hpdmem := List.mem_of_find?_eq_some hfind
        have hpdpid : pd.pid = cur.pid := by
          have := List.find?_some hfind
          simpa using this
        exact List.inj_on_of_nodup_map hv.2 hpdmem hpc (by rw [hpdpid, hpcpid])
      refine ⟨?_, le_trans htlemono (le_add_of_nonneg_right (le_of_lt hrfpos))⟩
      constructor
      · exact hinv.tl.mergePush_pres
          (lt_add_of_pos_right _ hrfpos) htlemono hsame hdiff hstart0
      · right
        obtain ⟨st', hhd⟩ := mergePush_head s.timeline cur.pid
          (s.time + (match s.lastRun with
            | some l => if l ≠ cur.pid then cso else 0
            | none => 0))
          (s.time + (match s.lastRun with
            | some l => if l ≠ cur.pid then cso else 0
            | none => 0) + min cur.remaining (npt s.work s.completed
              (s.time + (match s.lastRun with
                | some l => if l ≠ cur.pid then cso else 0
                | none => 0)) cur))
        exact ⟨(cur.pid, st', _), by rw [hhd]; rfl, rfl⟩
      · intro q hq
        rcases List.mem_append.mp (hdec ▸ hq) with h1 | h1
        · exact hinv.work_rel q (hdec ▸ List.mem_append_left _ h1)
        · rcases List.mem_cons.mp h1 with rfl | h1
          · exact ⟨pc, hpc, hpcpid, hpcarr, hpcburst, hpcprio⟩
          · exact hinv.work_rel q
              (hdec ▸ List.mem_append_right _ (List.mem_cons_of_mem _ h1))
      · have hwp := hinv.work_pids
        rw [hdec] at hwp
        simpa using hwp
      · intro q hq
        rcases List.mem_append.mp hq with h1 | h1
        · exact hinv.rem_le q (hdec ▸ List.mem_append_left _ h1)
        · rcases List.mem_cons.mp h1 with rfl | h1
          · show cur.remaining - _ ≤ cur.burst
            have := le_of_lt hrfpos
            linarith
          · exact hinv.rem_le q
              (hdec ▸ List.mem_append_right _ (List.mem_cons_of_mem _ h1))
      · intro q hq hqnc
        have hqnc' : q.pid ∉ s.completed := fun hc =>
          hqnc (mem_addPid.mpr (Or.inr hc))
        rcases List.mem_append.mp hq with h1 | h1
        · exact hinv.rem_pos q (hdec ▸ List.mem_append_left _ h1) hqnc'
        · rcases List.mem_cons.mp h1 with rfl | h1
          · exact absurd (mem_addPid.mpr (Or.inl rfl)) hqnc
          · exact hinv.rem_pos q
              (hdec ▸ List.mem_append_right _ (List.mem_cons_of_mem _ h1))
              hqnc'
      · intro q hq
        rcases List.mem_append.mp hq with h1 | h1
        · exact hinv.rem_nonneg q (hdec ▸ List.mem_append_left _ h1)
        · rcases List.mem_cons.mp h1 with rfl | h1
          · show 0 ≤ cur.remaining - _
            simpa using hrfle
          · exact hinv.rem_nonneg q
              (hdec ▸ List.mem_append_right _ (List.mem_cons_of_mem _ h1))
      · intro q hq
        rcases List.mem_append.mp hq with h1 | h1
        · rcases hinv.exec q (hdec ▸ List.mem_append_left _ h1) with h2 | h2
          · left
            have : s.time ≤ s.time + (match s.lastRun with
                | some l => if l ≠ cur.pid then cso else 0
                | none => 0) + min cur.remaining (npt s.work s.completed
                  (s.time + (match s.lastRun with
                    | some l => if l ≠ cur.pid then cso else 0
                    | none => 0)) cur) :=
              le_trans htlemono (le_add_of_nonneg_right (le_of_lt hrfpos))
            simp only []
            linarith
          · rcases lt_or_le (s.time + (match s.lastRun with
                | some l => if l ≠ cur.pid then cso else 0
                | none => 0) + min cur.remaining (npt s.work s.completed
                  (s.time + (match s.lastRun with
                    | some l => if l ≠ cur.pid then cso else 0
                    | none => 0)) cur)) q.arrival with h3 | h3
            · exact Or.inr ⟨h3, h2.2⟩
            · left
              rw [h2.2]
              simp only [sub_self]
              linarith
        · rcases List.mem_cons.mp h1 with rfl | h1
          · left
            simp only []
            rcases hinv.exec cur hcurw with h2 | h2
            · have : s.time ≤ s.time + (match s.lastRun with
                  | some l => if l ≠ cur.pid then cso else 0
                  | none => 0) := htlemono
              linarith [min_le_left cur.remaining (npt s.work s.completed
                (s.time + (match s.lastRun with
                  | some l => if l ≠ cur.pid then cso else 0
                  | none => 0)) cur)]
            · exact absurd havail (not_le_of_lt h2.1)
          · rcases hinv.exec q (hdec ▸ List.mem_append_right _
                (List.mem_cons_of_mem _ h1)) with h2 | h2
            · left
              have : s.time ≤ s.time + (match s.lastRun with
                  | some l => if l ≠ cur.pid then cso else 0
                  | none => 0) + min cur.remaining (npt s.work s.completed
                    (s.time + (match s.lastRun with
                      | some l => if l ≠ cur.pid then cso else 0
                      | none => 0)) cur) :=
                le_trans htlemono (le_add_of_nonneg_right (le_of_lt hrfpos))
              simp only []
              linarith
            · rcases lt_or_le (s.time + (match s.lastRun with
                  | some l => if l ≠ cur.pid then cso else 0
                  | none => 0) + min cur.remaining (npt s.work s.completed
                    (s.time + (match s.lastRun with
                      | some l => if l ≠ cur.pid then cso else 0
                      | none => 0)) cur)) q.arrival with h3 | h3
              · exact Or.inr ⟨h3, h2.2⟩
              · left
                rw [h2.2]
                simp only [sub_self]
                linarith
      · intro pid hpid
        rcases mem_addPid.mp hpid with rfl | h1
        · rw [← hpcpid]
          exact List.mem_map_of_mem _ hpc
        · exact hinv.comp_sub pid h1
      · exact nodup_addPid hinv.comp_nodup
      · intro pid
        rw [mem_addPid, List.map_append, List.mem_append]
        constructor
        · rintro (rfl | h1)
          · exact Or.inr (by simp)
          · exact Or.inl ((hinv.comp_metrics pid).mp h1)
        · rintro (h1 | h1)
          · exact Or.inr ((hinv.comp_metrics pid).mpr h1)
          · simp at h1
            exact Or.inl h1
      · intro e he
        rcases List.mem_append.mp he with h1 | h1
        · obtain ⟨p, hp, h2, h3, h4, h5, h6⟩ := hinv.metrics_ok e h1
          refine ⟨p, hp, h2, h3, h4, h5, le_trans h6 ?_⟩
          exact le_trans htlemono (le_add_of_nonneg_right (le_of_lt hrfpos))
        · rcases List.mem_singleton.mp h1 with rfl
          refine ⟨pd, List.mem_of_find?_eq_some hfind, by
            have := List.find?_some hfind
            simpa using this, rfl, by ring, ?_, le_refl _⟩
          simp only []
          rw [hpd, hpcarr, hpcburst]
          rcases hinv.exec cur hcurw with h2 | h2
          · have hle1 : s.time ≤ s.time + (match s.lastRun with
                | some l => if l ≠ cur.pid then cso else 0
                | none => 0) := htlemono
            have hrem' : cur.remaining - min cur.remaining
                (npt s.work s.completed (s.time + (match s.lastRun with
                  | some l => if l ≠ cur.pid then cso else 0
                  | none => 0)) cur) ≤ eps := hcomp
            linarith [min_le_left cur.remaining (npt s.work s.completed
              (s.time + (match s.lastRun with
                | some l => if l ≠ cur.pid then cso else 0
                | none => 0)) cur)]
          · exact absurd havail (not_le_of_lt h2.1)
      · intro hfull
        exact Or.inr ⟨_, List.mem_append_right _
          (List.mem_singleton_self _), rfl⟩
      · intro _
        exact mergePush_ne_nil _ _ _ _
    · rcases hstep with h | h
      swap
      · cases h
      cases h
      refine ⟨?_, le_trans htlemono (le_add_of_nonneg_right (le_of_lt hrfpos))⟩
      constructor
      · exact hinv.tl.mergePush_pres
          (lt_add_of_pos_right _ hrfpos) htlemono hsame hdiff hstart0
      · right
        obtain ⟨st', hhd⟩ := mergePush_head s.timeline cur.pid
          (s.time + (match s.lastRun with
            | some l => if l ≠ cur.pid then cso else 0
            | none => 0))
          (s.time + (match s.lastRun with
            | some l => if l ≠ cur.pid then cso else 0
            | none => 0) + min cur.remaining (npt s.work s.completed
              (s.time + (match s.lastRun with
                | some l => if l ≠ cur.pid then cso else 0
                | none => 0)) cur))
        exact ⟨(cur.pid, st', _), by rw [hhd]; rfl, rfl⟩
      · intro q hq
        rcases List.mem_append.mp (hdec ▸ hq) with h1 | h1
        · exact hinv.work_rel q (hdec ▸ List.mem_append_left _ h1)
        · rcases List.mem_cons.mp h1 with rfl | h1
          · exact ⟨pc, hpc, hpcpid, hpcarr, hpcburst, hpcprio⟩
          · exact hinv.work_rel q
              (hdec ▸ List.mem_append_right _ (List.mem_cons_of_mem _ h1))
      · have hwp := hinv.work_pids
        rw [hdec] at hwp
        simpa using hwp
      · intro q hq
        rcases List.mem_append.mp hq with h1 | h1
        · exact hinv.rem_le q (hdec ▸ List.mem_append_left _ h1)
        · rcases List.mem_cons.mp h1 with rfl | h1
          · show cur.remaining - _ ≤ cur.burst
            have := le_of_lt hrfpos
            linarith
          · exact hinv.rem_le q
              (hdec ▸ List.mem_append_right _ (List.mem_cons_of_mem _ h1))
      · intro q hq hqnc
        rcases List.mem_append.mp hq with h1 | h1
        · exact hinv.rem_pos q (hdec ▸ List.mem_append_left _ h1) hqnc
        · rcases List.mem_cons.mp h1 with rfl | h1
          · show 0 < cur.remaining - _
            push_neg at hcomp
            have heps : 0 < eps := by norm_num [eps]
            linarith
          · exact hinv.rem_pos q
              (hdec ▸ List.mem_append_right _ (List.mem_cons_of_mem _ h1))
              hqnc
      · intro q hq
        rcases List.mem_append.mp hq with h1 | h1
        · exact hinv.rem_nonneg q (hdec ▸ List.mem_append_left _ h1)
        · rcases List.mem_cons.mp h1 with rfl | h1
          · show 0 ≤ cur.remaining - _
            simpa using hrfle
          · exact hinv.rem_nonneg q
              (hdec ▸ List.mem_append_right _ (List.mem_cons_of_mem _ h1))
      · intro q hq
        rcases List.mem_append.mp hq with h1 | h1
        · rcases hinv.exec q (hdec ▸ List.mem_append_left _ h1) with h2 | h2
          · left
            have : s.time ≤ s.time + (match s.lastRun with
                | some l => if l ≠ cur.pid then cso else 0
                | none => 0) + min cur.remaining (npt s.work s.completed
                  (s.time + (match s.lastRun with
                    | some l => if l ≠ cur.pid then cso else 0
                    | none => 0)) cur) :=
              le_trans htlemono (le_add_of_nonneg_right (le_of_lt hrfpos))
            simp only []
            linarith
          · rcases lt_or_le (s.time + (match s.lastRun with
                | some l => if l ≠ cur.pid then cso else 0
                | none => 0) + min cur.remaining (npt s.work s.completed
                  (s.time + (match s.lastRun with
                    | some l => if l ≠ cur.pid then cso else 0
                    | none => 0)) cur)) q.arrival with h3 | h3
            · exact Or.inr ⟨h3, h2.2⟩
            · left
              rw [h2.2]
              simp only [sub_self]
              linarith
        · rcases List.mem_cons.mp h1 with rfl | h1
          · left
            simp only []
            rcases hinv.exec cur hcurw with h2 | h2
            · have : s.time ≤ s.time + (match s.lastRun with
                  | some l => if l ≠ cur.pid then cso else 0
                  | none => 0) := htlemono
              linarith [min_le_left cur.remaining (npt s.work s.completed
                (s.time + (match s.lastRun with
                  | some l => if l ≠ cur.pid then cso else 0
                  | none => 0)) cur)]
            · exact absurd havail (not_le_of_lt h2.1)
          · rcases hinv.exec q (hdec ▸ List.mem_append_right _
                (List.mem_cons_of_mem _ h1)) with h2 | h2
            · left
              have : s.time ≤ s.time + (match s.lastRun with
                  | some l => if l ≠ cur.pid then cso else 0
                  | none => 0) + min cur.remaining (npt s.work s.completed
                    (s.time + (match s.lastRun with
                      | some l => if l ≠ cur.pid then cso else 0
                      | none => 0)) cur) :=
                le_trans htlemono (le_add_of_nonneg_right (le_of_lt hrfpos))
              simp only []
              linarith
            · rcases lt_or_le (s.time + (match s.lastRun with
                  | some l => if l ≠ cur.pid then cso else 0
                  | none => 0) + min cur.remaining (npt s.work s.completed
                    (s.time + (match s.lastRun with
                      | some l => if l ≠ cur.pid then cso else 0
                      | none => 0)) cur)) q.arrival with h3 | h3
              · exact Or.inr ⟨h3, h2.2⟩
              · left
                rw [h2.2]
                simp only [sub_self]
                linarith
      · exact hinv.comp_sub
      · exact hinv.comp_nodup
      · exact hinv.comp_metrics
      · intro e he
        obtain ⟨p, hp, h2, h3, h4, h5, h6⟩ := hinv.metrics_ok e he
        refine ⟨p, hp, h2, h3, h4, h5, le_trans h6 ?_⟩
        exact le_trans htlemono (le_add_of_nonneg_right (le_of_lt hrfpos))
      · intro hfull
        exfalso
        simp only [List.length_append, List.length_cons] at hfull
        rw [hdec, List.length_append, List.length_cons] at hlen
        exact Nat.ne_of_lt hlen hfull
      · intro _
        exact mergePush_ne_nil _ _ _ _

/-- The invariant holds at any state a preemptive loop reaches. -/
theorem pInv_iterate {sel : PProc → ℚ}
    {npt : List PProc → List String → ℚ → PProc → ℚ} (hnpt : NptSpec npt)
    {procs : List Proc} {cso : ℚ} (hv : ValidWorkload procs) (hcso : 0 ≤ cso) :
    ∀ {fuel : Nat} {s s' : PState}, PInv procs cso s →
      iterate (pBody sel npt procs cso) fuel s = some s' →
      PInv procs cso s' := by
  intro fuel
  induction fuel with
  | zero => intro s s' _ h; cases h
  | succ n ih =>
    intro s s' hinv h
    rw [iterate] at h
    cases hb : pBody sel npt procs cso s with
    | stop s2 =>
      rw [hb] at h
      cases h
      exact (pInv_step hnpt hv hcso hinv (Or.inr hb)).1
    | next s2 =>
      rw [hb] at h
      exact ih (pInv_step hnpt hv hcso hinv (Or.inl hb)).1 h
    | crash => rw [hb] at h; cases h

/-! ## Invariant of the Round Robin loop -/

/-- When the unadmitted processes' pids are distinct and absent from the
queue, the admission loop appends exactly the maximal already-arrived
prefix. -/
theorem rrAdmit_spec (time : ℚ) :
    ∀ (rest queue : List PProc) (idx : Nat),
      (∀ q ∈ rest, q.pid ∉ queue.map (fun q => q.pid)) →
      (rest.map (fun q => q.pid)).Nodup →
      ∃ k, k ≤ rest.length ∧
        rrAdmit time queue rest idx = (queue ++ rest.take k, idx + k) ∧
        (∀ q ∈ rest.take k, q.arrival ≤ time) ∧
        (∀ q ∈ (rest.drop k).head?, time < q.arrival) := by
  intro rest
  induction rest with
  | nil =>
    intro queue idx _ _
    exact ⟨0, by simp [rrAdmit]⟩
  | cons p rest' ih =>
    intro queue idx hnd hnodup
    rw [List.map_cons, List.nodup_cons] at hnodup
    by_cases harr : p.arrival ≤ time
    · have hpq : (queue.map (fun q => q.pid)).contains p.pid = false := by
        have := hnd p (List.mem_cons_self _ _)
        simpa using this
      have hstep : rrAdmit time queue (p :: rest') idx =
          rrAdmit time (queue ++ [p]) rest' (idx + 1) := by
        rw [rrAdmit, if_pos harr, hpq]
        simp
      obtain ⟨k, hk, heq, htake, hdrop⟩ := ih (queue ++ [p]) (idx + 1) (by
        intro q hq
        simp only [List.map_append, List.mem_append]
        rintro (h1 | h1)
        · exact hnd q (List.mem_cons_of_mem _ hq) h1
        · simp only [List.map_cons, List.map_nil, List.mem_singleton] at h1
          exact hnodup.1 (h1 ▸ List.mem_map_of_mem _ hq)) hnodup.2
      refine ⟨k + 1, by simpa using Nat.succ_le_succ hk, ?_, ?_, ?_⟩
      · rw [hstep, heq]
        simp only [Prod.mk.injEq]
        constructor
        · simp [List.take_succ_cons]
        · omega
      · intro q hq
        rw [List.take_succ_cons] at hq
        rcases List.mem_cons.mp hq with rfl | hq'
        · exact harr
        · exact htake q hq'
      · intro q hq
        rw [List.drop_succ_cons] at hq
        exact hdrop q hq
    · refine ⟨0, Nat.zero_le _, ?_, by simp, by
        intro q hq
        simp only [List.drop_zero, List.head?_cons] at hq
        rcases Option.mem_some_iff.mp hq with rfl
        exact lt_of_not_le harr⟩
      rw [rrAdmit, if_neg harr]
      simp

/-- The slice-time admission loop collects exactly the maximal
already-arrived prefix of the unadmitted processes. -/
theorem rrAdmit2_spec (time : ℚ) :
    ∀ (rest : List PProc) (idx : Nat),
      ∃ k, k ≤ rest.length ∧
        rrAdmit2 time rest idx = (rest.take k, idx + k) ∧
        (∀ q ∈ rest.take k, q.arrival ≤ time) ∧
        (∀ q ∈ (rest.drop k).head?, time < q.arrival) := by
  intro rest
  induction rest with
  | nil =>
    intro idx
    exact ⟨0, by simp [rrAdmit2]⟩
  | cons p rest' ih =>
    intro idx
    by_cases harr : p.arrival ≤ time
    · obtain ⟨k, hk, heq, htake, hdrop⟩ := ih (idx + 1)
      refine ⟨k + 1, by simpa using Nat.succ_le_succ hk, ?_, ?_, ?_⟩
      · rw [rrAdmit2, if_pos harr, heq]
        simp only [Prod.mk.injEq]
        constructor
        · simp [List.take_succ_cons]
        · omega
      · intro q hq
        rw [List.take_succ_cons] at hq
        rcases List.mem_cons.mp hq with rfl | hq'
        · exact harr
        · exact htake q hq'
      · intro q hq
        rw [List.drop_succ_cons] at hq
        exact hdrop q hq
    · refine ⟨0, Nat.zero_le _, ?_, by simp, by
        intro q hq
        simp only [List.drop_zero, List.head?_cons] at hq
        rcases Option.mem_some_iff.mp hq with rfl
        exact lt_of_not_le harr⟩
      rw [rrAdmit2, if_neg harr]
      simp

/-- Shuffling a block of a concatenation to the middle preserves
permutation. -/
theorem perm_shuffle {α : Type} (A T C D : List α) :
    ((A ++ T) ++ (C ++ D)).Perm (A ++ (C ++ (T ++ D))) := by
  rw [List.append_assoc]
  refine List.Perm.append_left A ?_
  rw [← List.append_assoc, ← List.append_assoc]
  exact (List.perm_append_comm).append_right D

/-- Loop invariant of `round_robin`.  `bigN` states that the queued pids, the
completed pids and the not-yet-admitted pids are mutually distinct (each
process is admitted at most once). -/
structure RRInv (procs : List Proc) (cso : ℚ) (s : RRState) : Prop where
  tl : TLWF (npGap cso) s.time s.timeline
  lastRun_hd : (s.timeline = [] ∧ s.lastRun = none) ∨
    (∃ seg ∈ s.timeline.head?, s.lastRun = some seg.1)
  work_eq : s.work = procs.map toPProc
  q_rel : ∀ q ∈ s.queue, ∃ p ∈ procs, p.pid = q.pid ∧ p.arrival = q.arrival ∧
    p.burst = q.burst ∧ p.priority = q.priority
  q_arrived : ∀ q ∈ s.queue, q.arrival ≤ s.time
  q_rem_pos : ∀ q ∈ s.queue, 0 < q.remaining
  q_rem_le : ∀ q ∈ s.queue, q.remaining ≤ q.burst
  q_exec : ∀ q ∈ s.queue, q.burst - q.remaining ≤ s.time - q.arrival
  bigN : (s.queue.map (fun q => q.pid) ++ (s.completed ++
    (s.work.drop s.arrivalIdx).map (fun q => q.pid))).Nodup
  cover : (s.queue.map (fun q => q.pid) ++ (s.completed ++
    (s.work.drop s.arrivalIdx).map (fun q => q.pid))).Perm
      (s.work.map (fun q => q.pid))
  comp_sub : ∀ pid ∈ s.completed, pid ∈ procs.map (fun p => p.pid)
  comp_metrics : ∀ pid : String,
    pid ∈ s.completed ↔ pid ∈ s.metrics.map (fun e => e.1)
  metrics_ok : ∀ e ∈ s.metrics, ∃ p ∈ procs, p.pid = e.1 ∧
    e.2.2.1 = e.2.1 - p.arrival ∧ e.2.2.2 = e.2.2.1 - p.burst ∧
    p.arrival + p.burst - eps ≤ e.2.1 ∧ e.2.1 ≤ s.time
  last_ct : s.completed.length = s.work.length →
    s.metrics = [] ∨ ∃ e ∈ s.metrics, e.2.1 = s.time
  metrics_tl : s.metrics ≠ [] → s.timeline ≠ []

/-- The invariant holds initially. -/
theorem rrInv_init (procs : List Proc) (cso : ℚ) (hv : ValidWorkload procs) :
    RRInv procs cso (rrInit procs) := by
  constructor
  · constructor
    · exact le_refl 0
    · intro seg hseg; cases hseg
    · trivial
    · trivial
    · intro seg hseg; cases hseg
    · intro seg hseg; cases hseg
    · intro _; rfl
  · exact Or.inl ⟨rfl, rfl⟩
  · rfl
  · intro q hq; cases hq
  · intro q hq; cases hq
  · intro q hq; cases hq
  · intro q hq; cases hq
  · intro q hq; cases hq
  · simp only [rrInit, List.map_nil, List.nil_append, List.drop_zero,
      List.map_map]
    have hco : ((fun q : PProc => q.pid) ∘ toPProc) =
        fun p : Proc => p.pid := rfl
    rw [hco]
    exact hv.2
  · simp only [rrInit, List.map_nil, List.nil_append, List.drop_zero]
    exact List.Perm.refl _
  · intro pid hpid; cases hpid
  · intro pid; simp [rrInit]
  · intro e he; cases he
  · intro h; exact Or.inl rfl
  · intro h; exact absurd rfl h

/-- One step of the Round Robin loop preserves the invariant and never
decreases the clock. -/
theorem rrInv_step {procs : List Proc} {quantum cso : ℚ} {s s' : RRState}
    (hv : ValidWorkload procs) (hcso : 0 ≤ cso) (hq : 0 < quantum)
    (hinv : RRInv procs cso s)
    (hstep : rrBody procs quantum cso s = .next s' ∨
      rrBody procs quantum cso s = .stop s') :
    RRInv procs cso s' ∧ s.time ≤ s'.time := by
  unfold rrBody at hstep
  by_cases hlen : s.completed.length < s.work.length
  case neg =>
    rw [if_neg hlen] at hstep
    rcases hstep with h | h
    · cases h
    · cases h
      exact ⟨hinv, le_refl _⟩
  rw [if_pos hlen] at hstep
  have hdisj : ∀ q ∈ s.work.drop s.arrivalIdx,
      q.pid ∉ s.queue.map (fun q => q.pid) := by
    intro q hq0 hmem
    have hbig := hinv.bigN
    rw [List.nodup_append] at hbig
    exact hbig.2.2 hmem (List.mem_append_right _ (List.mem_map_of_mem _ hq0))
  have hdropnodup :
      ((s.work.drop s.arrivalIdx).map (fun q => q.pid)).Nodup := by
    have hbig := hinv.bigN
    rw [List.nodup_append] at hbig
    have h2 := hbig.2.1
    rw [List.nodup_append] at h2
    exact h2.2.1
  obtain ⟨k, hkle, hadm, htakearr, hdroparr⟩ :=
    rrAdmit_spec s.time (s.work.drop s.arrivalIdx) s.queue s.arrivalIdx
      hdisj hdropnodup
  simp only [hadm] at hstep
  have hwork : ∀ q ∈ s.work, ∃ p ∈ procs, q = toPProc p := by
    intro q hq0
    rw [hinv.work_eq] at hq0
    obtain ⟨p, hp, rfl⟩ := List.mem_map.mp hq0
    exact ⟨p, hp, rfl⟩
  have hq1rel : ∀ q ∈ s.queue ++ (s.work.drop s.arrivalIdx).take k,
      (∃ p ∈ procs, p.pid = q.pid ∧ p.arrival = q.arrival ∧
        p.burst = q.burst ∧ p.priority = q.priority) ∧ q.remaining ≤ q.burst ∧
      0 < q.remaining ∧ q.arrival ≤ s.time ∧
      q.burst - q.remaining ≤ s.time - q.arrival := by
    intro q hq0
    rcases List.mem_append.mp hq0 with h1 | h1
    · exact ⟨hinv.q_rel q h1, hinv.q_rem_le q h1, hinv.q_rem_pos q h1,
        hinv.q_arrived q h1, hinv.q_exec q h1⟩
    · have hqw : q ∈ s.work :=
        List.mem_of_mem_drop (List.mem_of_mem_take h1)
      obtain ⟨p, hp, rfl⟩ := hwork q hqw
      have harr := htakearr _ h1
      refine ⟨⟨p, hp, rfl, rfl, rfl, rfl⟩, le_refl _, (hv.1 p hp).1, harr, ?_⟩
      show p.burst - p.burst ≤ s.time - p.arrival
      have : (0:ℚ) ≤ s.time - p.arrival := by
        have := htakearr _ h1
        simp only [toPProc] at this
        linarith
      linarith
  have hdd : (s.work.drop s.arrivalIdx).drop k =
      s.work.drop (s.arrivalIdx + k) := by
    rw [List.drop_drop, Nat.add_comm]
  have hsplit : s.work.drop s.arrivalIdx =
      (s.work.drop s.arrivalIdx).take k ++ s.work.drop (s.arrivalIdx + k) := by
    rw [← hdd, List.take_append_drop]
  have hbigN1 : ((s.queue ++ (s.work.drop s.arrivalIdx).take k).map
      (fun q => q.pid) ++ (s.completed ++
      (s.work.drop (s.arrivalIdx + k)).map (fun q => q.pid))).Nodup := by
    have hperm := perm_shuffle (s.queue.map (fun q => q.pid))
      (((s.work.drop s.arrivalIdx).take k).map (fun q => q.pid))
      s.completed ((s.work.drop (s.arrivalIdx + k)).map (fun q => q.pid))
    rw [List.map_append]
    refine hperm.nodup_iff.mpr ?_
    have hold := hinv.bigN
    rw [hsplit, List.map_append] at hold
    exact hold
  have hcover1 : ((s.queue ++ (s.work.drop s.arrivalIdx).take k).map
      (fun q => q.pid) ++ (s.completed ++
      (s.work.drop (s.arrivalIdx + k)).map (fun q => q.pid))).Perm
      (s.work.map (fun q => q.pid)) := by
    have hperm := perm_shuffle (s.queue.map (fun q => q.pid))
      (((s.work.drop s.arrivalIdx).take k).map (fun q => q.pid))
      s.completed ((s.work.drop (s.arrivalIdx + k)).map (fun q => q.pid))
    rw [List.map_append]
    refine hperm.trans ?_
    have hold := hinv.cover
    rw [hsplit, List.map_append] at hold
    exact hold
  rcases hq1 : s.queue ++ (s.work.drop s.arrivalIdx).take k with
    - | ⟨cur, qrest⟩ <;> simp only [hq1] at hstep
  · rcases hna : minQ ((s.work.filter (fun p =>
        !(s.completed.contains p.pid) &&
        decide (s.time < p.arrival))).map (fun p => p.arrival)) with - | na <;>
      simp only [hna] at hstep
    · rcases hstep with h | h
      · cases h
      · cases h
        refine ⟨?_, le_refl _⟩
        constructor
        · exact hinv.tl
        · exact hinv.lastRun_hd
        · exact hinv.work_eq
        · intro q hq0; cases hq0
        · intro q hq0; cases hq0
        · intro q hq0; cases hq0
        · intro q hq0; cases hq0
        · intro q hq0; cases hq0
        · rw [hq1] at hbigN1
          simpa using hbigN1
        · rw [hq1] at hcover1
          simpa using hcover1
        · exact hinv.comp_sub
        · exact hinv.comp_metrics
        · exact hinv.metrics_ok
        · exact hinv.last_ct
        · exact hinv.metrics_tl
    · rcases hstep with h | h
      swap
      · cases h
      cases h
      obtain ⟨hmem, -⟩ := minQ_some_iff.mp hna
      obtain ⟨p0, hp0mem, hp0na⟩ := List.mem_map.mp hmem
      obtain ⟨hp0w, hp0f⟩ := List.mem_filter.mp hp0mem
      have htlt : s.time < na := by
        rw [← hp0na]
        rcases Bool.and_eq_true .. ▸ hp0f with ⟨-, h2⟩
        simpa using h2
      refine ⟨?_, le_of_lt htlt⟩
      constructor
      · exact hinv.tl.pushIdle_pres htlt (fun b hb => by simp [npGap])
      · right
        rcases htl2 : s.timeline with - | ⟨⟨subj, s0, e0⟩, rest⟩
        · exact ⟨("Idle", s.time, na), by simp [pushIdle], rfl⟩
        · by_cases hs : subj = "Idle"
          · subst hs
            rw [pushIdle_idle]
            exact ⟨("Idle", s0, na), by simp, rfl⟩
          · rw [pushIdle_busy hs]
            exact ⟨("Idle", s.time, na), by simp, rfl⟩
      · exact hinv.work_eq
      · intro q hq0; cases hq0
      · intro q hq0; cases hq0
      · intro q hq0; cases hq0
      · intro q hq0; cases hq0
      · intro q hq0; cases hq0
      · rw [hq1] at hbigN1
        simpa using hbigN1
      · rw [hq1] at hcover1
        simpa using hcover1
      · exact hinv.comp_sub
      · exact hinv.comp_metrics
      · intro e he
        obtain ⟨p, hp, h1, h2, h3, h4, h5⟩ := hinv.metrics_ok e he
        exact ⟨p, hp, h1, h2, h3, h4, le_trans h5 (le_of_lt htlt)⟩
      · intro hfull
        exact absurd hfull (Nat.ne_of_lt hlen)
      · intro _
        exact pushIdle_ne_nil _ _ _
  · have hcur := hq1rel cur (hq1 ▸ List.mem_cons_self _ _)
    obtain ⟨⟨pc, hpc, hpcpid, hpcarr, hpcburst, hpcprio⟩, hremle, hrempos,
      hcurarr, hcurexec⟩ := hcur
    obtain ⟨hpcb, hpca0, -, hpcI⟩ := hv.1 pc hpc
    have hpidI : cur.pid ≠ "Idle" := hpcpid ▸ hpcI
    have hch0 : 0 ≤ (match s.lastRun with
        | some l => if l ≠ cur.pid then cso else 0
        | none => 0) := by
      rcases s.lastRun with - | l
      · exact le_refl 0
      · show 0 ≤ if l ≠ cur.pid then cso else 0
        split_ifs <;> simp [hcso]
    have htlemono : s.time ≤ s.time + (match s.lastRun with
        | some l => if l ≠ cur.pid then cso else 0
        | none => 0) := le_add_of_nonneg_right hch0
    have hrfpos : 0 < min quantum cur.remaining := lt_min hq hrempos
    have hrfle : min quantum cur.remaining ≤ cur.remaining := min_le_right _ _
    have hsame : ∀ b ∈ s.timeline.head?, b.1 = cur.pid →
        s.time + (match s.lastRun with
          | some l => if l ≠ cur.pid then cso else 0
          | none => 0) = s.time := by
      intro b hb hbpid
      rcases hinv.lastRun_hd with ⟨htle, -⟩ | ⟨seg, hseg, hlr⟩
      · rw [htle] at hb; cases hb
      · have hsb : seg = b := Option.mem_unique hseg hb
        rw [hsb] at hlr
        rw [hlr, hbpid]
        simp
    have hdiff : ∀ b ∈ s.timeline.head?, b.1 ≠ cur.pid →
        s.time + (match s.lastRun with
          | some l => if l ≠ cur.pid then cso else 0
          | none => 0) = b.2.2 + npGap cso cur.pid b.1 := by
      intro b hb hbpid
      rcases hinv.lastRun_hd with ⟨htle, -⟩ | ⟨seg, hseg, hlr⟩
      · rw [htle] at hb; cases hb
      · have hsb : seg = b := Option.mem_unique hseg hb
        rw [hsb] at hlr
        rw [hlr]
        have hbstop : b.2.2 = s.time := hinv.tl.hd b hb
        rw [hbstop]
        simp [npGap, hpidI, hbpid]
    have hstart0 : s.timeline = [] → s.time + (match s.lastRun with
        | some l => if l ≠ cur.pid then cso else 0
        | none => 0) = 0 := by
      intro htle
      rcases hinv.lastRun_hd with ⟨-, hlr⟩ | ⟨seg, hseg, hlr⟩
      · rw [hlr, hinv.tl.emp htle]
        simp
      · rw [htle] at hseg; cases hseg
    have hbigN1' : (cur.pid :: (qrest.map (fun q => q.pid) ++ (s.completed ++
        (s.work.drop (s.arrivalIdx + k)).map (fun q => q.pid)))).Nodup := by
      rw [hq1] at hbigN1
      exact hbigN1
    have hnotc : cur.pid ∉ s.completed := by
      rw [List.nodup_cons] at hbigN1'
      intro hcon
      exact hbigN1'.1 (List.mem_append_right _ (List.mem_append_left _ hcon))
    have hcover1' : (cur.pid :: (qrest.map (fun q => q.pid) ++ (s.completed ++
        (s.work.drop (s.arrivalIdx + k)).map (fun q => q.pid)))).Perm
        (s.work.map (fun q => q.pid)) := by
      have h5 := hcover1
      rw [hq1] at h5
      simp only [List.map_cons, List.cons_append] at h5
      exact h5
    split_ifs at hstep with hcomp
    · rcases hfind : procs.find? (fun p => p.pid = cur.pid) with - | pd <;>
        simp only [hfind] at hstep
      · rcases hstep with h | h <;> cases h
      rcases hstep with h | h
      swap
      · cases h
      cases h
      have hpd : pd = pc := by
        have hpdmem := List.mem_of_find?_eq_some hfind
        have hpdpid : pd.pid = cur.pid := by
          have := List.find?_some hfind
          simpa using this
        exact List.inj_on_of_nodup_map hv.2 hpdmem hpc (by rw [hpdpid, hpcpid])
      refine ⟨?_, le_trans htlemono (le_add_of_nonneg_right (le_of_lt hrfpos))⟩
      constructor
      · exact hinv.tl.mergePush_pres
          (lt_add_of_pos_right _ hrfpos) htlemono hsame hdiff hstart0
      · right
        obtain ⟨st', hhd⟩ := mergePush_head s.timeline cur.pid
          (s.time + (match s.lastRun with
            | some l => if l ≠ cur.pid then cso else 0
            | none => 0))
          (s.time + (match s.lastRun with
            | some l => if l ≠ cur.pid then cso else 0
            | none => 0) + min quantum cur.remaining)
        exact ⟨(cur.pid, st', _), by rw [hhd]; rfl, rfl⟩
      · exact hinv.work_eq
      · intro q hq0
        exact (hq1rel q (hq1 ▸ List.mem_cons_of_mem _ hq0)).1
      · intro q hq0
        exact le_trans (hq1rel q (hq1 ▸ List.mem_cons_of_mem _ hq0)).2.2.2.1
          (le_trans htlemono (le_add_of_nonneg_right (le_of_lt hrfpos)))
      · intro q hq0
        exact (hq1rel q (hq1 ▸ List.mem_cons_of_mem _ hq0)).2.2.1
      · intro q hq0
        exact (hq1rel q (hq1 ▸ List.mem_cons_of_mem _ hq0)).2.1
      · intro q hq0
        have h1 := (hq1rel q (hq1 ▸ List.mem_cons_of_mem _ hq0)).2.2.2.2
        have h2 : s.time ≤ s.time + (match s.lastRun with
            | some l => if l ≠ cur.pid then cso else 0
            | none => 0) + min quantum cur.remaining :=
          le_trans htlemono (le_add_of_nonneg_right (le_of_lt hrfpos))
        simp only []
        linarith
      · rw [addPid, if_neg hnotc]
        exact (List.perm_middle).nodup_iff.mpr hbigN1'
      · rw [addPid, if_neg hnotc]
        exact List.Perm.trans List.perm_middle hcover1'
      · intro pid hpid
        rcases mem_addPid.mp hpid with rfl | h1
        · rw [← hpcpid]
          exact List.mem_map_of_mem _ hpc
        · exact hinv.comp_sub pid h1
      · intro pid
        rw [mem_addPid, List.map_append, List.mem_append]
        constructor
        · rintro (rfl | h1)
          · exact Or.inr (by simp)
          · exact Or.inl ((hinv.comp_metrics pid).mp h1)
        · rintro (h1 | h1)
          · exact Or.inr ((hinv.comp_metrics pid).mpr h1)
          · simp at h1
            exact Or.inl h1
      · intro e he
        rcases List.mem_append.mp he with h1 | h1
        · obtain ⟨p, hp, h2, h3, h4, h5, h6⟩ := hinv.metrics_ok e h1
          refine ⟨p, hp, h2, h3, h4, h5, le_trans h6 ?_⟩
          exact le_trans htlemono (le_add_of_nonneg_right (le_of_lt hrfpos))
        · rcases List.mem_singleton.mp h1 with rfl
          refine ⟨pd, List.mem_of_find?_eq_some hfind, by
            have := List.find?_some hfind
            simpa using this, rfl, by ring, ?_, le_refl _⟩
          simp only []
          rw [hpd, hpcarr, hpcburst]
          have hrem' : cur.remaining - min quantum cur.remaining ≤ eps := hcomp
          have hmin : min quantum cur.remaining ≤ cur.remaining :=
            min_le_right _ _
          linarith
      · intro hfull
        exact Or.inr ⟨_, List.mem_append_right _
          (List.mem_singleton_self _), rfl⟩
      · intro _
        exact mergePush_ne_nil _ _ _ _
    · obtain ⟨k2, hk2le, hadm2, htake2, hdrop2⟩ :=
        rrAdmit2_spec (s.time + (match s.lastRun with
          | some l => if l ≠ cur.pid then cso else 0
          | none => 0) + min quantum cur.remaining)
          (s.work.drop (s.arrivalIdx + k)) (s.arrivalIdx + k)
      simp only [hadm2] at hstep
      rcases hstep with h | h
      swap
      · cases h
      cases h
      have hdd2 : (s.work.drop (s.arrivalIdx + k)).drop k2 =
          s.work.drop (s.arrivalIdx + k + k2) := by
        rw [List.drop_drop, Nat.add_comm (s.arrivalIdx + k) k2]
      have hsplit2 : s.work.drop (s.arrivalIdx + k) =
          (s.work.drop (s.arrivalIdx + k)).take k2 ++
            s.work.drop (s.arrivalIdx + k + k2) := by
        rw [← hdd2, List.take_append_drop]
      have hXYperm : List.Perm
          ((((qrest ++ (s.work.drop (s.arrivalIdx + k)).take k2) ++
          [{ cur with remaining :=
            cur.remaining - min quantum cur.remaining }]).map
          (fun q : PProc => q.pid)) ++ (s.completed ++
          ((s.work.drop (s.arrivalIdx + k + k2)).map
            (fun q : PProc => q.pid))))
          (cur.pid :: ((qrest.map (fun q : PProc => q.pid)) ++
            (s.completed ++ ((s.work.drop (s.arrivalIdx + k)).map
              (fun q : PProc => q.pid))))) := by
        simp only [List.map_append, List.map_cons, List.map_nil]
        have h1 : ((qrest.map (fun q => q.pid) ++
            ((s.work.drop (s.arrivalIdx + k)).take k2).map
              (fun q => q.pid)) ++ [cur.pid] ++
            (s.completed ++ (s.work.drop (s.arrivalIdx + k + k2)).map
              (fun q => q.pid))).Perm
            (cur.pid :: ((qrest.map (fun q => q.pid) ++
              ((s.work.drop (s.arrivalIdx + k)).take k2).map
                (fun q => q.pid)) ++
              (s.completed ++ (s.work.drop (s.arrivalIdx + k + k2)).map
                (fun q => q.pid)))) := by
          rw [List.append_assoc]
          exact List.perm_middle
        refine h1.trans (List.Perm.cons cur.pid ?_)
        have h2 := perm_shuffle (qrest.map (fun q => q.pid))
          (((s.work.drop (s.arrivalIdx + k)).take k2).map (fun q => q.pid))
          s.completed
          ((s.work.drop (s.arrivalIdx + k + k2)).map (fun q => q.pid))
        refine h2.trans ?_
        rw [show (s.work.drop (s.arrivalIdx + k)).map (fun q => q.pid) =
          ((s.work.drop (s.arrivalIdx + k)).take k2).map (fun q => q.pid) ++
          (s.work.drop (s.arrivalIdx + k + k2)).map (fun q => q.pid) by
            rw [← List.map_append, ← hsplit2]]
      refine ⟨?_, le_trans htlemono (le_add_of_nonneg_right (le_of_lt hrfpos))⟩
      constructor
      · exact hinv.tl.mergePush_pres
          (lt_add_of_pos_right _ hrfpos) htlemono hsame hdiff hstart0
      · right
        obtain ⟨st', hhd⟩ := mergePush_head s.timeline cur.pid
          (s.time + (match s.lastRun with
            | some l => if l ≠ cur.pid then cso else 0
            | none => 0))
          (s.time + (match s.lastRun with
            | some l => if l ≠ cur.pid then cso else 0
            | none => 0) + min quantum cur.remaining)
        exact ⟨(cur.pid, st', _), by rw [hhd]; rfl, rfl⟩
      · exact hinv.work_eq
      · intro q hq0
        rcases List.mem_append.mp hq0 with h1 | h1
        · rcases List.mem_append.mp h1 with h2 | h2
          · exact (hq1rel q (hq1 ▸ List.mem_cons_of_mem _ h2)).1
          · have hqw : q ∈ s.work :=
              List.mem_of_mem_drop (List.mem_of_mem_take h2)
            obtain ⟨p, hp, rfl⟩ := hwork q hqw
            exact ⟨p, hp, rfl, rfl, rfl, rfl⟩
        · rcases List.mem_singleton.mp h1 with rfl
          exact ⟨pc, hpc, hpcpid, hpcarr, hpcburst, hpcprio⟩
      · intro q hq0
        rcases List.mem_append.mp hq0 with h1 | h1
        · rcases List.mem_append.mp h1 with h2 | h2
          · exact le_trans
              (hq1rel q (hq1 ▸ List.mem_cons_of_mem _ h2)).2.2.2.1
              (le_trans htlemono
                (le_add_of_nonneg_right (le_of_lt hrfpos)))
          · exact htake2 q h2
        · rcases List.mem_singleton.mp h1 with rfl
          exact le_trans hcurarr (le_trans htlemono
            (le_add_of_nonneg_right (le_of_lt hrfpos)))
      · intro q hq0
        rcases List.mem_append.mp hq0 with h1 | h1
        · rcases List.mem_append.mp h1 with h2 | h2
          · exact (hq1rel q (hq1 ▸ List.mem_cons_of_mem _ h2)).2.2.1
          · have hqw : q ∈ s.work :=
              List.mem_of_mem_drop (List.mem_of_mem_take h2)
            obtain ⟨p, hp, rfl⟩ := hwork q hqw
            exact (hv.1 p hp).1
        · rcases List.mem_singleton.mp h1 with rfl
          show 0 < cur.remaining - min quantum cur.remaining
          push_neg at hcomp
          have heps : 0 < eps := by norm_num [eps]
          linarith
      · intro q hq0
        rcases List.mem_append.mp hq0 with h1 | h1
        · rcases List.mem_append.mp h1 with h2 | h2
          · exact (hq1rel q (hq1 ▸ List.mem_cons_of_mem _ h2)).2.1
          · have hqw : q ∈ s.work :=
              List.mem_of_mem_drop (List.mem_of_mem_take h2)
            obtain ⟨p, hp, rfl⟩ := hwork q hqw
            exact le_refl _
        · rcases List.mem_singleton.mp h1 with rfl
          show cur.remaining - min quantum cur.remaining ≤ cur.burst
          have := le_of_lt hrfpos
          linarith
      · intro q hq0
        rcases List.mem_append.mp hq0 with h1 | h1
        · rcases List.mem_append.mp h1 with h2 | h2
          · have h3 := (hq1rel q (hq1 ▸ List.mem_cons_of_mem _ h2)).2.2.2.2
            have h4 : s.time ≤ s.time + (match s.lastRun with
                | some l => if l ≠ cur.pid then cso else 0
                | none => 0) + min quantum cur.remaining :=
              le_trans htlemono (le_add_of_nonneg_right (le_of_lt hrfpos))
            simp only []
            linarith
          · have hqw : q ∈ s.work :=
              List.mem_of_mem_drop (List.mem_of_mem_take h2)
            obtain ⟨p, hp, rfl⟩ := hwork q hqw
            have harr := htake2 _ h2
            simp only [toPProc] at harr ⊢
            linarith
        · rcases List.mem_singleton.mp h1 with rfl
          simp only []
          linarith [min_le_right quantum cur.remaining, htlemono]
      · exact hXYperm.nodup_iff.mpr hbigN1'
      · exact hXYperm.trans hcover1'
      · exact hinv.comp_sub
      · exact hinv.comp_metrics
      · intro e he
        obtain ⟨p, hp, h1, h2, h3, h4, h5⟩ := hinv.metrics_ok e he
        refine ⟨p, hp, h1, h2, h3, h4, le_trans h5 ?_⟩
        exact le_trans htlemono (le_add_of_nonneg_right (le_of_lt hrfpos))
      · intro hfull
        exact absurd hfull (Nat.ne_of_lt hlen)
      · intro _
        exact mergePush_ne_nil _ _ _ _

/-- The invariant holds at every state reached by the Round Robin loop. -/
theorem rrInv_iterate {procs : List Proc} {quantum cso : ℚ}
    (hv : ValidWorkload procs) (hcso : 0 ≤ cso) (hq : 0 < quantum) :
    ∀ {fuel : Nat} {s s' : RRState}, RRInv procs cso s →
      iterate (rrBody procs quantum cso) fuel s = some s' →
      RRInv procs cso s' := by
  intro fuel
  induction fuel with
  | zero => intro s s' _ h; cases h
  | succ n ih =>
    intro s s' hinv h
    rw [iterate] at h
    cases hb : rrBody procs quantum cso s with
    | stop s2 =>
      rw [hb] at h
      cases h
      exact (rrInv_step hv hcso hq hinv (Or.inr hb)).1
    | next s2 =>
      rw [hb] at h
      exact ih (rrInv_step hv hcso hq hinv (Or.inl hb)).1 h
    | crash => rw [hb] at h; cases h

/-! ## Invariant of the FCFS loop -/

/-- `pushIdle` always leaves an Idle segment on top. -/
theorem headSubj_pushIdle (tl : List Seg) (t na : ℚ) :
    headSubj (pushIdle tl t na) = some "Idle" := by
  rcases tl with - | ⟨⟨subj, s0, e0⟩, rest⟩
  · rfl
  · rw [pushIdle]
    split_ifs <;> rfl

/-- In a positive chained timeline anchored at 0 with non-negative gaps,
every segment starts at a non-negative time. -/
theorem chained_start_nonneg {gap : String → String → ℚ}
    (hgap : ∀ a b, 0 ≤ gap a b) :
    ∀ {tl : List Seg}, (∀ seg ∈ tl, seg.2.1 < seg.2.2) → Chained gap tl →
      (∀ seg ∈ tl.getLast?, seg.2.1 = 0) → ∀ seg ∈ tl, 0 ≤ seg.2.1 := by
  intro tl
  induction tl with
  | nil => intro _ _ _ seg hseg; cases hseg
  | cons a t ih =>
    intro hpos hch hbase seg hseg
    cases t with
    | nil =>
      rcases List.mem_singleton.mp hseg with rfl
      have hs := hbase seg (by simp)
      exact le_of_eq hs.symm
    | cons b t' =>
      have hbase' : ∀ s ∈ (b :: t').getLast?, s.2.1 = 0 := by
        intro s hs
        exact hbase s (by rw [List.getLast?_cons_cons]; exact hs)
      have hpos' : ∀ s ∈ b :: t', s.2.1 < s.2.2 := by
        intro s hs
        exact hpos s (List.mem_cons_of_mem _ hs)
      rcases List.mem_cons.mp hseg with rfl | hseg'
      · obtain ⟨hab, hch'⟩ := hch
        have hb1 : 0 ≤ b.2.1 := ih hpos' hch' hbase' b (by simp)
        have hb2 : b.2.1 < b.2.2 := hpos b (by simp)
        rw [hab]
        have := hgap seg.1 b.1
        linarith
      · exact ih hpos' hch.2 hbase' seg hseg'

/-- The start time chosen for a process by the FCFS loop body (the value of
`time` after the idle check and the CSO adjustment of lines 310-327). -/
def fcfsT2 (cso : ℚ) (p : Proc) (time : ℚ) (tl : List Seg) : ℚ :=
  let time1 := if time < p.arrival then p.arrival else time
  let tl1 := if time < p.arrival then pushIdle tl time p.arrival else tl
  if tl1 ≠ [] ∧ (¬headSubj tl1 = some "Idle" ∨ tl1.length = 0) then time1
  else if 0 < time1 ∧ (tl1 = [] ∨ headSubj tl1 = some "Idle") then
    max p.arrival (time1 + cso)
  else time1

/-- Unfolding equation of `fcfsGo` on a non-empty process list. -/
theorem fcfsGo_cons (cso : ℚ) (p : Proc) (rest : List Proc) (time : ℚ)
    (tl : List Seg) (ms : List (String × Metric)) :
    fcfsGo cso (p :: rest) time tl ms =
      fcfsGo cso rest (fcfsT2 cso p time tl + p.burst)
        ((p.pid, fcfsT2 cso p time tl, fcfsT2 cso p time tl + p.burst) ::
          (if time < p.arrival then pushIdle tl time p.arrival else tl))
        (ms ++ [(p.pid, (fcfsT2 cso p time tl + p.burst,
          fcfsT2 cso p time tl + p.burst - p.arrival,
          fcfsT2 cso p time tl + p.burst - p.arrival - p.burst))]) := rfl

/-- After an idle gap FCFS starts the process `cso` after its arrival. -/
theorem fcfsT2_idle {cso : ℚ} {p : Proc} {time : ℚ} (tl : List Seg)
    (hidle : time < p.arrival) (h0 : 0 ≤ time) (hcso : 0 ≤ cso) :
    fcfsT2 cso p time tl = p.arrival + cso := by
  unfold fcfsT2
  simp only [if_pos hidle]
  rw [if_neg, if_pos, max_eq_right (le_add_of_nonneg_right hcso)]
  · exact ⟨lt_of_le_of_lt h0 hidle, Or.inr (headSubj_pushIdle tl time p.arrival)⟩
  · rintro ⟨-, h2 | h2⟩
    · exact h2 (headSubj_pushIdle tl time p.arrival)
    · exact pushIdle_ne_nil tl time p.arrival (List.length_eq_zero.mp h2)

/-- With an empty timeline at clock 0 and no idle gap, FCFS starts at 0. -/
theorem fcfsT2_nil {cso : ℚ} {p : Proc} {time : ℚ}
    (hni : ¬ time < p.arrival) (h0 : time = 0) :
    fcfsT2 cso p time [] = time := by
  unfold fcfsT2
  simp only [if_neg hni]
  rw [if_neg (by simp), if_neg (by rintro ⟨h1, -⟩; rw [h0] at h1; exact lt_irrefl 0 h1)]

/-- Back-to-back after a busy segment FCFS charges nothing. -/
theorem fcfsT2_busy_head {cso : ℚ} {p : Proc} {time : ℚ} {b : Seg}
    (rest : List Seg) (hni : ¬ time < p.arrival) (hbI : b.1 ≠ "Idle") :
    fcfsT2 cso p time (b :: rest) = time := by
  unfold fcfsT2
  simp only [if_neg hni]
  rw [if_pos]
  exact ⟨List.cons_ne_nil _ _, Or.inl (by simp [headSubj, hbI])⟩

/-- Resuming over an existing Idle head charges the overhead. -/
theorem fcfsT2_idle_head {cso : ℚ} {p : Proc} {time : ℚ} {b : Seg}
    (rest : List Seg) (hni : ¬ time < p.arrival) (hbI : b.1 = "Idle")
    (h0 : 0 < time) (hcso : 0 ≤ cso) :
    fcfsT2 cso p time (b :: rest) = time + cso := by
  have hpa : p.arrival ≤ time := le_of_not_lt hni
  unfold fcfsT2
  simp only [if_neg hni]
  rw [if_neg, if_pos, max_eq_right (le_trans hpa (le_add_of_nonneg_right hcso))]
  · refine ⟨h0, Or.inr ?_⟩
    simp [headSubj, hbI]
  · rintro ⟨-, h2 | h2⟩
    · exact h2 (by simp [headSubj, hbI])
    · simp at h2

/-- A well-formed metrics entry: it belongs to some input process, satisfies
the TAT/WT definitions, and its completion time lies between
`arrival + burst` and the bound `t`. -/
def MOk (procs0 : List Proc) (t : ℚ) (e : String × Metric) : Prop :=
  ∃ p ∈ procs0, p.pid = e.1 ∧ e.2.2.1 = e.2.1 - p.arrival ∧
    e.2.2.2 = e.2.2.1 - p.burst ∧ p.arrival + p.burst ≤ e.2.1 ∧ e.2.1 ≤ t

/-- Invariant of the FCFS loop: running the remaining processes from a
well-formed intermediate state yields a final time `T` bounding a well-formed
timeline and metrics, the last metrics entry completing at `T`. -/
theorem fcfsGo_inv {procs0 : List Proc} {cso : ℚ} (hcso : 0 ≤ cso) :
    ∀ (rest : List Proc) (time : ℚ) (tl : List Seg)
      (ms : List (String × Metric)),
      TLWF (fcfsGap cso) time tl →
      (∀ q ∈ rest, 0 < q.burst ∧ 0 ≤ q.arrival ∧ q.pid ≠ "Idle") →
      (∀ q ∈ rest, q ∈ procs0) →
      (rest.map (fun p => p.pid)).Nodup →
      (∀ seg ∈ tl, ∀ q ∈ rest, seg.1 ≠ q.pid) →
      (∀ e ∈ ms, MOk procs0 time e) →
      (ms = [] ∨ ∃ e ∈ ms, e.2.1 = time) →
      (ms ≠ [] → tl ≠ []) →
      ∃ T, time ≤ T ∧
        TLWF (fcfsGap cso) T (fcfsGo cso rest time tl ms).1 ∧
        (∀ e ∈ (fcfsGo cso rest time tl ms).2, MOk procs0 T e) ∧
        ((fcfsGo cso rest time tl ms).2 = [] ∨
          ∃ e ∈ (fcfsGo cso rest time tl ms).2, e.2.1 = T) ∧
        ((fcfsGo cso rest time tl ms).2 ≠ [] →
          (fcfsGo cso rest time tl ms).1 ≠ []) := by
  intro rest
  induction rest with
  | nil =>
    intro time tl ms htl _ _ _ _ hms hlast hmtl
    exact ⟨time, le_refl _, htl, hms, hlast, hmtl⟩
  | cons p rest' ih =>
    intro time tl ms htl hvr hsub hnd hfresh hms hlast hmtl
    obtain ⟨hpb, hpa, hpidI⟩ := hvr p (List.mem_cons_self _ _)
    rw [List.map_cons, List.nodup_cons] at hnd
    have hgapnn : ∀ a b : String, 0 ≤ fcfsGap cso a b := by
      intro a b
      unfold fcfsGap
      split_ifs <;> simp [hcso]
    have hgapI : ∀ b, b ≠ "Idle" → fcfsGap cso "Idle" b = 0 := by
      intro b hb
      unfold fcfsGap
      rw [if_neg hb]
    -- the state after the idle handling
    have htl1 : TLWF (fcfsGap cso)
        (if time < p.arrival then p.arrival else time)
        (if time < p.arrival then pushIdle tl time p.arrival else tl) := by
      by_cases hidle : time < p.arrival
      · simp only [if_pos hidle]
        exact htl.pushIdle_pres hidle hgapI
      · simp only [if_neg hidle]
        exact htl
    -- facts about the chosen start time
    have harrle : p.arrival ≤ (if time < p.arrival then p.arrival else time) := by
      split_ifs with h
      · exact le_refl _
      · exact le_of_not_lt h
    have htimele : time ≤ (if time < p.arrival then p.arrival else time) := by
      split_ifs with h
      · exact le_of_lt h
      · exact le_refl _
    have hkey : (if time < p.arrival then p.arrival else time) ≤
          fcfsT2 cso p time tl ∧
        (∀ b ∈ (if time < p.arrival then pushIdle tl time p.arrival
            else tl).head?,
          fcfsT2 cso p time tl = b.2.2 + fcfsGap cso p.pid b.1) ∧
        ((if time < p.arrival then pushIdle tl time p.arrival else tl) = [] →
          fcfsT2 cso p time tl = 0) := by
      by_cases hidle : time < p.arrival
      · rw [fcfsT2_idle tl hidle htl.time0 hcso]
        simp only [if_pos hidle]
        refine ⟨le_add_of_nonneg_right hcso, ?_, ?_⟩
        · intro b hb
          have hbI : b.1 = "Idle" := by
            have := headSubj_pushIdle tl time p.arrival
            unfold headSubj at this
            rcases hh : (pushIdle tl time p.arrival).head? with - | c
            · rw [hh] at hb; cases hb
            · rcases Option.mem_some_iff.mp (hh ▸ hb) with rfl
              rw [hh] at this
              simpa using this
          have hbe : b.2.2 = p.arrival :=
            (htl.pushIdle_pres hidle hgapI).hd b hb
          rw [hbe, hbI]
          unfold fcfsGap
          simp
        · intro hcon
          exact absurd hcon (pushIdle_ne_nil tl time p.arrival)
      · simp only [if_neg hidle]
        rcases tl with - | ⟨b, tlrest⟩
        · have h0 : time = 0 := htl.emp rfl
          rw [fcfsT2_nil hidle h0]
          exact ⟨le_refl _, fun b hb => absurd hb (Option.not_mem_none b),
            fun _ => h0⟩
        · by_cases hbI : b.1 = "Idle"
          · have h0time : 0 < time := by
              have hbe : b.2.2 = time := htl.hd b (by simp)
              have hbpos : b.2.1 < b.2.2 := htl.pos b (by simp)
              have hbnn : 0 ≤ b.2.1 :=
                chained_start_nonneg hgapnn htl.pos htl.chain htl.base b
                  (by simp)
              linarith
            rw [fcfsT2_idle_head tlrest hidle hbI h0time hcso]
            refine ⟨le_add_of_nonneg_right hcso, ?_, by simp⟩
            intro c hc
            rcases Option.mem_some_iff.mp hc with rfl
            have hce : b.2.2 = time := htl.hd b (by simp)
            rw [hce, hbI]
            unfold fcfsGap
            simp
          · rw [fcfsT2_busy_head tlrest hidle hbI]
            refine ⟨le_refl _, ?_, by simp⟩
            intro c hc
            rcases Option.mem_some_iff.mp hc with rfl
            have hce : b.2.2 = time := htl.hd b (by simp)
            rw [hce]
            unfold fcfsGap
            rw [if_neg hbI]
            ring
    obtain ⟨ht2ge, ht2hd, ht2nil⟩ := hkey
    have ht2arr : p.arrival ≤ fcfsT2 cso p time tl := le_trans harrle ht2ge
    have ht2time : time ≤ fcfsT2 cso p time tl := le_trans htimele ht2ge
    have hadj : ∀ b ∈ (if time < p.arrival then pushIdle tl time p.arrival
        else tl).head?, p.pid ≠ b.1 := by
      intro b hb
      have hbmem : b ∈ (if time < p.arrival then pushIdle tl time p.arrival
          else tl) := by
        rcases hh : (if time < p.arrival then pushIdle tl time p.arrival
            else tl) with - | ⟨c, r⟩
        · rw [hh] at hb; cases hb
        · rw [hh] at hb
          rcases Option.mem_some_iff.mp hb with rfl
          simp
      by_cases hidle : time < p.arrival
      · rw [if_pos hidle] at hbmem
        rcases mem_pushIdle hbmem with h1 | h1
        · rw [h1]
          exact hpidI
        · exact Ne.symm (hfresh b h1 p (List.mem_cons_self _ _))
      · rw [if_neg hidle] at hbmem
        exact Ne.symm (hfresh b hbmem p (List.mem_cons_self _ _))
    have htl2 : TLWF (fcfsGap cso) (fcfsT2 cso p time tl + p.burst)
        ((p.pid, fcfsT2 cso p time tl, fcfsT2 cso p time tl + p.burst) ::
          (if time < p.arrival then pushIdle tl time p.arrival else tl)) :=
      htl1.push_busy (lt_add_of_pos_right _ hpb) ht2ge ht2hd ht2nil hadj
    rw [fcfsGo_cons]
    obtain ⟨T, hTle, hTtl, hTms, hTlast⟩ := ih
      (fcfsT2 cso p time tl + p.burst)
      ((p.pid, fcfsT2 cso p time tl, fcfsT2 cso p time tl + p.burst) ::
        (if time < p.arrival then pushIdle tl time p.arrival else tl))
      (ms ++ [(p.pid, (fcfsT2 cso p time tl + p.burst,
        fcfsT2 cso p time tl + p.burst - p.arrival,
        fcfsT2 cso p time tl + p.burst - p.arrival - p.burst))])
      htl2
      (fun q hq => hvr q (List.mem_cons_of_mem _ hq))
      (fun q hq => hsub q (List.mem_cons_of_mem _ hq))
      hnd.2
      (by
        intro seg hseg q hq
        rcases List.mem_cons.mp hseg with rfl | hseg'
        · intro hcon
          refine hnd.1 ?_
          rw [show p.pid = q.pid from hcon]
          exact List.mem_map_of_mem _ hq
        · by_cases hidle : time < p.arrival
          · rw [if_pos hidle] at hseg'
            rcases mem_pushIdle hseg' with h1 | h1
            · rw [h1]
              exact Ne.symm ((hvr q (List.mem_cons_of_mem _ hq)).2.2)
            · exact hfresh seg h1 q (List.mem_cons_of_mem _ hq)
          · rw [if_neg hidle] at hseg'
            exact hfresh seg hseg' q (List.mem_cons_of_mem _ hq))
      (by
        intro e he
        rcases List.mem_append.mp he with h1 | h1
        · obtain ⟨q, hq, e1, e2, e3, e4, e5⟩ := hms e h1
          refine ⟨q, hq, e1, e2, e3, e4, ?_⟩
          refine le_trans e5 (le_trans ht2time ?_)
          exact le_add_of_nonneg_right (le_of_lt hpb)
        · rcases List.mem_singleton.mp h1 with rfl
          refine ⟨p, hsub p (List.mem_cons_self _ _), rfl, rfl, by ring,
            ?_, le_refl _⟩
          exact add_le_add_right ht2arr p.burst)
      (Or.inr ⟨_, List.mem_append_right _ (List.mem_singleton_self _), rfl⟩)
      (fun _ => List.cons_ne_nil _ _)
    refine ⟨T, ?_, hTtl, hTms, hTlast⟩
    refine le_trans (le_trans ht2time ?_) hTle
    exact le_add_of_nonneg_right (le_of_lt hpb)

/-- Summary invariant of a completed FCFS run: some final time `T` bounds a
well-formed timeline (in reverse order) and well-formed metrics whose last
completion equals `T`. -/
theorem fcfs_inv (procs : List Proc) (cso : ℚ) (hv : ValidWorkload procs)
    (hcso : 0 ≤ cso) :
    ∃ T, 0 ≤ T ∧ TLWF (fcfsGap cso) T (fcfs procs cso).1.reverse ∧
      (∀ e ∈ (fcfs procs cso).2, MOk procs T e) ∧
      ((fcfs procs cso).2 = [] ∨ ∃ e ∈ (fcfs procs cso).2, e.2.1 = T) ∧
      ((fcfs procs cso).2 ≠ [] → (fcfs procs cso).1.reverse ≠ []) := by
  have hperm :=
    List.perm_insertionSort (fun a b : Proc => a.arrival ≤ b.arrival) procs
  obtain ⟨T, hTle, hTtl, hTms, hTlast, hTmtl⟩ :=
    @fcfsGo_inv procs cso hcso
    (List.insertionSort (fun a b => a.arrival ≤ b.arrival) procs) 0 [] []
    (by
      constructor
      · exact le_refl 0
      · intro seg hseg; cases hseg
      · trivial
      · trivial
      · intro seg hseg; cases hseg
      · intro seg hseg; cases hseg
      · intro _; rfl)
    (fun q hq => ⟨(hv.1 q (hperm.subset hq)).1, (hv.1 q (hperm.subset hq)).2.1,
      (hv.1 q (hperm.subset hq)).2.2.2⟩)
    (fun q hq => hperm.subset hq)
    ((hperm.map (fun p => p.pid)).nodup_iff.mpr hv.2)
    (fun seg hseg => absurd hseg (List.not_mem_nil seg))
    (fun e he => absurd he (List.not_mem_nil e))
    (Or.inl rfl)
    (fun hcon => absurd rfl hcon)
  have h1 : (fcfs procs cso).1 =
      (fcfsGo cso (List.insertionSort (fun a b => a.arrival ≤ b.arrival) procs)
        0 [] []).1.reverse := rfl
  have h2 : (fcfs procs cso).2 =
      (fcfsGo cso (List.insertionSort (fun a b => a.arrival ≤ b.arrival) procs)
        0 [] []).2 := rfl
  refine ⟨T, hTle, ?_, ?_, ?_, ?_⟩
  · rw [h1, List.reverse_reverse]
    exact hTtl
  · rw [h2]
    exact hTms
  · rw [h2]
    exact hTlast
  · rw [h1, h2, List.reverse_reverse]
    exact hTmtl

/-! ## The state in which each loop stops -/

/-- Any state returned by `iterate` is the result of a `.stop` step from an
invariant-satisfying state. -/
theorem iterate_last {σ : Type} (body : σ → StepRes σ) (Inv : σ → Prop)
    (hpres : ∀ s s', Inv s → body s = .next s' → Inv s') :
    ∀ {fuel : Nat} {s0 s' : σ}, Inv s0 → iterate body fuel s0 = some s' →
      ∃ s, Inv s ∧ body s = .stop s' := by
  intro fuel
  induction fuel with
  | zero => intro s0 s' _ h; cases h
  | succ n ih =>
    intro s0 s' h0 h
    rw [iterate] at h
    cases hb : body s0 with
    | stop s2 =>
      rw [hb] at h
      cases h
      exact ⟨s0, h0, hb⟩
    | next s2 =>
      rw [hb] at h
      exact ih (hpres s0 s2 h0 hb) h
    | crash => rw [hb] at h; cases h

/-- A duplicate-free list contained in another list is no longer than it. -/
theorem nodup_subset_length {α : Type} [DecidableEq α] {c l : List α}
    (hnd : c.Nodup) (hsub : ∀ x ∈ c, x ∈ l) : c.length ≤ l.length :=
  (List.subperm_of_subset hnd hsub).length_le

/-- The non-preemptive loops stop only in a state where every process has
completed. -/
theorem np_stop {key : Proc → ℚ} {procs : List Proc} {cso : ℚ}
    {s s' : NPState} (hv : ValidWorkload procs) (hinv : NPInv procs cso s)
    (h : npBody key procs cso s = .stop s') :
    s' = s ∧ s.completed.length = procs.length := by
  unfold npBody at h
  by_cases hlen : s.completed.length < procs.length
  case neg =>
    rw [if_neg hlen] at h
    cases h
    refine ⟨rfl, le_antisymm ?_ (le_of_not_lt hlen)⟩
    have := nodup_subset_length hinv.comp_nodup
      (fun x hx => hinv.comp_sub x hx)
    rwa [List.length_map] at this
  rw [if_pos hlen] at h
  rcases hsel : pickMin (fun p => decide (p.arrival ≤ s.time) &&
      !(s.completed.contains p.pid)) key procs with - | ⟨pre, cur, post⟩ <;>
    simp only [hsel] at h
  · rcases hna : minQ ((procs.filter
        (fun p => !(s.completed.contains p.pid))).map (fun p => p.arrival))
      with - | na <;> simp only [hna] at h
    · exfalso
      obtain ⟨p, hp, hpid⟩ : ∃ p ∈ procs, p.pid ∉ s.completed := by
        by_contra hcon
        push_neg at hcon
        have hsub2 : ∀ x ∈ procs.map (fun p => p.pid), x ∈ s.completed := by
          intro x hx
          obtain ⟨p, hp, rfl⟩ := List.mem_map.mp hx
          exact hcon p hp
        have := nodup_subset_length hv.2 hsub2
        rw [List.length_map] at this
        omega
      have hpfil : p ∈ procs.filter
          (fun p => !(s.completed.contains p.pid)) :=
        List.mem_filter.mpr ⟨hp, by simpa using hpid⟩
      have hmem : p.arrival ∈ (procs.filter
          (fun p => !(s.completed.contains p.pid))).map (fun p => p.arrival) :=
        List.mem_map_of_mem _ hpfil
      rw [minQ_eq_none.mp hna] at hmem
      cases hmem
    · cases h
  · cases h

/-- The preemptive loops stop only in a state where every process has
completed. -/
theorem p_stop {sel : PProc → ℚ}
    {npt : List PProc → List String → ℚ → PProc → ℚ}
    {procs : List Proc} {cso : ℚ} {s s' : PState}
    (hv : ValidWorkload procs) (hinv : PInv procs cso s)
    (h : pBody sel npt procs cso s = .stop s') :
    s' = s ∧ s.completed.length = s.work.length := by
  have hwlen : s.work.length = procs.length := by
    have := congrArg List.length hinv.work_pids
    rwa [List.length_map, List.length_map] at this
  unfold pBody at h
  by_cases hlen : s.completed.length < s.work.length
  case neg =>
    rw [if_neg hlen] at h
    cases h
    refine ⟨rfl, le_antisymm ?_ (le_of_not_lt hlen)⟩
    have := nodup_subset_length hinv.comp_nodup
      (fun x hx => hinv.comp_sub x hx)
    rw [List.length_map] at this
    omega
  rw [if_pos hlen] at h
  rcases hsel : pickMin (fun p => decide (p.arrival ≤ s.time) &&
      !(s.completed.contains p.pid)) sel s.work with - | ⟨pre, cur, post⟩ <;>
    simp only [hsel] at h
  · rcases hna : minQ ((s.work.filter (fun p => !(s.completed.contains p.pid) &&
        decide (s.time < p.arrival))).map (fun p => p.arrival))
      with - | na <;> simp only [hna] at h
    · exfalso
      obtain ⟨q, hq, hqpid⟩ : ∃ q ∈ s.work, q.pid ∉ s.completed := by
        by_contra hcon
        push_neg at hcon
        have hsub2 : ∀ x ∈ s.work.map (fun q => q.pid), x ∈ s.completed := by
          intro x hx
          obtain ⟨q, hq, rfl⟩ := List.mem_map.mp hx
          exact hcon q hq
        have := nodup_subset_length (hinv.work_pids ▸ hv.2) hsub2
        rw [List.length_map] at this
        omega
      have hgood := pickMin_none_all hsel q hq
      have harr : s.time < q.arrival := by
        by_contra hcon
        push_neg at hcon
        simp [hcon] at hgood
        exact absurd hgood (by simpa using hqpid)
      have hqfil : q ∈ s.work.filter (fun p => !(s.completed.contains p.pid) &&
          decide (s.time < p.arrival)) :=
        List.mem_filter.mpr ⟨hq, by
          rw [Bool.and_eq_true]
          exact ⟨by simpa using hqpid, by simpa using harr⟩⟩
      have hmem : q.arrival ∈ (s.work.filter
          (fun p => !(s.completed.contains p.pid) &&
            decide (s.time < p.arrival))).map (fun p => p.arrival) :=
        List.mem_map_of_mem _ hqfil
      rw [minQ_eq_none.mp hna] at hmem
      cases hmem
    · cases h
  · split_ifs at h
    all_goals try cases h
    all_goals
      rcases hf : procs.find? (fun p => p.pid = cur.pid) with - | pd <;>
        simp only [hf] at h <;> cases h

/-- The Round Robin loop stops only in a state where every process has
completed. -/
theorem rr_stop {procs : List Proc} {quantum cso : ℚ} {s s' : RRState}
    (hv : ValidWorkload procs) (hinv : RRInv procs cso s)
    (h : rrBody procs quantum cso s = .stop s') :
    s' = s ∧ s.completed.length = s.work.length := by
  unfold rrBody at h
  by_cases hlen : s.completed.length < s.work.length
  case neg =>
    rw [if_neg hlen] at h
    cases h
    refine ⟨rfl, le_antisymm ?_ (le_of_not_lt hlen)⟩
    have hsl : s.completed.Sublist (s.queue.map (fun q => q.pid) ++
        (s.completed ++ (s.work.drop s.arrivalIdx).map (fun q => q.pid))) :=
      (List.sublist_append_left s.completed _).trans
        (List.sublist_append_right _ _)
    have := (hsl.subperm.trans hinv.cover.subperm).length_le
    rwa [List.length_map] at this
  rw [if_pos hlen] at h
  have hdisj : ∀ q ∈ s.work.drop s.arrivalIdx,
      q.pid ∉ s.queue.map (fun q => q.pid) := by
    intro q hq0 hmem
    have hbig := hinv.bigN
    rw [List.nodup_append] at hbig
    exact hbig.2.2 hmem (List.mem_append_right _ (List.mem_map_of_mem _ hq0))
  have hdropnodup :
      ((s.work.drop s.arrivalIdx).map (fun q => q.pid)).Nodup := by
    have hbig := hinv.bigN
    rw [List.nodup_append] at hbig
    have h2 := hbig.2.1
    rw [List.nodup_append] at h2
    exact h2.2.1
  obtain ⟨k, hkle, hadm, htakearr, hdroparr⟩ :=
    rrAdmit_spec s.time (s.work.drop s.arrivalIdx) s.queue s.arrivalIdx
      hdisj hdropnodup
  simp only [hadm] at h
  rcases hq1 : s.queue ++ (s.work.drop s.arrivalIdx).take k with
    - | ⟨cur, qrest⟩ <;> simp only [hq1] at h
  · rcases hna : minQ ((s.work.filter (fun p =>
        !(s.completed.contains p.pid) &&
        decide (s.time < p.arrival))).map (fun p => p.arrival)) with - | na <;>
      simp only [hna] at h
    · exfalso
      obtain ⟨hqe, hke⟩ := List.append_eq_nil.mp hq1
      have hcov := hinv.cover
      rw [hqe] at hcov
      simp only [List.map_nil, List.nil_append] at hcov
      have hlencov := hcov.length_eq
      rw [List.length_append, List.length_map, List.length_map] at hlencov
      obtain ⟨q0, qr, hd⟩ : ∃ q0 qr, s.work.drop s.arrivalIdx = q0 :: qr := by
        rcases hde : s.work.drop s.arrivalIdx with - | ⟨q0, qr⟩
        · rw [hde] at hlencov
          simp at hlencov
          omega
        · exact ⟨q0, qr, rfl⟩
      have hk0 : k = 0 := by
        rcases List.take_eq_nil_iff.mp hke with h1 | h1
        · exact h1
        · rw [hd] at h1
          cases h1
      have hq0fut : s.time < q0.arrival := by
        refine hdroparr q0 ?_
        rw [hk0, List.drop_zero, hd]
        simp
      have hq0d : q0 ∈ s.work.drop s.arrivalIdx := by
        rw [hd]
        exact List.mem_cons_self _ _
      have hq0w : q0 ∈ s.work := List.mem_of_mem_drop hq0d
      have hq0nc : q0.pid ∉ s.completed := by
        have hbig := hinv.bigN
        rw [hqe] at hbig
        simp only [List.map_nil, List.nil_append] at hbig
        rw [List.nodup_append] at hbig
        intro hcon
        refine hbig.2.2 hcon ?_
        rw [hd]
        exact List.mem_map_of_mem _ (List.mem_cons_self _ _)
      have hfil : q0 ∈ s.work.filter (fun p =>
          !(s.completed.contains p.pid) && decide (s.time < p.arrival)) :=
        List.mem_filter.mpr ⟨hq0w, by
          rw [Bool.and_eq_true]
          exact ⟨by simpa using hq0nc, by simpa using hq0fut⟩⟩
      have hmem : q0.arrival ∈ (s.work.filter (fun p =>
          !(s.completed.contains p.pid) &&
          decide (s.time < p.arrival))).map (fun p => p.arrival) :=
        List.mem_map_of_mem _ hfil
      rw [minQ_eq_none.mp hna] at hmem
      cases hmem
    · cases h
  · split_ifs at h
    all_goals try cases h
    all_goals
      rcases hf : procs.find? (fun p => p.pid = cur.pid) with - | pd <;>
        simp only [hf] at h <;> cases h

/-- Final-state characterisation of the non-preemptive entry points. -/
theorem np_final {key : Proc → ℚ} {procs : List Proc} {cso : ℚ} {fuel : Nat}
    {tl : List Seg} {ms : List (String × Metric)}
    (hv : ValidWorkload procs) (hcso : 0 ≤ cso)
    (h : (iterate (npBody key procs cso) fuel npInit).map
      (fun s => (s.timeline.reverse, s.metrics)) = some (tl, ms)) :
    ∃ s, NPInv procs cso s ∧ s.completed.length = procs.length ∧
      tl = s.timeline.reverse ∧ ms = s.metrics := by
  obtain ⟨sf, hsf, hmap⟩ := Option.map_eq_some'.mp h
  have hinv : NPInv procs cso sf :=
    npInv_iterate hv hcso (npInv_init procs cso) hsf
  obtain ⟨sprev, hprev, hstop⟩ := iterate_last _ (NPInv procs cso)
    (fun a b ha hb => (npInv_step hv hcso ha (Or.inl hb)).1)
    (npInv_init procs cso) hsf
  obtain ⟨heq, hfull⟩ := np_stop hv hprev hstop
  subst heq
  simp only [Prod.mk.injEq] at hmap
  exact ⟨sf, hinv, hfull, hmap.1.symm, hmap.2.symm⟩

/-- Final-state characterisation of the preemptive entry points. -/
theorem p_final {sel : PProc → ℚ}
    {npt : List PProc → List String → ℚ → PProc → ℚ} (hnpt : NptSpec npt)
    {procs : List Proc} {cso : ℚ} {fuel : Nat}
    {tl : List Seg} {ms : List (String × Metric)}
    (hv : ValidWorkload procs) (hcso : 0 ≤ cso)
    (h : (iterate (pBody sel npt procs cso) fuel (pInit procs)).map
      (fun s => (s.timeline.reverse, s.metrics)) = some (tl, ms)) :
    ∃ s, PInv procs cso s ∧ s.completed.length = s.work.length ∧
      tl = s.timeline.reverse ∧ ms = s.metrics := by
  obtain ⟨sf, hsf, hmap⟩ := Option.map_eq_some'.mp h
  have hinv : PInv procs cso sf :=
    pInv_iterate hnpt hv hcso (pInv_init procs cso hv) hsf
  obtain ⟨sprev, hprev, hstop⟩ := iterate_last _ (PInv procs cso)
    (fun a b ha hb => (pInv_step hnpt hv hcso ha (Or.inl hb)).1)
    (pInv_init procs cso hv) hsf
  obtain ⟨heq, hfull⟩ := p_stop hv hprev hstop
  subst heq
  simp only [Prod.mk.injEq] at hmap
  exact ⟨sf, hinv, hfull, hmap.1.symm, hmap.2.symm⟩

/-- Final-state characterisation of `round_robin`. -/
theorem rr_final {procs : List Proc} {quantum cso : ℚ} {fuel : Nat}
    {tl : List Seg} {ms : List (String × Metric)}
    (hv : ValidWorkload procs) (hcso : 0 ≤ cso) (hq : 0 < quantum)
    (h : round_robin procs quantum cso fuel = some (tl, ms)) :
    ∃ s, RRInv procs cso s ∧ s.completed.length = s.work.length ∧
      tl = s.timeline.reverse ∧ ms = s.metrics := by
  obtain ⟨sf, hsf, hmap⟩ := Option.map_eq_some'.mp h
  have hinv : RRInv procs cso sf :=
    rrInv_iterate hv hcso hq (rrInv_init procs cso hv) hsf
  obtain ⟨sprev, hprev, hstop⟩ := iterate_last _ (RRInv procs cso)
    (fun a b ha hb => (rrInv_step hv hcso hq ha (Or.inl hb)).1)
    (rrInv_init procs cso hv) hsf
  obtain ⟨heq, hfull⟩ := rr_stop hv hprev hstop
  subst heq
  simp only [Prod.mk.injEq] at hmap
  exact ⟨sf, hinv, hfull, hmap.1.symm, hmap.2.symm⟩

/-- A chain is preserved when the gap rules agree. -/
theorem chained_congr {gap gap' : String → String → ℚ}
    (hg : ∀ a b, gap a b = gap' a b) :
    ∀ {tl : List Seg}, Chained gap tl → Chained gap' tl := by
  intro tl
  induction tl with
  | nil => intro h; trivial
  | cons a t ih =>
    intro h
    cases t with
    | nil => trivial
    | cons b t' =>
      obtain ⟨hab, h'⟩ := h
      exact ⟨by rw [hab, hg], ih h'⟩

/-- `durSum` is invariant under reversal. -/
theorem durSum_reverse (tl : List Seg) : durSum tl.reverse = durSum tl := by
  unfold durSum
  rw [List.map_reverse, List.sum_reverse]

/-- From a zero-gap well-formed timeline and the final metric facts, derive
the claim C2 conclusions on the internal (reversed) timeline. -/
theorem timeline_conclusion {gap : String → String → ℚ} {time : ℚ}
    {itl : List Seg} {ms : List (String × Metric)}
    (htl : TLWF gap time itl) (hgap0 : ∀ a b, gap a b = 0)
    (hmsle : ∀ e ∈ ms, e.2.1 ≤ time)
    (hlast : ms = [] ∨ ∃ e ∈ ms, e.2.1 = time)
    (hmtl : ms ≠ [] → itl ≠ []) :
    (∀ seg ∈ itl, seg.2.1 < seg.2.2) ∧
    Chained (fun _ _ => (0:ℚ)) itl ∧ AdjDistinct itl ∧
    (ms = [] ∨ ∃ e ∈ ms, (∀ e2 ∈ ms, e2.2.1 ≤ e.2.1) ∧ durSum itl = e.2.1) := by
  refine ⟨htl.pos, chained_congr (fun a b => hgap0 a b) htl.chain, htl.adj, ?_⟩
  rcases hlast with h | ⟨e, he, heq⟩
  · exact Or.inl h
  right
  refine ⟨e, he, ?_, ?_⟩
  · intro e2 he2
    rw [heq]
    exact hmsle e2 he2
  have hne : itl ≠ [] := hmtl (by intro hcon; rw [hcon] at he; cases he)
  rcases hitl : itl with - | ⟨x, r⟩
  · exact absurd hitl hne
  obtain ⟨z, hz⟩ : ∃ z, (x :: r).getLast? = some z := by
    rcases hgl : (x :: r).getLast? with - | z
    · exfalso
      have : (x :: r).getLast?.isSome ↔ (x :: r) ≠ [] :=
        List.getLast?_isSome
      rw [hgl] at this
      simp at this
    · exact ⟨z, rfl⟩
  have hch0 : Chained (fun _ _ => (0:ℚ)) (x :: r) :=
    hitl ▸ chained_congr (fun a b => hgap0 a b) htl.chain
  have hds := @durSum_of_chained (fun _ _ => (0:ℚ)) (fun a b => rfl)
    _ hch0 x (by simp) z (by rw [hz]; rfl)
  have hxe : x.2.2 = time := by
    have := htl.hd
    rw [hitl] at this
    exact this x (by simp)
  have hz0 : z.2.1 = 0 := by
    have := htl.base
    rw [hitl] at this
    exact this z (by rw [hz]; rfl)
  rw [hds, hxe, hz0, heq]
  ring

/-- `timeline_conclusion` transported to the returned (forward) timeline. -/
theorem returned_conclusion {gap : String → String → ℚ} {time : ℚ}
    {itl : List Seg} {ms : List (String × Metric)}
    (htl : TLWF gap time itl) (hgap0 : ∀ a b, gap a b = 0)
    (hmsle : ∀ e ∈ ms, e.2.1 ≤ time)
    (hlast : ms = [] ∨ ∃ e ∈ ms, e.2.1 = time)
    (hmtl : ms ≠ [] → itl ≠ []) :
    (∀ seg ∈ itl.reverse, seg.2.1 < seg.2.2) ∧
    Chained (fun _ _ => (0:ℚ)) itl.reverse.reverse ∧
    AdjDistinct itl.reverse.reverse ∧
    (ms = [] ∨ ∃ e ∈ ms, (∀ e2 ∈ ms, e2.2.1 ≤ e.2.1) ∧
      durSum itl.reverse = e.2.1) := by
  obtain ⟨hpos, hch, hadj, hdur⟩ :=
    timeline_conclusion htl hgap0 hmsle hlast hmtl
  refine ⟨?_, ?_, ?_, ?_⟩
  · intro seg hseg
    exact hpos seg (List.mem_reverse.mp hseg)
  · rw [List.reverse_reverse]
    exact hch
  · rw [List.reverse_reverse]
    exact hadj
  · rw [durSum_reverse]
    exact hdur

/-! ## Amended claims C2, C3 and C7 -/

/-- Claim C3 (amended): the actual CSO charging rule, expressed as the exact
gap between consecutive timeline segments of a returned run (the chain is
stated over the reversed list: newer segment first, so `Chained gap tl.reverse`
says each segment starts exactly `gap` after the previous one ends).  For SJF,
SRTF, both Priority policies and Round Robin the gap before every non-Idle
segment that has a predecessor is exactly `cso` — including after an idle gap,
and including the very first process when it follows an initial idle period —
and the gap before an Idle segment is 0.  For FCFS the gap is exactly `cso`
before a segment that follows an Idle segment and 0 otherwise.  In every
policy the first segment starts at time 0. -/
theorem c3_cso_gap_rule (procs : List Proc) (cso : ℚ)
    (hv : ValidWorkload procs) (hcso : 0 ≤ cso) :
    (∀ fuel tl ms, sjf_non_preemptive procs cso fuel = some (tl, ms) →
      Chained (npGap cso) tl.reverse ∧ ∀ seg ∈ tl.head?, seg.2.1 = 0) ∧
    (∀ fuel tl ms, priority_non_preemptive procs cso fuel = some (tl, ms) →
      Chained (npGap cso) tl.reverse ∧ ∀ seg ∈ tl.head?, seg.2.1 = 0) ∧
    (∀ fuel tl ms, srtf_preemptive procs cso fuel = some (tl, ms) →
      Chained (npGap cso) tl.reverse ∧ ∀ seg ∈ tl.head?, seg.2.1 = 0) ∧
    (∀ fuel tl ms, priority_preemptive procs cso fuel = some (tl, ms) →
      Chained (npGap cso) tl.reverse ∧ ∀ seg ∈ tl.head?, seg.2.1 = 0) ∧
    (∀ quantum, 0 < quantum → ∀ fuel tl ms,
      round_robin procs quantum cso fuel = some (tl, ms) →
      Chained (npGap cso) tl.reverse ∧ ∀ seg ∈ tl.head?, seg.2.1 = 0) ∧
    (∀ tl ms, fcfs procs cso = (tl, ms) →
      Chained (fcfsGap cso) tl.reverse ∧ ∀ seg ∈ tl.head?, seg.2.1 = 0) := by
  refine ⟨?_, ?_, ?_, ?_, ?_, ?_⟩
  · intro fuel tl ms h
    obtain ⟨s, hinv, -, htleq, -⟩ := np_final hv hcso h
    subst htleq
    rw [List.reverse_reverse]
    refine ⟨hinv.tl.chain, ?_⟩
    intro seg hseg
    rw [List.head?_reverse] at hseg
    exact hinv.tl.base seg hseg
  · intro fuel tl ms h
    obtain ⟨s, hinv, -, htleq, -⟩ := np_final hv hcso h
    subst htleq
    rw [List.reverse_reverse]
    refine ⟨hinv.tl.chain, ?_⟩
    intro seg hseg
    rw [List.head?_reverse] at hseg
    exact hinv.tl.base seg hseg
  · intro fuel tl ms h
    obtain ⟨s, hinv, -, htleq, -⟩ := p_final srtfNPT_spec hv hcso h
    subst htleq
    rw [List.reverse_reverse]
    refine ⟨hinv.tl.chain, ?_⟩
    intro seg hseg
    rw [List.head?_reverse] at hseg
    exact hinv.tl.base seg hseg
  · intro fuel tl ms h
    obtain ⟨s, hinv, -, htleq, -⟩ := p_final prioNPT_spec hv hcso h
    subst htleq
    rw [List.reverse_reverse]
    refine ⟨hinv.tl.chain, ?_⟩
    intro seg hseg
    rw [List.head?_reverse] at hseg
    exact hinv.tl.base seg hseg
  · intro quantum hq fuel tl ms h
    obtain ⟨s, hinv, -, htleq, -⟩ := rr_final hv hcso hq h
    subst htleq
    rw [List.reverse_reverse]
    refine ⟨hinv.tl.chain, ?_⟩
    intro seg hseg
    rw [List.head?_reverse] at hseg
    exact hinv.tl.base seg hseg
  · intro tl ms h
    obtain ⟨T, -, htlwf, -, -, -⟩ := fcfs_inv procs cso hv hcso
    rw [h] at htlwf
    refine ⟨htlwf.chain, ?_⟩
    intro seg hseg
    rw [← List.getLast?_reverse] at hseg
    exact htlwf.base seg hseg

/-- Witness for C3 at a concrete run: SJF on the single process R1(arrival 1,
burst 1) with cso 1 produces `[(Idle,0,1),(R1,2,3)]`, whose reversed chain
follows the `npGap` rule and whose first segment starts at 0. -/
theorem c3_cso_gap_rule_witness :
    Chained (npGap 1) ([("Idle",0,1),("R1",2,3)] : List Seg).reverse ∧
    ∀ seg ∈ ([("Idle",0,1),("R1",2,3)] : List Seg).head?, seg.2.1 = 0 :=
  (c3_cso_gap_rule [⟨"R1",1,1,0⟩] 1 (by unfold ValidWorkload; decide)
      (by decide)).1 50
    [("Idle",0,1),("R1",2,3)] [("R1",3,2,1)] (by decide)

/-- Claim C2 (amended): with zero context-switch overhead, every returned
timeline consists of positive-duration segments, is contiguous (each segment
starts where the previous one ends — stated as a zero-gap chain over the
reversed list), never has two adjacent segments with the same subject, and
its segment durations (Idle included) sum to the completion time of the
last-finishing process whenever any process completed.  With positive
overhead the contiguity and duration-sum parts fail
(`c2_counterexample`). -/
theorem c2_timeline_invariants (procs : List Proc) (hv : ValidWorkload procs) :
    (∀ fuel tl ms, sjf_non_preemptive procs 0 fuel = some (tl, ms) →
      (∀ seg ∈ tl, seg.2.1 < seg.2.2) ∧
      Chained (fun _ _ => (0:ℚ)) tl.reverse ∧ AdjDistinct tl.reverse ∧
      (ms = [] ∨ ∃ e ∈ ms, (∀ e2 ∈ ms, e2.2.1 ≤ e.2.1) ∧
        durSum tl = e.2.1)) ∧
    (∀ fuel tl ms, priority_non_preemptive procs 0 fuel = some (tl, ms) →
      (∀ seg ∈ tl, seg.2.1 < seg.2.2) ∧
      Chained (fun _ _ => (0:ℚ)) tl.reverse ∧ AdjDistinct tl.reverse ∧
      (ms = [] ∨ ∃ e ∈ ms, (∀ e2 ∈ ms, e2.2.1 ≤ e.2.1) ∧
        durSum tl = e.2.1)) ∧
    (∀ fuel tl ms, srtf_preemptive procs 0 fuel = some (tl, ms) →
      (∀ seg ∈ tl, seg.2.1 < seg.2.2) ∧
      Chained (fun _ _ => (0:ℚ)) tl.reverse ∧ AdjDistinct tl.reverse ∧
      (ms = [] ∨ ∃ e ∈ ms, (∀ e2 ∈ ms, e2.2.1 ≤ e.2.1) ∧
        durSum tl = e.2.1)) ∧
    (∀ fuel tl ms, priority_preemptive procs 0 fuel = some (tl, ms) →
      (∀ seg ∈ tl, seg.2.1 < seg.2.2) ∧
      Chained (fun _ _ => (0:ℚ)) tl.reverse ∧ AdjDistinct tl.reverse ∧
      (ms = [] ∨ ∃ e ∈ ms, (∀ e2 ∈ ms, e2.2.1 ≤ e.2.1) ∧
        durSum tl = e.2.1)) ∧
    (∀ quantum, 0 < quantum → ∀ fuel tl ms,
      round_robin procs quantum 0 fuel = some (tl, ms) →
      (∀ seg ∈ tl, seg.2.1 < seg.2.2) ∧
      Chained (fun _ _ => (0:ℚ)) tl.reverse ∧ AdjDistinct tl.reverse ∧
      (ms = [] ∨ ∃ e ∈ ms, (∀ e2 ∈ ms, e2.2.1 ≤ e.2.1) ∧
        durSum tl = e.2.1)) ∧
    (∀ tl ms, fcfs procs 0 = (tl, ms) →
      (∀ seg ∈ tl, seg.2.1 < seg.2.2) ∧
      Chained (fun _ _ => (0:ℚ)) tl.reverse ∧ AdjDistinct tl.reverse ∧
      (ms = [] ∨ ∃ e ∈ ms, (∀ e2 ∈ ms, e2.2.1 ≤ e.2.1) ∧
        durSum tl = e.2.1)) := by
  have hgapnp : ∀ a b : String, npGap 0 a b = 0 := by
    intro a b
    unfold npGap
    split_ifs <;> rfl
  have hgapf : ∀ a b : String, fcfsGap 0 a b = 0 := by
    intro a b
    unfold fcfsGap
    split_ifs <;> rfl
  refine ⟨?_, ?_, ?_, ?_, ?_, ?_⟩
  · intro fuel tl ms h
    obtain ⟨s, hinv, hfull, htleq, hmseq⟩ := np_final hv (le_refl 0) h
    subst htleq
    subst hmseq
    exact returned_conclusion hinv.tl hgapnp
      (fun e he => by
        obtain ⟨p, -, -, -, -, -, h6⟩ := hinv.metrics_ok e he
        exact h6)
      (hinv.last_ct hfull) hinv.metrics_tl
  · intro fuel tl ms h
    obtain ⟨s, hinv, hfull, htleq, hmseq⟩ := np_final hv (le_refl 0) h
    subst htleq
    subst hmseq
    exact returned_conclusion hinv.tl hgapnp
      (fun e he => by
        obtain ⟨p, -, -, -, -, -, h6⟩ := hinv.metrics_ok e he
        exact h6)
      (hinv.last_ct hfull) hinv.metrics_tl
  · intro fuel tl ms h
    obtain ⟨s, hinv, hfull, htleq, hmseq⟩ :=
      p_final srtfNPT_spec hv (le_refl 0) h
    subst htleq
    subst hmseq
    exact returned_conclusion hinv.tl hgapnp
      (fun e he => by
        obtain ⟨p, -, -, -, -, -, h6⟩ := hinv.metrics_ok e he
        exact h6)
      (hinv.last_ct hfull) hinv.metrics_tl
  · intro fuel tl ms h
    obtain ⟨s, hinv, hfull, htleq, hmseq⟩ :=
      p_final prioNPT_spec hv (le_refl 0) h
    subst htleq
    subst hmseq
    exact returned_conclusion hinv.tl hgapnp
      (fun e he => by
        obtain ⟨p, -, -, -, -, -, h6⟩ := hinv.metrics_ok e he
        exact h6)
      (hinv.last_ct hfull) hinv.metrics_tl
  · intro quantum hq fuel tl ms h
    obtain ⟨s, hinv, hfull, htleq, hmseq⟩ := rr_final hv (le_refl 0) hq h
    subst htleq
    subst hmseq
    exact returned_conclusion hinv.tl hgapnp
      (fun e he => by
        obtain ⟨p, -, -, -, -, -, h6⟩ := hinv.metrics_ok e he
        exact h6)
      (hinv.last_ct hfull) hinv.metrics_tl
  · intro tl ms h
    obtain ⟨T, -, htlwf, hms, hlast, hmtl⟩ := fcfs_inv procs 0 hv (le_refl 0)
    have e1 : (fcfs procs 0).1 = tl := by rw [h]
    have e2 : (fcfs procs 0).2 = ms := by rw [h]
    rw [e1] at htlwf hmtl
    rw [e2] at hms hlast hmtl
    obtain ⟨hpos, hch, hadj, hdur⟩ := timeline_conclusion htlwf hgapf
      (fun e he => by
        obtain ⟨p, -, -, -, -, -, h6⟩ := hms e he
        exact h6)
      hlast hmtl
    refine ⟨?_, hch, hadj, ?_⟩
    · intro seg hseg
      exact hpos seg (List.mem_reverse.mpr hseg)
    · rw [← durSum_reverse]
      exact hdur

/-- Witness for C2: the FCFS clause at scenario A — P1(0,5), P2(1,3), P3(2,1)
with cso 0 — whose timeline `[(P1,0,5),(P2,5,8),(P3,8,9)]` satisfies all four
conclusions. -/
theorem c2_timeline_invariants_witness :
    (∀ seg ∈ ([("P1",0,5),("P2",5,8),("P3",8,9)] : List Seg),
      seg.2.1 < seg.2.2) ∧
    Chained (fun _ _ => (0:ℚ))
      ([("P1",0,5),("P2",5,8),("P3",8,9)] : List Seg).reverse ∧
    AdjDistinct ([("P1",0,5),("P2",5,8),("P3",8,9)] : List Seg).reverse ∧
    (([("P1",(5,5,0)),("P2",(8,7,4)),("P3",(9,7,6))] :
        List (String × Metric)) = [] ∨
      ∃ e ∈ ([("P1",(5,5,0)),("P2",(8,7,4)),("P3",(9,7,6))] :
        List (String × Metric)),
        (∀ e2 ∈ ([("P1",(5,5,0)),("P2",(8,7,4)),("P3",(9,7,6))] :
          List (String × Metric)), e2.2.1 ≤ e.2.1) ∧
        durSum ([("P1",0,5),("P2",5,8),("P3",8,9)] : List Seg) = e.2.1) :=
  (c2_timeline_invariants [⟨"P1",0,5,0⟩, ⟨"P2",1,3,0⟩, ⟨"P3",2,1,0⟩]
      (by unfold ValidWorkload; decide)).2.2.2.2.2
    [("P1",0,5),("P2",5,8),("P3",8,9)]
    [("P1",(5,5,0)),("P2",(8,7,4)),("P3",(9,7,6))] (by decide)

/-- Claim C7 (amended): in every returned metrics map, every entry satisfies
`TAT = CT - arrival` and `WT = TAT - burst` exactly, for every policy and
every cso ≥ 0.  The bounds `CT ≥ arrival + burst` and `WT ≥ 0` hold exactly
for the non-preemptive policies and FCFS, but for the preemptive policies and
Round Robin they hold only up to the completion tolerance:
`CT ≥ arrival + burst − 1e-9` and `WT ≥ −1e-9` (`c7_counterexample` shows the
slack is real). -/
theorem c7_metrics_formulas (procs : List Proc) (cso : ℚ)
    (hv : ValidWorkload procs) (hcso : 0 ≤ cso) :
    (∀ fuel tl ms, sjf_non_preemptive procs cso fuel = some (tl, ms) →
      ∀ e ∈ ms, ∃ p ∈ procs, p.pid = e.1 ∧ e.2.2.1 = e.2.1 - p.arrival ∧
        e.2.2.2 = e.2.2.1 - p.burst ∧ p.arrival + p.burst ≤ e.2.1 ∧
        0 ≤ e.2.2.2) ∧
    (∀ fuel tl ms, priority_non_preemptive procs cso fuel = some (tl, ms) →
      ∀ e ∈ ms, ∃ p ∈ procs, p.pid = e.1 ∧ e.2.2.1 = e.2.1 - p.arrival ∧
        e.2.2.2 = e.2.2.1 - p.burst ∧ p.arrival + p.burst ≤ e.2.1 ∧
        0 ≤ e.2.2.2) ∧
    (∀ fuel tl ms, srtf_preemptive procs cso fuel = some (tl, ms) →
      ∀ e ∈ ms, ∃ p ∈ procs, p.pid = e.1 ∧ e.2.2.1 = e.2.1 - p.arrival ∧
        e.2.2.2 = e.2.2.1 - p.burst ∧ p.arrival + p.burst - eps ≤ e.2.1 ∧
        -eps ≤ e.2.2.2) ∧
    (∀ fuel tl ms, priority_preemptive procs cso fuel = some (tl, ms) →
      ∀ e ∈ ms, ∃ p ∈ procs, p.pid = e.1 ∧ e.2.2.1 = e.2.1 - p.arrival ∧
        e.2.2.2 = e.2.2.1 - p.burst ∧ p.arrival + p.burst - eps ≤ e.2.1 ∧
        -eps ≤ e.2.2.2) ∧
    (∀ quantum, 0 < quantum → ∀ fuel tl ms,
      round_robin procs quantum cso fuel = some (tl, ms) →
      ∀ e ∈ ms, ∃ p ∈ procs, p.pid = e.1 ∧ e.2.2.1 = e.2.1 - p.arrival ∧
        e.2.2.2 = e.2.2.1 - p.burst ∧ p.arrival + p.burst - eps ≤ e.2.1 ∧
        -eps ≤ e.2.2.2) ∧
    (∀ tl ms, fcfs procs cso = (tl, ms) →
      ∀ e ∈ ms, ∃ p ∈ procs, p.pid = e.1 ∧ e.2.2.1 = e.2.1 - p.arrival ∧
        e.2.2.2 = e.2.2.1 - p.burst ∧ p.arrival + p.burst ≤ e.2.1 ∧
        0 ≤ e.2.2.2) := by
  refine ⟨?_, ?_, ?_, ?_, ?_, ?_⟩
  · intro fuel tl ms h e he
    obtain ⟨s, hinv, -, -, hmseq⟩ := np_final hv hcso h
    obtain ⟨p, hp, h1, h2, h3, h4, -⟩ := hinv.metrics_ok e (hmseq ▸ he)
    exact ⟨p, hp, h1, h2, h3, h4, by rw [h3, h2]; linarith⟩
  · intro fuel tl ms h e he
    obtain ⟨s, hinv, -, -, hmseq⟩ := np_final hv hcso h
    obtain ⟨p, hp, h1, h2, h3, h4, -⟩ := hinv.metrics_ok e (hmseq ▸ he)
    exact ⟨p, hp, h1, h2, h3, h4, by rw [h3, h2]; linarith⟩
  · intro fuel tl ms h e he
    obtain ⟨s, hinv, -, -, hmseq⟩ := p_final srtfNPT_spec hv hcso h
    obtain ⟨p, hp, h1, h2, h3, h4, -⟩ := hinv.metrics_ok e (hmseq ▸ he)
    exact ⟨p, hp, h1, h2, h3, h4, by rw [h3, h2]; linarith⟩
  · intro fuel tl ms h e he
    obtain ⟨s, hinv, -, -, hmseq⟩ := p_final prioNPT_spec hv hcso h
    obtain ⟨p, hp, h1, h2, h3, h4, -⟩ := hinv.metrics_ok e (hmseq ▸ he)
    exact ⟨p, hp, h1, h2, h3, h4, by rw [h3, h2]; linarith⟩
  · intro quantum hq fuel tl ms h e he
    obtain ⟨s, hinv, -, -, hmseq⟩ := rr_final hv hcso hq h
    obtain ⟨p, hp, h1, h2, h3, h4, -⟩ := hinv.metrics_ok e (hmseq ▸ he)
    exact ⟨p, hp, h1, h2, h3, h4, by rw [h3, h2]; linarith⟩
  · intro tl ms h e he
    obtain ⟨T, -, -, hms, -, -⟩ := fcfs_inv procs cso hv hcso
    have e2 : (fcfs procs cso).2 = ms := by rw [h]
    obtain ⟨p, hp, h1, h2, h3, h4, -⟩ := hms e (e2.symm ▸ he)
    exact ⟨p, hp, h1, h2, h3, h4, by rw [h3, h2]; linarith⟩

/-- Witness for C7: the SJF clause at scenario A with cso 0; the metrics are
P1(CT 5, TAT 5, WT 0), P3(CT 6, TAT 4, WT 3), P2(CT 9, TAT 8, WT 5), each
satisfying the formulas and non-negative waiting time. -/
theorem c7_metrics_formulas_witness :
    ∃ p ∈ [(⟨"P1",0,5,0⟩ : Proc), ⟨"P2",1,3,0⟩, ⟨"P3",2,1,0⟩],
      p.pid = "P1" ∧ (5:ℚ) = 5 - p.arrival ∧ (0:ℚ) = 5 - p.burst ∧
      p.arrival + p.burst ≤ (5:ℚ) ∧ (0:ℚ) ≤ 0 :=
  (c7_metrics_formulas [⟨"P1",0,5,0⟩, ⟨"P2",1,3,0⟩, ⟨"P3",2,1,0⟩] 0
      (by unfold ValidWorkload; decide) (by decide)).1 20
    [("P1",0,5),("P3",5,6),("P2",6,9)]
    [("P1",(5,5,0)),("P3",(6,4,3)),("P2",(9,8,5))] (by decide)
    ("P1",(5,5,0)) (by decide)

/-! ## Amended claim C1: the actual preemption horizons -/

/-- Characterisation of the minimum-priority scan of `priority_preemptive`:
the accumulator's priority only decreases, bounds every scanned priority, and
the recorded arrival (if any) belongs to a scanned process attaining the
final priority, which strictly improves on the initial one. -/
theorem prio_fold_min (l : List PProc) :
    ∀ b : Option ℚ × ℚ,
      (l.foldl (fun (b : Option ℚ × ℚ) p =>
        if p.priority < b.2 then (some p.arrival, p.priority) else b) b).2 ≤
          b.2 ∧
      (∀ p ∈ l, (l.foldl (fun (b : Option ℚ × ℚ) p =>
        if p.priority < b.2 then (some p.arrival, p.priority) else b) b).2 ≤
          p.priority) ∧
      ((l.foldl (fun (b : Option ℚ × ℚ) p =>
        if p.priority < b.2 then (some p.arrival, p.priority) else b) b) = b ∨
       ∃ p ∈ l, (l.foldl (fun (b : Option ℚ × ℚ) p =>
          if p.priority < b.2 then (some p.arrival, p.priority) else b)
            b).1 = some p.arrival ∧
        (l.foldl (fun (b : Option ℚ × ℚ) p =>
          if p.priority < b.2 then (some p.arrival, p.priority) else b)
            b).2 = p.priority ∧ p.priority < b.2) := by
  induction l with
  | nil =>
    intro b
    exact ⟨le_refl _, fun p hp => absurd hp (List.not_mem_nil p), Or.inl rfl⟩
  | cons q rest ih =>
    intro b
    rw [List.foldl_cons]
    by_cases hq : q.priority < b.2
    · rw [if_pos hq]
      obtain ⟨h1, h2, h3⟩ := ih (some q.arrival, q.priority)
      refine ⟨le_of_lt (lt_of_le_of_lt h1 hq), ?_, ?_⟩
      · intro p hp
        rcases List.mem_cons.mp hp with rfl | hp'
        · exact h1
        · exact h2 p hp'
      · rcases h3 with h | ⟨p, hp, ha, hpr, hlt⟩
        · exact Or.inr ⟨q, List.mem_cons_self _ _, by rw [h], by rw [h], hq⟩
        · exact Or.inr ⟨p, List.mem_cons_of_mem _ hp, ha, hpr,
            lt_trans hlt hq⟩
    · rw [if_neg hq]
      obtain ⟨h1, h2, h3⟩ := ih b
      refine ⟨h1, ?_, ?_⟩
      · intro p hp
        rcases List.mem_cons.mp hp with rfl | hp'
        · exact le_trans h1 (le_of_not_lt hq)
        · exact h2 p hp'
      · rcases h3 with h | ⟨p, hp, ha, hpr, hlt⟩
        · exact Or.inl h
        · exact Or.inr ⟨p, List.mem_cons_of_mem _ hp, ha, hpr, hlt⟩

/-- Claim C1 (amended): the preemption horizons the code actually uses.
SRTF inspects only the earliest future (incomplete) arrival `na`: if some
process arriving exactly at `na` has burst below the current remaining time,
the slice is cut at `na`; otherwise the process is scheduled to run to
completion, even when a later arrival would preempt
(`c1_counterexample`).  Preemptive Priority cuts the slice at the arrival of
a future incomplete process of globally minimal priority below the current
one, if any; otherwise it runs to completion.  In both loops the selected
process then runs for `min(remaining, horizon)` (the `run_for` of `pBody`). -/
theorem c1_preemption_horizon :
    (∀ (work : List PProc) (completed : List String) (t : ℚ) (cur : PProc),
      (minQ ((work.filter (fun p => decide (t < p.arrival) &&
          !(completed.contains p.pid))).map (fun p => p.arrival)) = none →
        srtfNPT work completed t cur = cur.remaining) ∧
      ∀ na, minQ ((work.filter (fun p => decide (t < p.arrival) &&
          !(completed.contains p.pid))).map (fun p => p.arrival)) = some na →
        ((∃ p ∈ work, p.arrival = na ∧ p.burst < cur.remaining) →
          srtfNPT work completed t cur = na - t) ∧
        ((∀ p ∈ work, p.arrival = na → ¬ p.burst < cur.remaining) →
          srtfNPT work completed t cur = cur.remaining)) ∧
    (∀ (work : List PProc) (completed : List String) (t : ℚ) (cur : PProc),
      ((∀ p ∈ work, t < p.arrival → p.pid ∉ completed →
          cur.priority ≤ p.priority) →
        prioNPT work completed t cur = cur.remaining) ∧
      ((∃ p ∈ work, t < p.arrival ∧ p.pid ∉ completed ∧
          p.priority < cur.priority) →
        ∃ p ∈ work, t < p.arrival ∧ p.pid ∉ completed ∧
          p.priority < cur.priority ∧
          (∀ q ∈ work, t < q.arrival → q.pid ∉ completed →
            p.priority ≤ q.priority) ∧
          prioNPT work completed t cur = p.arrival - t)) := by
  constructor
  · intro work completed t cur
    constructor
    · intro hna
      unfold srtfNPT
      rw [hna]
    · intro na hna
      constructor
      · intro ⟨p, hp, hpna, hpb⟩
        unfold srtfNPT
        rw [hna]
        have hany : work.any
            (fun p => p.arrival = na && p.burst < cur.remaining) = true := by
          rw [List.any_eq_true]
          exact ⟨p, hp, by
            rw [Bool.and_eq_true]
            exact ⟨by simpa using hpna, by simpa using hpb⟩⟩
        show (if (work.any
            (fun p => p.arrival = na && p.burst < cur.remaining)) = true
          then na - t else cur.remaining) = na - t
        rw [if_pos hany]
      · intro hnone
        unfold srtfNPT
        rw [hna]
        have hany : work.any
            (fun p => p.arrival = na && p.burst < cur.remaining) = false := by
          rw [← Bool.not_eq_true, List.any_eq_true]
          rintro ⟨p, hp, hpp⟩
          rw [Bool.and_eq_true] at hpp
          exact hnone p hp (by simpa using hpp.1) (by simpa using hpp.2)
        show (if (work.any
            (fun p => p.arrival = na && p.burst < cur.remaining)) = true
          then na - t else cur.remaining) = cur.remaining
        rw [if_neg (by rw [hany]; exact Bool.false_ne_true)]
  · intro work completed t cur
    obtain ⟨h1, h2, h3⟩ := prio_fold_min
      (work.filter (fun p => decide (t < p.arrival) &&
        !(completed.contains p.pid))) (none, cur.priority)
    constructor
    · intro hall
      have hfold : ((work.filter (fun p => decide (t < p.arrival) &&
          !(completed.contains p.pid))).foldl
          (fun (b : Option ℚ × ℚ) p =>
            if p.priority < b.2 then (some p.arrival, p.priority) else b)
          (none, cur.priority)).1 = none := by
        rcases h3 with h | ⟨p, hp, ha, hpr, hlt⟩
        · rw [h]
        · exfalso
          obtain ⟨hpw, hpf⟩ := List.mem_filter.mp hp
          rw [Bool.and_eq_true] at hpf
          have := hall p hpw (by simpa using hpf.1) (by simpa using hpf.2)
          exact absurd hlt (not_lt_of_le this)
      unfold prioNPT
      simp only [hfold]
    · rintro ⟨p0, hp0, hp0arr, hp0nc, hp0pr⟩
      have hp0fil : p0 ∈ work.filter (fun p => decide (t < p.arrival) &&
          !(completed.contains p.pid)) :=
        List.mem_filter.mpr ⟨hp0, by
          rw [Bool.and_eq_true]
          exact ⟨by simpa using hp0arr, by simpa using hp0nc⟩⟩
      rcases h3 with h | ⟨p, hp, ha, hpr, hlt⟩
      · exfalso
        have := h2 p0 hp0fil
        rw [h] at this
        exact absurd hp0pr (not_lt_of_le this)
      · obtain ⟨hpw, hpf⟩ := List.mem_filter.mp hp
        rw [Bool.and_eq_true] at hpf
        refine ⟨p, hpw, by simpa using hpf.1, by simpa using hpf.2, hpr ▸ hlt,
          ?_, ?_⟩
        · intro q hq hqarr hqnc
          have hqfil : q ∈ work.filter (fun p => decide (t < p.arrival) &&
              !(completed.contains p.pid)) :=
            List.mem_filter.mpr ⟨hq, by
              rw [Bool.and_eq_true]
              exact ⟨by simpa using hqarr, by simpa using hqnc⟩⟩
          have := h2 q hqfil
          rw [hpr] at this
          exact this
        · unfold prioNPT
          simp only [ha]

/-- Witness for C1: on the workload of `c1_counterexample`, SRTF at time 0
runs A to completion (the earliest future arrival B does not preempt, so the
horizon is A's full remaining time), and preemptive Priority at time 0 cuts
A's slice at the arrival of the globally minimal-priority future process. -/
theorem c1_preemption_horizon_witness :
    srtfNPT [⟨"A",0,10,0,10⟩, ⟨"B",1,20,0,20⟩, ⟨"C",2,1,0,1⟩] [] 0
        ⟨"A",0,10,0,10⟩ = (⟨"A",0,10,0,10⟩ : PProc).remaining ∧
    ∃ p ∈ ([⟨"A",0,10,5,10⟩, ⟨"B",1,10,4,10⟩, ⟨"C",5,10,1,10⟩] : List PProc),
      (0:ℚ) < p.arrival ∧ p.pid ∉ ([] : List String) ∧
      p.priority < (⟨"A",0,10,5,10⟩ : PProc).priority ∧
      (∀ q ∈ ([⟨"A",0,10,5,10⟩, ⟨"B",1,10,4,10⟩, ⟨"C",5,10,1,10⟩] :
          List PProc),
        (0:ℚ) < q.arrival → q.pid ∉ ([] : List String) →
          p.priority ≤ q.priority) ∧
      prioNPT [⟨"A",0,10,5,10⟩, ⟨"B",1,10,4,10⟩, ⟨"C",5,10,1,10⟩] [] 0
        ⟨"A",0,10,5,10⟩ = p.arrival - 0 :=
  ⟨((c1_preemption_horizon.1
        [⟨"A",0,10,0,10⟩, ⟨"B",1,20,0,20⟩, ⟨"C",2,1,0,1⟩] [] 0
        ⟨"A",0,10,0,10⟩).2 1 (by decide)).2 (by decide),
   (c1_preemption_horizon.2
        [⟨"A",0,10,5,10⟩, ⟨"B",1,10,4,10⟩, ⟨"C",5,10,1,10⟩] [] 0
        ⟨"A",0,10,5,10⟩).2 (by decide)⟩

/-! ## Amended claim C10: boundary admission under sorted input -/

/-- Claim C10 (amended): when the not-yet-admitted suffix of the working
array is sorted by arrival (in particular whenever the input list is), the
slice-end admission loop admits exactly the processes with
`arrival ≤ slice end` — including a process arriving exactly at the quantum
expiry instant — and a quantum-expired slice that leaves remaining work
re-enqueues the preempted process after those newly admitted processes
(`queue = rest-of-queue ++ admitted ++ [preempted]`).  Without sortedness
an arrived process can be skipped (`c10_counterexample`). -/
theorem c10_sorted_boundary_admission :
    (∀ (time : ℚ) (rest : List PProc) (idx : Nat),
      List.Sorted (fun a b : PProc => a.arrival ≤ b.arrival) rest →
      ∃ k, k ≤ rest.length ∧ rrAdmit2 time rest idx = (rest.take k, idx + k) ∧
        (∀ q ∈ rest.take k, q.arrival ≤ time) ∧
        (∀ q ∈ rest.drop k, time < q.arrival) ∧
        (∀ q ∈ rest, q.arrival ≤ time → q ∈ rest.take k)) ∧
    (∀ (procs0 : List Proc) (quantum cso : ℚ) (s : RRState) (cur : PProc)
        (qrest : List PProc) (i1 : Nat),
      s.completed.length < s.work.length →
      rrAdmit s.time s.queue (s.work.drop s.arrivalIdx) s.arrivalIdx =
        (cur :: qrest, i1) →
      eps < cur.remaining - min quantum cur.remaining →
      rrBody procs0 quantum cso s = .next
        { work := s.work
          queue := qrest ++ (rrAdmit2
            (s.time + (match s.lastRun with
              | some l => if l ≠ cur.pid then cso else 0
              | none => 0) + min quantum cur.remaining)
            (s.work.drop i1) i1).1 ++
            [{ cur with
              remaining := cur.remaining - min quantum cur.remaining }]
          arrivalIdx := (rrAdmit2
            (s.time + (match s.lastRun with
              | some l => if l ≠ cur.pid then cso else 0
              | none => 0) + min quantum cur.remaining)
            (s.work.drop i1) i1).2
          time := s.time + (match s.lastRun with
              | some l => if l ≠ cur.pid then cso else 0
              | none => 0) + min quantum cur.remaining
          timeline := mergePush s.timeline cur.pid
            (s.time + (match s.lastRun with
              | some l => if l ≠ cur.pid then cso else 0
              | none => 0))
            (s.time + (match s.lastRun with
              | some l => if l ≠ cur.pid then cso else 0
              | none => 0) + min quantum cur.remaining)
          metrics := s.metrics
          completed := s.completed
          lastRun := some cur.pid }) := by
  constructor
  · intro time rest idx hsorted
    obtain ⟨k, hk, hadm, htake, hdrop⟩ := rrAdmit2_spec time rest idx
    refine ⟨k, hk, hadm, htake, ?_, ?_⟩
    · intro q hq
      have hsd : List.Sorted (fun a b : PProc => a.arrival ≤ b.arrival)
          (rest.drop k) := List.Pairwise.drop hsorted
      rcases hdk : rest.drop k with - | ⟨h0, t0⟩
      · rw [hdk] at hq
        cases hq
      · rw [hdk] at hq hsd
        have hh0 : time < h0.arrival := by
          refine hdrop h0 ?_
          rw [hdk]
          simp
        rcases List.mem_cons.mp hq with rfl | hq'
        · exact hh0
        · rw [List.sorted_cons] at hsd
          exact lt_of_lt_of_le hh0 (hsd.1 q hq')
    · intro q hq harr
      rcases List.mem_append.mp
          ((List.take_append_drop k rest) ▸ hq) with h1 | h1
      · exact h1
      · exfalso
        have hsd : List.Sorted (fun a b : PProc => a.arrival ≤ b.arrival)
            (rest.drop k) := List.Pairwise.drop hsorted
        rcases hdk : rest.drop k with - | ⟨h0, t0⟩
        · rw [hdk] at h1
          cases h1
        · rw [hdk] at h1 hsd
          have hh0 : time < h0.arrival := by
            refine hdrop h0 ?_
            rw [hdk]
            simp
          rcases List.mem_cons.mp h1 with rfl | hq'
          · exact absurd harr (not_le_of_lt hh0)
          · rw [List.sorted_cons] at hsd
            exact absurd harr
              (not_le_of_lt (lt_of_lt_of_le hh0 (hsd.1 q hq')))
  · intro procs0 quantum cso s cur qrest i1 hlen hadm hrem
    unfold rrBody
    rw [if_pos hlen]
    simp only [hadm]
    rw [if_neg (not_le_of_lt hrem)]

/-- Witness for C10: the sorted suffix [T2(arrival 1), T3(arrival 3)] at
slice end 2 admits exactly T2, and the first slice of scenario B re-enqueues
P1 behind the processes admitted at its expiry. -/
theorem c10_sorted_boundary_admission_witness :
    (∃ k, k ≤ ([⟨"T2",1,1,0,1⟩, ⟨"T3",3,1,0,1⟩] : List PProc).length ∧
      rrAdmit2 2 [⟨"T2",1,1,0,1⟩, ⟨"T3",3,1,0,1⟩] 1 =
        (([⟨"T2",1,1,0,1⟩, ⟨"T3",3,1,0,1⟩] : List PProc).take k, 1 + k) ∧
      (∀ q ∈ ([⟨"T2",1,1,0,1⟩, ⟨"T3",3,1,0,1⟩] : List PProc).take k,
        q.arrival ≤ 2) ∧
      (∀ q ∈ ([⟨"T2",1,1,0,1⟩, ⟨"T3",3,1,0,1⟩] : List PProc).drop k,
        (2:ℚ) < q.arrival) ∧
      (∀ q ∈ ([⟨"T2",1,1,0,1⟩, ⟨"T3",3,1,0,1⟩] : List PProc),
        q.arrival ≤ 2 →
          q ∈ ([⟨"T2",1,1,0,1⟩, ⟨"T3",3,1,0,1⟩] : List PProc).take k)) ∧
    rrBody [⟨"P1",0,5,0⟩, ⟨"P2",1,3,0⟩, ⟨"P3",2,1,0⟩] 2 0
        (rrInit [⟨"P1",0,5,0⟩, ⟨"P2",1,3,0⟩, ⟨"P3",2,1,0⟩]) = .next
      { work := [⟨"P1",0,5,0,5⟩, ⟨"P2",1,3,0,3⟩, ⟨"P3",2,1,0,1⟩]
        queue := [⟨"P2",1,3,0,3⟩, ⟨"P3",2,1,0,1⟩, ⟨"P1",0,5,0,3⟩]
        arrivalIdx := 3, time := 2, timeline := [("P1",0,2)]
        metrics := [], completed := [], lastRun := some "P1" } := by
  constructor
  · exact c10_sorted_boundary_admission.1 2
      [⟨"T2",1,1,0,1⟩, ⟨"T3",3,1,0,1⟩] 1 (by decide)
  · have h := c10_sorted_boundary_admission.2
      [⟨"P1",0,5,0⟩, ⟨"P2",1,3,0⟩, ⟨"P3",2,1,0⟩] 2 0
      (rrInit [⟨"P1",0,5,0⟩, ⟨"P2",1,3,0⟩, ⟨"P3",2,1,0⟩])
      ⟨"P1",0,5,0,5⟩ [] 1 (by decide) (by decide) (by decide)
    exact h.trans (by decide)

/-! ## Equivalence of Round Robin and FCFS (amended claim C6) -/

/-- With zero overhead the FCFS start time is simply
`max(clock, arrival)`. -/
theorem fcfsT2_zero (p : Proc) (time : ℚ) (tl : List Seg) :
    fcfsT2 0 p time tl = if time < p.arrival then p.arrival else time := by
  have harrle : p.arrival ≤ (if time < p.arrival then p.arrival else time) := by
    split_ifs with h
    · exact le_refl _
    · exact le_of_not_lt h
  unfold fcfsT2
  simp only [add_zero]
  by_cases h0 : time < p.arrival
  · simp only [if_pos h0]
    split_ifs
    · rfl
    · exact max_self _
    · rfl
  · simp only [if_neg h0]
    split_ifs
    · rfl
    · exact max_eq_right (le_of_not_lt h0)
    · rfl

/-- `mergePush` of a subject different from the head subject (or onto an
empty timeline) is a plain `cons`. -/
theorem mergePush_fresh {tl : List Seg} {pid : String}
    (h : ∀ b ∈ tl.head?, b.1 ≠ pid) (st en : ℚ) :
    mergePush tl pid st en = (pid, st, en) :: tl := by
  rcases tl with - | ⟨⟨subj, s0, e0⟩, rest⟩
  · rfl
  · exact mergePush_diff (h (subj, s0, e0) (by simp)) s0 e0 st en rest

/-- `find?` by pid hits the unique process with that pid. -/
theorem find?_pid_unique :
    ∀ (done : List Proc) (p : Proc) (rest : List Proc),
      (((done ++ p :: rest).map (fun q => q.pid)).Nodup) →
      (done ++ p :: rest).find? (fun q => q.pid = p.pid) = some p := by
  intro done
  induction done with
  | nil =>
    intro p rest _
    rw [List.nil_append]
    exact List.find?_cons_of_pos _ (by simp)
  | cons d done' ih =>
    intro p rest hnd
    rw [List.cons_append]
    rw [List.cons_append, List.map_cons, List.nodup_cons] at hnd
    have hdne : d.pid ≠ p.pid := by
      intro hcon
      refine hnd.1 ?_
      rw [hcon]
      exact List.mem_map_of_mem _
        (List.mem_append_right done' (List.mem_cons_self _ _))
    rw [List.find?_cons_of_neg _ (by simpa using hdne)]
    exact ih p rest hnd.2

/-- Simulation of Round Robin by FCFS: on a sorted workload whose bursts all
fit in one quantum and with zero overhead, the Round Robin loop from a state
that mirrors an intermediate FCFS state produces exactly the FCFS
continuation. -/
theorem rr_fcfs_sim {procs : List Proc} {quantum : ℚ}
    (hv : ValidWorkload procs) (hq : 0 < quantum)
    (hsorted : List.Sorted (fun a b : Proc => a.arrival ≤ b.arrival) procs)
    (hburst : ∀ p ∈ procs, p.burst ≤ quantum) :
    ∀ (fuel : Nat) (done rest : List Proc) (m : Nat) (s : RRState)
      (s' : RRState),
      procs = done ++ rest →
      s.work = procs.map toPProc →
      s.arrivalIdx = done.length + m →
      m ≤ rest.length →
      s.queue = (rest.take m).map toPProc →
      s.completed.Perm (done.map (fun p => p.pid)) →
      (∀ q ∈ s.queue, q.arrival ≤ s.time) →
      0 ≤ s.time →
      (∀ seg ∈ s.timeline, seg.1 = "Idle" ∨
        seg.1 ∈ done.map (fun p => p.pid)) →
      iterate (rrBody procs quantum 0) fuel s = some s' →
      (s'.timeline, s'.metrics) = fcfsGo 0 rest s.time s.timeline s.metrics := by
  intro fuel
  induction fuel with
  | zero =>
    intro done rest m s s' _ _ _ _ _ _ _ _ _ hiter
    cases hiter
  | succ n ih =>
    intro done rest m s s' hsplit hwork hidx hmle hqueue hcomp harr htime0
      hsubj hiter
    have hco : ((fun q : PProc => q.pid) ∘ toPProc) =
        fun p : Proc => p.pid := rfl
    have hlenw : s.work.length = procs.length := by
      rw [hwork, List.length_map]
    have hcomplen : s.completed.length = done.length := by
      rw [hcomp.length_eq, List.length_map]
    have hplen : procs.length = done.length + rest.length := by
      rw [hsplit, List.length_append]
    rcases rest with - | ⟨p, rest2⟩
    · have hguard : ¬ s.completed.length < s.work.length := by
        rw [hcomplen, hlenw, hplen]
        simp
      have hbody : rrBody procs quantum 0 s = .stop s := by
        unfold rrBody
        rw [if_neg hguard]
      rw [iterate, hbody] at hiter
      cases hiter
      rfl
    · have hpproc : p ∈ procs := by
        rw [hsplit]
        exact List.mem_append_right _ (List.mem_cons_self _ _)
      obtain ⟨hpb, hpa, -, hpidI⟩ := hv.1 p hpproc
      have hguard : s.completed.length < s.work.length := by
        rw [hcomplen, hlenw, hplen, List.length_cons]
        omega
      have hdropeq : s.work.drop s.arrivalIdx =
          ((p :: rest2).drop m).map toPProc := by
        rw [hwork, hsplit, hidx, List.map_append, ← List.drop_drop,
          show done.length = (done.map toPProc).length from
            (List.length_map _ _).symm,
          List.drop_left]
        exact (List.map_drop _ _ _).symm
      have hpidnd : ((done ++ p :: rest2).map (fun q => q.pid)).Nodup := by
        rw [← hsplit]
        exact hv.2
      rw [List.map_append, List.nodup_append] at hpidnd
      have hrestnd : ((((p :: rest2).take m).map (fun q => q.pid)) ++
          (((p :: rest2).drop m).map (fun q => q.pid))).Nodup := by
        rw [← List.map_append, List.take_append_drop]
        exact hpidnd.2.1
      rw [List.nodup_append] at hrestnd
      have hqpids : s.queue.map (fun q => q.pid) =
          ((p :: rest2).take m).map (fun q => q.pid) := by
        rw [hqueue, List.map_map, hco]
      have hdisj : ∀ q ∈ ((p :: rest2).drop m).map toPProc,
          q.pid ∉ s.queue.map (fun q => q.pid) := by
        intro q hq hmem
        rw [hqpids] at hmem
        obtain ⟨r, hr, rfl⟩ := List.mem_map.mp hq
        exact hrestnd.2.2 hmem (List.mem_map_of_mem _ hr)
      have hdropnd : ((((p :: rest2).drop m).map toPProc).map
          (fun q => q.pid)).Nodup := by
        rw [List.map_map, hco]
        exact hrestnd.2.1
      obtain ⟨k, hkle, hadm, htakearr, hdroparr⟩ := rrAdmit_spec s.time
        (((p :: rest2).drop m).map toPProc) s.queue s.arrivalIdx hdisj hdropnd
      have hq1eq : s.queue ++ (((p :: rest2).drop m).map toPProc).take k =
          ((p :: rest2).take (m + k)).map toPProc := by
        rw [hqueue, ← List.map_take, ← List.map_append, ← List.take_add]
      have hq1arr : ∀ q ∈ s.queue ++
          (((p :: rest2).drop m).map toPProc).take k, q.arrival ≤ s.time := by
        intro q hqm
        rcases List.mem_append.mp hqm with h1 | h1
        · exact harr q h1
        · exact htakearr q h1
      have hsrest : (∀ b ∈ rest2, p.arrival ≤ b.arrival) ∧
          List.Sorted (fun a b : Proc => a.arrival ≤ b.arrival) rest2 := by
        have hs2 := hsorted
        rw [hsplit] at hs2
        have := List.Pairwise.sublist (List.sublist_append_right done _) hs2
        rwa [List.pairwise_cons] at this
      rcases Nat.eq_zero_or_pos (m + k) with hmk0 | hmkpos
      · have hm0 : m = 0 := by omega
        have hk0 : k = 0 := by omega
        subst hm0
        subst hk0
        have hqe : s.queue = [] := by
          rw [hqueue]
          rfl
        rw [List.take_zero, List.append_nil, Nat.add_zero] at hadm
        have hfut : s.time < p.arrival := by
          have := hdroparr (toPProc p) ?_
          · exact this
          · rw [List.drop_zero, List.drop_zero, List.map_cons]
            simp
        have hfe : s.work.filter (fun q => !(s.completed.contains q.pid) &&
            decide (s.time < q.arrival)) = (p :: rest2).map toPProc := by
          rw [hwork, hsplit, List.map_append, List.filter_append]
          have h1 : (done.map toPProc).filter
              (fun q => !(s.completed.contains q.pid) &&
                decide (s.time < q.arrival)) = [] := by
            rw [List.filter_eq_nil]
            intro q hqm
            obtain ⟨d, hd, rfl⟩ := List.mem_map.mp hqm
            have hdc : (toPProc d).pid ∈ s.completed := by
              rw [hcomp.mem_iff]
              exact List.mem_map_of_mem _ hd
            simp [hdc]
          have h2 : ((p :: rest2).map toPProc).filter
              (fun q => !(s.completed.contains q.pid) &&
                decide (s.time < q.arrival)) = (p :: rest2).map toPProc := by
            rw [List.filter_eq_self]
            intro q hqm
            obtain ⟨r, hr, rfl⟩ := List.mem_map.mp hqm
            have hrnc : (toPProc r).pid ∉ s.completed := by
              rw [hcomp.mem_iff]
              intro hcon
              exact hpidnd.2.2 hcon (List.mem_map_of_mem _ hr)
            have hrfut : s.time < (toPProc r).arrival := by
              rcases List.mem_cons.mp hr with rfl | hr'
              · exact hfut
              · exact lt_of_lt_of_le hfut (hsrest.1 r hr')
            simp [hrnc, hrfut]
          rw [h1, h2, List.nil_append]
        have harrco : ((fun q : PProc => q.arrival) ∘ toPProc) =
            fun r : Proc => r.arrival := rfl
        have hminq : minQ (((p :: rest2).map toPProc).map
            (fun q => q.arrival)) = some p.arrival := by
          rw [List.map_map, harrco]
          refine minQ_some_iff.mpr ⟨?_, ?_⟩
          · rw [List.map_cons]
            exact List.mem_cons_self _ _
          · intro b hb
            rw [List.map_cons] at hb
            rcases List.mem_cons.mp hb with rfl | hb'
            · exact le_refl _
            · obtain ⟨r, hr, rfl⟩ := List.mem_map.mp hb'
              exact hsrest.1 r hr
        have hbody : rrBody procs quantum 0 s = .next
            { s with queue := [], arrivalIdx := s.arrivalIdx,
                     time := p.arrival,
                     timeline := pushIdle s.timeline s.time p.arrival,
                     lastRun := some "Idle" } := by
          unfold rrBody
          rw [if_pos hguard, hdropeq]
          rw [hqe] at hadm
          simp only [hqe]
          simp only [hadm, hfe, hminq]
        rw [iterate, hbody] at hiter
        have hnext := ih done (p :: rest2) 0
          { s with queue := [], arrivalIdx := s.arrivalIdx,
                   time := p.arrival,
                   timeline := pushIdle s.timeline s.time p.arrival,
                   lastRun := some "Idle" } s' hsplit hwork
          (by
            show s.arrivalIdx = done.length + 0
            rw [hidx])
          (by simp)
          rfl
          hcomp
          (by intro q hqm; cases hqm)
          (le_trans htime0 (le_of_lt hfut))
          (by
            intro seg hseg
            rcases mem_pushIdle hseg with h1 | h1
            · exact Or.inl h1
            · exact hsubj seg h1)
          hiter
        rw [hnext]
        simp only []
        rw [fcfsGo_cons, fcfsGo_cons, fcfsT2_zero, fcfsT2_zero,
          if_neg (lt_irrefl p.arrival), if_pos hfut, if_pos hfut,
          if_neg (lt_irrefl p.arrival)]
      · obtain ⟨j, hj⟩ : ∃ j, m + k = j + 1 := ⟨m + k - 1, by omega⟩
        have hq1eq' : s.queue ++ (((p :: rest2).drop m).map toPProc).take k =
            toPProc p :: (rest2.take j).map toPProc := by
          rw [hq1eq, hj, List.take_succ_cons, List.map_cons]
        have hparr : p.arrival ≤ s.time := by
          have := hq1arr (toPProc p)
            (by rw [hq1eq']; exact List.mem_cons_self _ _)
          exact this
        have hch : (match s.lastRun with
            | some l => if l ≠ (toPProc p).pid then (0:ℚ) else 0
            | none => 0) = 0 := by
          rcases s.lastRun with - | l
          · rfl
          · show (if l ≠ (toPProc p).pid then (0:ℚ) else 0) = 0
            split_ifs <;> rfl
        have hmin : min quantum (toPProc p).remaining = p.burst := by
          show min quantum p.burst = p.burst
          exact min_eq_right (hburst p hpproc)
        have hcomp0 : (toPProc p).remaining -
            min quantum (toPProc p).remaining ≤ eps := by
          rw [hmin]
          show p.burst - p.burst ≤ eps
          rw [sub_self]
          norm_num [eps]
        have hfind : procs.find? (fun q => q.pid = (toPProc p).pid) =
            some p := by
          show procs.find? (fun q => q.pid = p.pid) = some p
          rw [hsplit]
          refine find?_pid_unique done p rest2 ?_
          rw [← hsplit]
          exact hv.2
        have hbody : rrBody procs quantum 0 s = .next
            { work := s.work
              queue := (rest2.take j).map toPProc
              arrivalIdx := s.arrivalIdx + k
              time := s.time + (match s.lastRun with
                | some l => if l ≠ (toPProc p).pid then (0:ℚ) else 0
                | none => 0) + min quantum (toPProc p).remaining
              timeline := mergePush s.timeline (toPProc p).pid
                (s.time + (match s.lastRun with
                  | some l => if l ≠ (toPProc p).pid then (0:ℚ) else 0
                  | none => 0))
                (s.time + (match s.lastRun with
                  | some l => if l ≠ (toPProc p).pid then (0:ℚ) else 0
                  | none => 0) + min quantum (toPProc p).remaining)
              metrics := s.metrics ++ [((toPProc p).pid,
                (s.time + (match s.lastRun with
                  | some l => if l ≠ (toPProc p).pid then (0:ℚ) else 0
                  | none => 0) + min quantum (toPProc p).remaining,
                 s.time + (match s.lastRun with
                  | some l => if l ≠ (toPProc p).pid then (0:ℚ) else 0
                  | none => 0) + min quantum (toPProc p).remaining - p.arrival,
                 s.time + (match s.lastRun with
                  | some l => if l ≠ (toPProc p).pid then (0:ℚ) else 0
                  | none => 0) + min quantum (toPProc p).remaining - p.arrival
                  - p.burst))]
              completed := addPid s.completed (toPProc p).pid
              lastRun := some (toPProc p).pid } := by
          unfold rrBody
          rw [if_pos hguard, hdropeq]
          simp only [hadm, hq1eq']
          rw [if_pos hcomp0]
          simp only [hfind]
        rw [iterate, hbody] at hiter
        have hppidmem : p.pid ∈ (done ++ [p]).map (fun q => q.pid) := by
          rw [List.map_append]
          exact List.mem_append_right _ (by simp)
        have hnext := ih (done ++ [p]) rest2 j
          { work := s.work
            queue := (rest2.take j).map toPProc
            arrivalIdx := s.arrivalIdx + k
            time := s.time + (match s.lastRun with
              | some l => if l ≠ (toPProc p).pid then (0:ℚ) else 0
              | none => 0) + min quantum (toPProc p).remaining
            timeline := mergePush s.timeline (toPProc p).pid
              (s.time + (match s.lastRun with
                | some l => if l ≠ (toPProc p).pid then (0:ℚ) else 0
                | none => 0))
              (s.time + (match s.lastRun with
                | some l => if l ≠ (toPProc p).pid then (0:ℚ) else 0
                | none => 0) + min quantum (toPProc p).remaining)
            metrics := s.metrics ++ [((toPProc p).pid,
              (s.time + (match s.lastRun with
                | some l => if l ≠ (toPProc p).pid then (0:ℚ) else 0
                | none => 0) + min quantum (toPProc p).remaining,
               s.time + (match s.lastRun with
                | some l => if l ≠ (toPProc p).pid then (0:ℚ) else 0
                | none => 0) + min quantum (toPProc p).remaining - p.arrival,
               s.time + (match s.lastRun with
                | some l => if l ≠ (toPProc p).pid then (0:ℚ) else 0
                | none => 0) + min quantum (toPProc p).remaining - p.arrival
                - p.burst))]
            completed := addPid s.completed (toPProc p).pid
            lastRun := some (toPProc p).pid } s'
          (by
            rw [hsplit, List.append_assoc]
            rfl)
          hwork
          (by
            show s.arrivalIdx + k = (done ++ [p]).length + j
            rw [hidx, List.length_append]
            simp only [List.length_cons, List.length_nil]
            omega)
          (by
            have hkle' : k ≤ ((p :: rest2).drop m).length := by
              simpa [List.length_map] using hkle
            rw [List.length_drop, List.length_cons] at hkle'
            rw [List.length_cons] at hmle
            omega)
          rfl
          (by
            show (addPid s.completed (toPProc p).pid).Perm
              ((done ++ [p]).map (fun q => q.pid))
            have hpnotc : (toPProc p).pid ∉ s.completed := by
              rw [hcomp.mem_iff]
              intro hcon
              exact hpidnd.2.2 hcon
                (List.mem_map_of_mem _ (List.mem_cons_self _ _))
            rw [addPid, if_neg hpnotc, List.map_append]
            refine List.Perm.trans ?_ (List.perm_append_singleton _ _).symm
            exact List.Perm.cons _ hcomp)
          (by
            intro q hqm
            show q.arrival ≤ s.time + (match s.lastRun with
              | some l => if l ≠ (toPProc p).pid then (0:ℚ) else 0
              | none => 0) + min quantum (toPProc p).remaining
            rw [hch, hmin]
            have hqq : q ∈ s.queue ++
                (((p :: rest2).drop m).map toPProc).take k := by
              rw [hq1eq']
              exact List.mem_cons_of_mem _ hqm
            have := hq1arr q hqq
            linarith)
          (by
            show 0 ≤ s.time + (match s.lastRun with
              | some l => if l ≠ (toPProc p).pid then (0:ℚ) else 0
              | none => 0) + min quantum (toPProc p).remaining
            rw [hch, hmin]
            linarith)
          (by
            intro seg hseg
            rcases mem_mergePush hseg with h1 | h1
            · exact Or.inr (by rw [h1]; exact hppidmem)
            · rcases hsubj seg h1 with h2 | h2
              · exact Or.inl h2
              · refine Or.inr ?_
                rw [List.map_append]
                exact List.mem_append_left _ h2)
          hiter
        rw [hnext]
        simp only []
        rw [hch, hmin]
        simp only [add_zero]
        have hfreshhd : ∀ b ∈ s.timeline.head?, b.1 ≠ (toPProc p).pid := by
          intro b hb
          have hbmem : b ∈ s.timeline := List.mem_of_mem_head? hb
          rcases hsubj b hbmem with h1 | h1
          · rw [h1]
            exact Ne.symm hpidI
          · intro hcon
            have hm1 : b.1 ∈ (p :: rest2).map (fun q => q.pid) := by
              rw [hcon]
              exact List.mem_map_of_mem _ (List.mem_cons_self _ _)
            exact hpidnd.2.2 h1 hm1
        rw [mergePush_fresh hfreshhd]
        rw [fcfsGo_cons, fcfsT2_zero, if_neg (not_lt_of_le hparr),
          if_neg (not_lt_of_le hparr)]
        rfl

/-- Claim C6 (amended): on a workload listed in arrival order (Round Robin
admits in input order, so sortedness is required — `c6_counterexample`),
with every burst at most the quantum and zero context-switch overhead,
`round_robin` returns exactly the FCFS result: identical timeline and
identical metrics, not just the same subject sequence.  With positive
overhead even the subject sequences can differ, because the two policies
charge the overhead under different conditions. -/
theorem c6_round_robin_reduces_to_fcfs (procs : List Proc) (quantum : ℚ)
    (hv : ValidWorkload procs)
    (hsorted : List.Sorted (fun a b : Proc => a.arrival ≤ b.arrival) procs)
    (hburst : ∀ p ∈ procs, p.burst ≤ quantum) (hq : 0 < quantum)
    (fuel : Nat) :
    ∀ out, round_robin procs quantum 0 fuel = some out →
      out = fcfs procs 0 := by
  intro out h
  obtain ⟨sf, hsf, hmap⟩ := Option.map_eq_some'.mp h
  have hsim := rr_fcfs_sim hv hq hsorted hburst fuel [] procs 0
    (rrInit procs) sf rfl rfl rfl (Nat.zero_le _) rfl (List.Perm.refl _)
    (fun q hqm => absurd hqm (List.not_mem_nil q)) (le_refl 0)
    (fun seg hseg => absurd hseg (List.not_mem_nil seg)) hsf
  have hsorteq : List.insertionSort
      (fun a b : Proc => a.arrival ≤ b.arrival) procs = procs :=
    List.Sorted.insertionSort_eq hsorted
  have hfcfs : fcfs procs 0 =
      ((fcfsGo 0 procs 0 [] []).1.reverse, (fcfsGo 0 procs 0 [] []).2) := by
    unfold fcfs
    rw [hsorteq]
  have h1 : sf.timeline = (fcfsGo 0 procs 0 [] []).1 :=
    congrArg Prod.fst hsim
  have h2 : sf.metrics = (fcfsGo 0 procs 0 [] []).2 :=
    congrArg Prod.snd hsim
  rw [hfcfs, show out = (sf.timeline.reverse, sf.metrics) from hmap.symm,
    h1, h2]

/-- Witness for C6: scenario A with quantum 5 — every burst fits in one
quantum, the input is sorted by arrival — where Round Robin returns exactly
the FCFS timeline `[(P1,0,5),(P2,5,8),(P3,8,9)]` and metrics. -/
theorem c6_round_robin_reduces_to_fcfs_witness :
    (([("P1",0,5),("P2",5,8),("P3",8,9)],
      [("P1",(5,5,0)),("P2",(8,7,4)),("P3",(9,7,6))]) :
        List Seg × List (String × Metric)) =
      fcfs [⟨"P1",0,5,0⟩, ⟨"P2",1,3,0⟩, ⟨"P3",2,1,0⟩] 0 :=
  c6_round_robin_reduces_to_fcfs [⟨"P1",0,5,0⟩, ⟨"P2",1,3,0⟩, ⟨"P3",2,1,0⟩] 5
    (by unfold ValidWorkload; decide) (by decide) (by decide) (by decide) 10
    ([("P1",0,5),("P2",5,8),("P3",8,9)],
     [("P1",(5,5,0)),("P2",(8,7,4)),("P3",(9,7,6))]) (by decide)

/-! ## Termination (amended claim C4) -/

/-- A loop whose body strictly decreases a natural-number measure on every
`.next` step and never crashes terminates within `μ s + 1` iterations. -/
theorem iterate_of_measure {σ : Type} (body : σ → StepRes σ)
    (Inv : σ → Prop) (μ : σ → Nat)
    (hnext : ∀ s s2, Inv s → body s = .next s2 → Inv s2 ∧ μ s2 < μ s)
    (hcrash : ∀ s, Inv s → body s ≠ .crash) :
    ∀ s, Inv s → ∃ r, iterate body (μ s + 1) s = some r := by
  have hmain : ∀ (N : Nat) (s), μ s ≤ N → Inv s →
      ∃ r, iterate body (N + 1) s = some r := by
    intro N
    induction N with
    | zero =>
      intro s hle hinv
      cases hb : body s with
      | stop s2 => exact ⟨s2, by rw [iterate, hb]⟩
      | next s2 =>
        exfalso
        have := (hnext s s2 hinv hb).2
        omega
      | crash => exact absurd hb (hcrash s hinv)
    | succ N ihN =>
      intro s hle hinv
      cases hb : body s with
      | stop s2 => exact ⟨s2, by rw [iterate, hb]⟩
      | next s2 =>
        obtain ⟨hinv2, hlt⟩ := hnext s s2 hinv hb
        obtain ⟨r, hr⟩ := ihN s2 (by omega) hinv2
        exact ⟨r, by rw [iterate, hb]; exact hr⟩
      | crash => exact absurd hb (hcrash s hinv)
  exact fun s hinv => hmain (μ s) s (le_refl _) hinv

/-- Raising the time bound can only shrink the future-arrival count. -/
theorem filter_lt_length_mono (l : List ℚ) {t t2 : ℚ} (h : t ≤ t2) :
    (l.filter (fun a => decide (t2 < a))).length ≤
      (l.filter (fun a => decide (t < a))).length :=
  (List.monotone_filter_right l (fun a ha => by
    simp only [decide_eq_true_eq] at ha ⊢
    linarith)).length_le

/-- An arrival crossed by the clock advance strictly shrinks the
future-arrival count. -/
theorem filter_lt_length_strict (l : List ℚ) {t t2 : ℚ} (h : t ≤ t2) {a : ℚ}
    (ha : a ∈ l) (hta : t < a) (hta2 : ¬ t2 < a) :
    (l.filter (fun x => decide (t2 < x))).length <
      (l.filter (fun x => decide (t < x))).length := by
  have hsub : List.Sublist (l.filter (fun x => decide (t2 < x)))
      (l.filter (fun x => decide (t < x))) :=
    List.monotone_filter_right l (fun x hx => by
      simp only [decide_eq_true_eq] at hx ⊢
      linarith)
  refine lt_of_le_of_ne hsub.length_le ?_
  intro heq
  have hfeq := hsub.eq_of_length heq
  have hmem : a ∈ l.filter (fun x => decide (t < x)) :=
    List.mem_filter.mpr ⟨ha, by simpa using hta⟩
  rw [← hfeq] at hmem
  have := (List.mem_filter.mp hmem).2
  simp only [decide_eq_true_eq] at this
  exact hta2 this

/-- The non-preemptive loops terminate: the measure
`2·(#processes − #completed) + (1 if no process is available)` strictly
decreases on every iteration. -/
theorem np_terminates (key : Proc → ℚ) (procs : List Proc) (cso : ℚ)
    (s : NPState) :
    ∃ r, iterate (npBody key procs cso)
      (2 * (procs.length - s.completed.length) +
        (if pickMin (fun p => decide (p.arrival ≤ s.time) &&
          !(s.completed.contains p.pid)) key procs = none then 1 else 0) + 1)
      s = some r := by
  refine iterate_of_measure (npBody key procs cso) (fun _ => True)
    (fun s => 2 * (procs.length - s.completed.length) +
      (if pickMin (fun p => decide (p.arrival ≤ s.time) &&
        !(s.completed.contains p.pid)) key procs = none then 1 else 0))
    ?_ ?_ s trivial
  · rintro s1 s2 - hb
    refine ⟨trivial, ?_⟩
    unfold npBody at hb
    by_cases hlen : s1.completed.length < procs.length
    case neg =>
      rw [if_neg hlen] at hb
      cases hb
    rw [if_pos hlen] at hb
    rcases hsel : pickMin (fun p => decide (p.arrival ≤ s1.time) &&
        !(s1.completed.contains p.pid)) key procs with - | ⟨pre, cur, post⟩ <;>
      simp only [hsel] at hb
    · rcases hna : minQ ((procs.filter
          (fun p => !(s1.completed.contains p.pid))).map (fun p => p.arrival))
        with - | na <;> simp only [hna] at hb
      · cases hb
      · cases hb
        obtain ⟨hmem, -⟩ := minQ_some_iff.mp hna
        obtain ⟨p0, hp0mem, hp0na⟩ := List.mem_map.mp hmem
        obtain ⟨hp0procs, hp0fil⟩ := List.mem_filter.mp hp0mem
        have hp0c : (s1.completed.contains p0.pid) = false := by
          simpa using hp0fil
        have hafter : ¬ pickMin (fun p => decide (p.arrival ≤ na) &&
            !(s1.completed.contains p.pid)) key procs = none := by
          intro hcon
          have hgp := pickMin_none_all hcon p0 hp0procs
          rw [hp0na, hp0c] at hgp
          simp at hgp
        simp only []
        rw [if_pos hsel, if_neg hafter]
        omega
    · cases hb
      have hgood := (pickMin_some hsel).2.1
      rw [Bool.and_eq_true] at hgood
      have hnotc : cur.pid ∉ s1.completed := by
        have := hgood.2
        simpa using this
      have hlc : (addPid s1.completed cur.pid).length =
          s1.completed.length + 1 := by
        rw [length_addPid, if_neg hnotc]
      simp only []
      rw [hlc]
      split_ifs <;> omega
  · rintro s1 - hb
    unfold npBody at hb
    by_cases hlen : s1.completed.length < procs.length
    case neg =>
      rw [if_neg hlen] at hb
      cases hb
    rw [if_pos hlen] at hb
    rcases hsel : pickMin (fun p => decide (p.arrival ≤ s1.time) &&
        !(s1.completed.contains p.pid)) key procs with - | ⟨pre, cur, post⟩ <;>
      simp only [hsel] at hb
    · rcases hna : minQ ((procs.filter
          (fun p => !(s1.completed.contains p.pid))).map (fun p => p.arrival))
        with - | na <;> simp only [hna] at hb <;> cases hb
    · cases hb

/-- The preemptive loops terminate: the measure
`(#work − #completed)·(#work + 1) + #future arrivals` strictly decreases on
every iteration (a completion pays for any clock advance; a non-completing
slice always ends exactly at a strictly future arrival; an idle step crosses
the next arrival). -/
theorem p_terminates {sel : PProc → ℚ}
    {npt : List PProc → List String → ℚ → PProc → ℚ} (hnpt : NptSpec npt)
    {procs : List Proc} {cso : ℚ} (hv : ValidWorkload procs) (hcso : 0 ≤ cso)
    (s : PState) (hinv : PInv procs cso s) :
    ∃ r, iterate (pBody sel npt procs cso)
      ((s.work.length - s.completed.length) * (s.work.length + 1) +
        ((s.work.map (fun q => q.arrival)).filter
          (fun a => decide (s.time < a))).length + 1) s = some r := by
  refine iterate_of_measure (pBody sel npt procs cso) (PInv procs cso)
    (fun s => (s.work.length - s.completed.length) * (s.work.length + 1) +
      ((s.work.map (fun q => q.arrival)).filter
        (fun a => decide (s.time < a))).length) ?_ ?_ s hinv
  · rintro s1 s2 hinv1 hb
    refine ⟨(pInv_step hnpt hv hcso hinv1 (Or.inl hb)).1, ?_⟩
    unfold pBody at hb
    by_cases hlen : s1.completed.length < s1.work.length
    case neg =>
      rw [if_neg hlen] at hb
      cases hb
    rw [if_pos hlen] at hb
    rcases hsel : pickMin (fun p => decide (p.arrival ≤ s1.time) &&
        !(s1.completed.contains p.pid)) sel s1.work
      with - | ⟨pre, cur, post⟩ <;> simp only [hsel] at hb
    · rcases hna : minQ ((s1.work.filter
          (fun p => !(s1.completed.contains p.pid) &&
            decide (s1.time < p.arrival))).map (fun p => p.arrival))
        with - | na <;> simp only [hna] at hb
      · cases hb
      · cases hb
        simp only []
        obtain ⟨hmem, -⟩ := minQ_some_iff.mp hna
        obtain ⟨q0, hq0mem, hq0na⟩ := List.mem_map.mp hmem
        obtain ⟨hq0w, hq0f⟩ := List.mem_filter.mp hq0mem
        have hfar : s1.time < q0.arrival := by
          rw [Bool.and_eq_true] at hq0f
          simpa using hq0f.2
        have hcnt := filter_lt_length_strict
          (s1.work.map (fun q => q.arrival))
          (le_of_lt (hq0na ▸ hfar)) (List.mem_map_of_mem _ hq0w) hfar
          (by rw [hq0na]; exact lt_irrefl na)
        omega
    · obtain ⟨hdec, hgood, -⟩ := pickMin_some hsel
      have hcurw : cur ∈ s1.work := by
        rw [hdec]
        exact List.mem_append_right _ (List.mem_cons_self _ _)
      rw [Bool.and_eq_true] at hgood
      have hnotc : cur.pid ∉ s1.completed := by
        have := hgood.2
        simpa using this
      have hch0 : 0 ≤ (match s1.lastRun with
          | some l => if l ≠ cur.pid then cso else 0
          | none => 0) := by
        rcases s1.lastRun with - | l
        · exact le_refl 0
        · show 0 ≤ if l ≠ cur.pid then cso else 0
          split_ifs <;> simp [hcso]
      have hremnn : 0 ≤ cur.remaining := hinv1.rem_nonneg cur hcurw
      have hnptnn : 0 ≤ npt s1.work s1.completed (s1.time + (match s1.lastRun
          with
          | some l => if l ≠ cur.pid then cso else 0
          | none => 0)) cur := by
        rcases hnpt s1.work s1.completed (s1.time + (match s1.lastRun with
          | some l => if l ≠ cur.pid then cso else 0
          | none => 0)) cur with h1 | ⟨q, hq, hq1, hq2⟩
        · rw [h1]
          exact hremnn
        · rw [hq2]
          linarith
      have hrfnn : 0 ≤ min cur.remaining (npt s1.work s1.completed
          (s1.time + (match s1.lastRun with
            | some l => if l ≠ cur.pid then cso else 0
            | none => 0)) cur) := le_min hremnn hnptnn
      have htimele : s1.time ≤ s1.time + (match s1.lastRun with
          | some l => if l ≠ cur.pid then cso else 0
          | none => 0) + min cur.remaining (npt s1.work s1.completed
            (s1.time + (match s1.lastRun with
              | some l => if l ≠ cur.pid then cso else 0
              | none => 0)) cur) := by
        linarith
      have hwmap : (pre ++ { cur with remaining := (cur.remaining -
          min cur.remaining (npt s1.work s1.completed
            (s1.time + (match s1.lastRun with
              | some l => if l ≠ cur.pid then cso else 0
              | none => 0)) cur)) } :: post).map (fun q => q.arrival) =
          s1.work.map (fun q => q.arrival) := by
        rw [hdec]
        simp
      have hwlen : (pre ++ { cur with remaining := (cur.remaining -
          min cur.remaining (npt s1.work s1.completed
            (s1.time + (match s1.lastRun with
              | some l => if l ≠ cur.pid then cso else 0
              | none => 0)) cur)) } :: post).length = s1.work.length := by
        rw [hdec]
        simp
      split_ifs at hb with hcomp
      · rcases hfind : procs.find? (fun p => p.pid = cur.pid)
          with - | pd <;> simp only [hfind] at hb
        · cases hb
        · cases hb
          simp only []
          rw [hwmap, hwlen, length_addPid, if_neg hnotc]
          have hcntle := filter_lt_length_mono
            (s1.work.map (fun q => q.arrival)) htimele
          have hcntlt : ((s1.work.map (fun q => q.arrival)).filter
              (fun a => decide (s1.time < a))).length ≤ s1.work.length := by
            have h1 := List.length_filter_le
              (fun a => decide (s1.time < a)) (s1.work.map (fun q => q.arrival))
            rwa [List.length_map] at h1
          have hprod : (s1.work.length - s1.completed.length) *
              (s1.work.length + 1) =
              (s1.work.length - (s1.completed.length + 1)) *
                (s1.work.length + 1) + (s1.work.length + 1) := by
            have h2 : s1.work.length - s1.completed.length =
                (s1.work.length - (s1.completed.length + 1)) + 1 := by omega
            rw [h2, Nat.succ_mul]
          rw [hprod]
          omega
      · cases hb
        simp only []
        rw [hwmap, hwlen]
        have hrflt : min cur.remaining (npt s1.work s1.completed
            (s1.time + (match s1.lastRun with
              | some l => if l ≠ cur.pid then cso else 0
              | none => 0)) cur) < cur.remaining := by
          by_contra hcon
          push_neg at hcon
          have : cur.remaining - min cur.remaining (npt s1.work s1.completed
              (s1.time + (match s1.lastRun with
                | some l => if l ≠ cur.pid then cso else 0
                | none => 0)) cur) ≤ eps := by
            have heps : (0:ℚ) < eps := by norm_num [eps]
            have := min_le_left cur.remaining (npt s1.work s1.completed
              (s1.time + (match s1.lastRun with
                | some l => if l ≠ cur.pid then cso else 0
                | none => 0)) cur)
            linarith
          exact hcomp this
        have hnptlt : npt s1.work s1.completed
            (s1.time + (match s1.lastRun with
              | some l => if l ≠ cur.pid then cso else 0
              | none => 0)) cur < cur.remaining := by
          rcases le_or_lt cur.remaining (npt s1.work s1.completed
            (s1.time + (match s1.lastRun with
              | some l => if l ≠ cur.pid then cso else 0
              | none => 0)) cur) with h1 | h1
          · rw [min_eq_left h1] at hrflt
            exact absurd hrflt (lt_irrefl _)
          · exact h1
        rcases hnpt s1.work s1.completed (s1.time + (match s1.lastRun with
            | some l => if l ≠ cur.pid then cso else 0
            | none => 0)) cur with h1 | ⟨q, hq, hq1, hq2⟩
        · rw [h1] at hnptlt
          exact absurd hnptlt (lt_irrefl _)
        · have hen : s1.time + (match s1.lastRun with
              | some l => if l ≠ cur.pid then cso else 0
              | none => 0) + min cur.remaining (npt s1.work s1.completed
                (s1.time + (match s1.lastRun with
                  | some l => if l ≠ cur.pid then cso else 0
                  | none => 0)) cur) = q.arrival := by
            rw [min_eq_right (le_of_lt hnptlt), hq2]
            ring
          rw [hen]
          have htlt : s1.time < q.arrival := by
            have h3 : s1.time ≤ s1.time + (match s1.lastRun with
                | some l => if l ≠ cur.pid then cso else 0
                | none => 0) := le_add_of_nonneg_right hch0
            linarith
          have hcnt := filter_lt_length_strict
            (s1.work.map (fun q => q.arrival)) (le_of_lt htlt)
            (List.mem_map_of_mem _ hq) htlt (lt_irrefl q.arrival)
          omega
  · rintro s1 hinv1 hb
    unfold pBody at hb
    by_cases hlen : s1.completed.length < s1.work.length
    case neg =>
      rw [if_neg hlen] at hb
      cases hb
    rw [if_pos hlen] at hb
    rcases hsel : pickMin (fun p => decide (p.arrival ≤ s1.time) &&
        !(s1.completed.contains p.pid)) sel s1.work
      with - | ⟨pre, cur, post⟩ <;> simp only [hsel] at hb
    · rcases hna : minQ ((s1.work.filter
          (fun p => !(s1.completed.contains p.pid) &&
            decide (s1.time < p.arrival))).map (fun p => p.arrival))
        with - | na <;> simp only [hna] at hb <;> cases hb
    · have hcurw : cur ∈ s1.work := by
        rw [(pickMin_some hsel).1]
        exact List.mem_append_right _ (List.mem_cons_self _ _)
      have hpid : cur.pid ∈ procs.map (fun p => p.pid) := by
        rw [← hinv1.work_pids]
        exact List.mem_map_of_mem _ hcurw
      obtain ⟨p, hp, hpe⟩ := List.mem_map.mp hpid
      have hfind : ¬ procs.find? (fun q => q.pid = cur.pid) = none := by
        intro hcon
        rw [List.find?_eq_none] at hcon
        exact hcon p hp (by simpa using hpe)
      split_ifs at hb
      · rcases hf : procs.find? (fun q => q.pid = cur.pid)
          with - | pd
        · exact absurd hf hfind
        · simp only [hf] at hb
          cases hb
      all_goals try cases hb

/-- Number of whole quantum slices still owed to a process with remaining
time `x`. -/
def rrWt (quantum x : ℚ) : Nat := (Int.ceil (x / quantum)).toNat

/-- A process with positive remaining time owes at least one slice. -/
theorem rrWt_pos {quantum x : ℚ} (hq : 0 < quantum) (hx : 0 < x) :
    1 ≤ rrWt quantum x := by
  unfold rrWt
  have h1 : (0:ℚ) < x / quantum := div_pos hx hq
  have h2 : 0 < Int.ceil (x / quantum) := Int.ceil_pos.mpr h1
  omega

/-- Running a full quantum consumes exactly one owed slice. -/
theorem rrWt_sub {quantum x : ℚ} (hq : 0 < quantum) (hx : quantum < x) :
    rrWt quantum (x - quantum) + 1 = rrWt quantum x ∧
      2 ≤ rrWt quantum x := by
  unfold rrWt
  have hdiv : (x - quantum) / quantum = x / quantum - 1 := by
    rw [sub_div, div_self (ne_of_gt hq)]
  have hceil : Int.ceil ((x - quantum) / quantum) =
      Int.ceil (x / quantum) - 1 := by
    rw [hdiv]
    have h3 := Int.ceil_sub_int (x / quantum) 1
    simpa using h3
  have h1 : 0 < Int.ceil ((x - quantum) / quantum) :=
    Int.ceil_pos.mpr (div_pos (by linarith) hq)
  omega

/-- Summing `f + 1` over a list adds the length to the sum of `f`. -/
theorem sum_map_add_one {α : Type} (f : α → Nat) (l : List α) :
    (l.map (fun p => f p + 1)).sum = (l.map f).sum + l.length := by
  induction l with
  | nil => rfl
  | cons a l ih =>
    simp only [List.map_cons, List.sum_cons, List.length_cons, ih]
    omega

/-- The Round Robin loop terminates for a positive quantum: twice the owed
slices of the queued processes, plus twice the owed slices (each with a unit
admission bonus) of the not-yet-admitted processes, plus the future-arrival
count, strictly decreases on every iteration. -/
theorem rr_terminates {procs : List Proc} {quantum cso : ℚ}
    (hv : ValidWorkload procs) (hcso : 0 ≤ cso) (hq : 0 < quantum)
    (s : RRState) (hinv : RRInv procs cso s) :
    ∃ r, iterate (rrBody procs quantum cso)
      (2 * ((s.queue.map (fun p => rrWt quantum p.remaining)).sum) +
       2 * (((s.work.drop s.arrivalIdx).map
          (fun p => rrWt quantum p.remaining + 1)).sum) +
       ((s.work.map (fun q => q.arrival)).filter
          (fun a => decide (s.time < a))).length + 1) s = some r := by
  refine iterate_of_measure (rrBody procs quantum cso) (RRInv procs cso)
    (fun s => 2 * ((s.queue.map (fun p => rrWt quantum p.remaining)).sum) +
      2 * (((s.work.drop s.arrivalIdx).map
          (fun p => rrWt quantum p.remaining + 1)).sum) +
      ((s.work.map (fun q => q.arrival)).filter
          (fun a => decide (s.time < a))).length) ?_ ?_ s hinv
  · rintro s1 s2 hinv1 hb
    refine ⟨(rrInv_step hv hcso hq hinv1 (Or.inl hb)).1, ?_⟩
    unfold rrBody at hb
    by_cases hlen : s1.completed.length < s1.work.length
    case neg =>
      rw [if_neg hlen] at hb
      cases hb
    rw [if_pos hlen] at hb
    have hdisj : ∀ q ∈ s1.work.drop s1.arrivalIdx,
        q.pid ∉ s1.queue.map (fun q => q.pid) := by
      intro q hq0 hmem
      have hbig := hinv1.bigN
      rw [List.nodup_append] at hbig
      exact hbig.2.2 hmem (List.mem_append_right _ (List.mem_map_of_mem _ hq0))
    have hdropnodup :
        ((s1.work.drop s1.arrivalIdx).map (fun q => q.pid)).Nodup := by
      have hbig := hinv1.bigN
      rw [List.nodup_append] at hbig
      have h2 := hbig.2.1
      rw [List.nodup_append] at h2
      exact h2.2.1
    obtain ⟨k, hkle, hadm, htakearr, hdroparr⟩ :=
      rrAdmit_spec s1.time (s1.work.drop s1.arrivalIdx) s1.queue s1.arrivalIdx
        hdisj hdropnodup
    simp only [hadm] at hb
    have hdd : (s1.work.drop s1.arrivalIdx).drop k =
        s1.work.drop (s1.arrivalIdx + k) := by
      rw [List.drop_drop, Nat.add_comm]
    have hsplit : s1.work.drop s1.arrivalIdx =
        (s1.work.drop s1.arrivalIdx).take k ++
          s1.work.drop (s1.arrivalIdx + k) := by
      rw [← hdd, List.take_append_drop]
    have hBsum : ((s1.work.drop s1.arrivalIdx).map
        (fun p => rrWt quantum p.remaining + 1)).sum =
        (((s1.work.drop s1.arrivalIdx).take k).map
          (fun p => rrWt quantum p.remaining + 1)).sum +
        ((s1.work.drop (s1.arrivalIdx + k)).map
          (fun p => rrWt quantum p.remaining + 1)).sum := by
      conv_lhs => rw [hsplit]
      rw [List.map_append, List.sum_append]
    have hbonus : (((s1.work.drop s1.arrivalIdx).take k).map
        (fun p => rrWt quantum p.remaining + 1)).sum =
        (((s1.work.drop s1.arrivalIdx).take k).map
          (fun p => rrWt quantum p.remaining)).sum + k := by
      rw [sum_map_add_one, List.length_take, min_eq_left hkle]
    rcases hq1 : s1.queue ++ (s1.work.drop s1.arrivalIdx).take k with
      - | ⟨cur, qrest⟩ <;> simp only [hq1] at hb
    · rcases hna : minQ ((s1.work.filter (fun p =>
          !(s1.completed.contains p.pid) &&
          decide (s1.time < p.arrival))).map (fun p => p.arrival))
        with - | na <;> simp only [hna] at hb
      · cases hb
      · cases hb
        simp only [List.map_nil, List.sum_nil]
        obtain ⟨hqe, hke⟩ := List.append_eq_nil.mp hq1
        have hA0 : (s1.queue.map (fun p => rrWt quantum p.remaining)).sum
            = 0 := by
          rw [hqe]
          rfl
        have hT0 : (((s1.work.drop s1.arrivalIdx).take k).map
            (fun p => rrWt quantum p.remaining)).sum = 0 := by
          rw [hke]
          rfl
        obtain ⟨hmem, -⟩ := minQ_some_iff.mp hna
        obtain ⟨q0, hq0mem, hq0na⟩ := List.mem_map.mp hmem
        obtain ⟨hq0w, hq0f⟩ := List.mem_filter.mp hq0mem
        have hfar : s1.time < q0.arrival := by
          rw [Bool.and_eq_true] at hq0f
          simpa using hq0f.2
        have hcnt := filter_lt_length_strict
          (s1.work.map (fun q => q.arrival))
          (le_of_lt (hq0na ▸ hfar)) (List.mem_map_of_mem _ hq0w) hfar
          (by rw [hq0na]; exact lt_irrefl na)
        omega
    · have hcurmem : cur ∈ s1.queue ++
          (s1.work.drop s1.arrivalIdx).take k := by
        rw [hq1]
        exact List.mem_cons_self _ _
      have hrempos : 0 < cur.remaining := by
        rcases List.mem_append.mp hcurmem with h1 | h1
        · exact hinv1.q_rem_pos cur h1
        · have hqw : cur ∈ s1.work :=
            List.mem_of_mem_drop (List.mem_of_mem_take h1)
          rw [hinv1.work_eq] at hqw
          obtain ⟨p, hp, rfl⟩ := List.mem_map.mp hqw
          exact (hv.1 p hp).1
      have hq1sum : (s1.queue.map (fun p => rrWt quantum p.remaining)).sum +
          (((s1.work.drop s1.arrivalIdx).take k).map
            (fun p => rrWt quantum p.remaining)).sum =
          rrWt quantum cur.remaining +
            (qrest.map (fun p => rrWt quantum p.remaining)).sum := by
        have h5 := congrArg (fun l =>
          (l.map (fun p => rrWt quantum p.remaining)).sum) hq1
        simpa only [List.map_append, List.sum_append, List.map_cons,
          List.sum_cons] using h5
      have hch0 : 0 ≤ (match s1.lastRun with
          | some l => if l ≠ cur.pid then cso else 0
          | none => 0) := by
        rcases s1.lastRun with - | l
        · exact le_refl 0
        · show 0 ≤ if l ≠ cur.pid then cso else 0
          split_ifs <;> simp [hcso]
      have hminnn : 0 ≤ min quantum cur.remaining :=
        le_min (le_of_lt hq) (le_of_lt hrempos)
      have htimele : s1.time ≤ s1.time + (match s1.lastRun with
          | some l => if l ≠ cur.pid then cso else 0
          | none => 0) + min quantum cur.remaining := by
        linarith
      have hfmono := filter_lt_length_mono
        (s1.work.map (fun q => q.arrival)) htimele
      split_ifs at hb with hcomp
      · rcases hf : procs.find? (fun p => p.pid = cur.pid)
          with - | pd <;> simp only [hf] at hb
        · cases hb
        · cases hb
          simp only []
          have hwtpos := rrWt_pos hq hrempos
          omega
      · have hqlt : quantum < cur.remaining := by
          by_contra hcon
          push_neg at hcon
          rw [min_eq_right hcon, sub_self] at hcomp
          have heps : (0:ℚ) ≤ eps := by norm_num [eps]
          exact hcomp heps
        have hminq : min quantum cur.remaining = quantum :=
          min_eq_left (le_of_lt hqlt)
        obtain ⟨k2, hk2le, hadm2, -, -⟩ := rrAdmit2_spec
          (s1.time + (match s1.lastRun with
            | some l => if l ≠ cur.pid then cso else 0
            | none => 0) + min quantum cur.remaining)
          (s1.work.drop (s1.arrivalIdx + k)) (s1.arrivalIdx + k)
        simp only [hadm2] at hb
        cases hb
        simp only []
        have hdd2 : (s1.work.drop (s1.arrivalIdx + k)).drop k2 =
            s1.work.drop (s1.arrivalIdx + k + k2) := by
          rw [List.drop_drop, Nat.add_comm]
        have hsplit2 : s1.work.drop (s1.arrivalIdx + k) =
            (s1.work.drop (s1.arrivalIdx + k)).take k2 ++
              s1.work.drop (s1.arrivalIdx + k + k2) := by
          rw [← hdd2, List.take_append_drop]
        have hBsum2 : ((s1.work.drop (s1.arrivalIdx + k)).map
            (fun p => rrWt quantum p.remaining + 1)).sum =
            (((s1.work.drop (s1.arrivalIdx + k)).take k2).map
              (fun p => rrWt quantum p.remaining + 1)).sum +
            ((s1.work.drop (s1.arrivalIdx + k + k2)).map
              (fun p => rrWt quantum p.remaining + 1)).sum := by
          conv_lhs => rw [hsplit2]
          rw [List.map_append, List.sum_append]
        have hbonus2 : (((s1.work.drop (s1.arrivalIdx + k)).take k2).map
            (fun p => rrWt quantum p.remaining + 1)).sum =
            (((s1.work.drop (s1.arrivalIdx + k)).take k2).map
              (fun p => rrWt quantum p.remaining)).sum + k2 := by
          rw [sum_map_add_one, List.length_take, min_eq_left hk2le]
        rw [hminq] at hfmono ⊢
        obtain ⟨hwt1, hwt2⟩ := rrWt_sub hq hqlt
        simp only [List.map_append, List.sum_append, List.map_cons,
          List.sum_cons, List.map_nil, List.sum_nil]
        omega
  · rintro s1 hinv1 hb
    unfold rrBody at hb
    by_cases hlen : s1.completed.length < s1.work.length
    case neg =>
      rw [if_neg hlen] at hb
      cases hb
    rw [if_pos hlen] at hb
    have hdisj : ∀ q ∈ s1.work.drop s1.arrivalIdx,
        q.pid ∉ s1.queue.map (fun q => q.pid) := by
      intro q hq0 hmem
      have hbig := hinv1.bigN
      rw [List.nodup_append] at hbig
      exact hbig.2.2 hmem (List.mem_append_right _ (List.mem_map_of_mem _ hq0))
    have hdropnodup :
        ((s1.work.drop s1.arrivalIdx).map (fun q => q.pid)).Nodup := by
      have hbig := hinv1.bigN
      rw [List.nodup_append] at hbig
      have h2 := hbig.2.1
      rw [List.nodup_append] at h2
      exact h2.2.1
    obtain ⟨k, hkle, hadm, htakearr, hdroparr⟩ :=
      rrAdmit_spec s1.time (s1.work.drop s1.arrivalIdx) s1.queue s1.arrivalIdx
        hdisj hdropnodup
    simp only [hadm] at hb
    rcases hq1 : s1.queue ++ (s1.work.drop s1.arrivalIdx).take k with
      - | ⟨cur, qrest⟩ <;> simp only [hq1] at hb
    · rcases hna : minQ ((s1.work.filter (fun p =>
          !(s1.completed.contains p.pid) &&
          decide (s1.time < p.arrival))).map (fun p => p.arrival))
        with - | na <;> simp only [hna] at hb <;> cases hb
    · have hcurmem : cur ∈ s1.queue ++
          (s1.work.drop s1.arrivalIdx).take k := by
        rw [hq1]
        exact List.mem_cons_self _ _
      have hpidmem : cur.pid ∈ procs.map (fun p => p.pid) := by
        rcases List.mem_append.mp hcurmem with h1 | h1
        · obtain ⟨p, hp, hpe, -⟩ := hinv1.q_rel cur h1
          exact hpe ▸ List.mem_map_of_mem _ hp
        · have hqw : cur ∈ s1.work :=
            List.mem_of_mem_drop (List.mem_of_mem_take h1)
          rw [hinv1.work_eq] at hqw
          obtain ⟨p, hp, rfl⟩ := List.mem_map.mp hqw
          exact List.mem_map_of_mem _ hp
      obtain ⟨p, hp, hpe⟩ := List.mem_map.mp hpidmem
      have hfind : ¬ procs.find? (fun q => q.pid = cur.pid) = none := by
        intro hcon
        rw [List.find?_eq_none] at hcon
        exact hcon p hp (by simpa using hpe)
      split_ifs at hb
      · rcases hf : procs.find? (fun q => q.pid = cur.pid)
          with - | pd
        · exact absurd hf hfind
        · simp only [hf] at hb
          cases hb
      all_goals try cases hb

/-- A duplicate-free subset of a list of at least the same length contains
every element of that list. -/
theorem full_coverage {α : Type} [DecidableEq α] {c l : List α}
    (hnodup : c.Nodup) (hsub : ∀ a ∈ c, a ∈ l) (hlen : l.length ≤ c.length) :
    ∀ a ∈ l, a ∈ c := by
  have hperm := (List.subperm_of_subset hnodup hsub).perm_of_length_le hlen
  intro a ha
  exact hperm.mem_iff.mpr ha

/-- The FCFS loop appends one metrics row per process of its input list. -/
theorem fcfsGo_ms_names (cso : ℚ) : ∀ (rest : List Proc) (time : ℚ)
    (tl : List Seg) (ms : List (String × Metric)),
    (fcfsGo cso rest time tl ms).2.map (fun e => e.1) =
      ms.map (fun e => e.1) ++ rest.map (fun p => p.pid) := by
  intro rest
  induction rest with
  | nil =>
    intro time tl ms
    simp [fcfsGo]
  | cons p rest ih =>
    intro time tl ms
    rw [fcfsGo_cons, ih]
    simp

/-- Claim C4, counterexample to the stated justification: an idle iteration of
the SRTF loop advances the clock but leaves the working set (hence the total
remaining service time) unchanged, so the total remaining time does not
strictly decrease on every iteration. -/
theorem c4_counterexample :
    ∃ s', pBody (fun p => p.remaining) srtfNPT [⟨"R1",1,1,0⟩] 0
        (pInit [⟨"R1",1,1,0⟩]) = .next s' ∧
      s'.work = (pInit [⟨"R1",1,1,0⟩]).work := by
  refine ⟨{ work := [⟨"R1",1,1,0,1⟩], time := 1,
            timeline := [("Idle",0,1)], metrics := [], completed := [],
            lastRun := some "Idle" }, ?_, ?_⟩ <;> decide

/-- Claim C4 (amended): for every valid workload (with a positive quantum for
Round Robin) and every `cso >= 0`, each of the six scheduling functions
terminates — for some fuel bound the loop reaches its stop state — and the
returned metrics map records an entry for every input process.  (The
justification offered by the claim is refuted separately: an idle iteration
leaves the total remaining time unchanged.) -/
theorem c4_termination_and_coverage (procs : List Proc) (cso quantum : ℚ)
    (hv : ValidWorkload procs) (hcso : 0 ≤ cso) (hq : 0 < quantum) :
    (∀ p ∈ procs, p.pid ∈ (fcfs procs cso).2.map (fun e => e.1)) ∧
    (∃ fuel tl ms, sjf_non_preemptive procs cso fuel = some (tl, ms) ∧
      ∀ p ∈ procs, p.pid ∈ ms.map (fun e => e.1)) ∧
    (∃ fuel tl ms, priority_non_preemptive procs cso fuel = some (tl, ms) ∧
      ∀ p ∈ procs, p.pid ∈ ms.map (fun e => e.1)) ∧
    (∃ fuel tl ms, srtf_preemptive procs cso fuel = some (tl, ms) ∧
      ∀ p ∈ procs, p.pid ∈ ms.map (fun e => e.1)) ∧
    (∃ fuel tl ms, priority_preemptive procs cso fuel = some (tl, ms) ∧
      ∀ p ∈ procs, p.pid ∈ ms.map (fun e => e.1)) ∧
    (∃ fuel tl ms, round_robin procs quantum cso fuel = some (tl, ms) ∧
      ∀ p ∈ procs, p.pid ∈ ms.map (fun e => e.1)) := by
  have hnpcov : ∀ (key : Proc → ℚ),
      ∃ fuel tl ms, (iterate (npBody key procs cso) fuel npInit).map
          (fun s => (s.timeline.reverse, s.metrics)) = some (tl, ms) ∧
        ∀ p ∈ procs, p.pid ∈ ms.map (fun e => e.1) := by
    intro key
    obtain ⟨r, hr⟩ := np_terminates key procs cso npInit
    refine ⟨_, r.timeline.reverse, r.metrics, by rw [hr]; rfl, ?_⟩
    obtain ⟨s, hinv, hfull, -, hms⟩ :=
      np_final hv hcso (by rw [hr]; rfl)
    have hcov := full_coverage hinv.comp_nodup
      (fun a ha => hinv.comp_sub a ha)
      (by rw [List.length_map]; omega)
    intro p hp
    rw [hms]
    exact (hinv.comp_metrics p.pid).mp (hcov p.pid (List.mem_map_of_mem _ hp))
  have hpcov : ∀ (sel : PProc → ℚ)
      (npt : List PProc → List String → ℚ → PProc → ℚ), NptSpec npt →
      ∃ fuel tl ms, (iterate (pBody sel npt procs cso) fuel (pInit procs)).map
          (fun s => (s.timeline.reverse, s.metrics)) = some (tl, ms) ∧
        ∀ p ∈ procs, p.pid ∈ ms.map (fun e => e.1) := by
    intro sel npt hnpt
    obtain ⟨r, hr⟩ := p_terminates hnpt hv hcso (pInit procs)
      (pInv_init procs cso hv)
    refine ⟨_, r.timeline.reverse, r.metrics, by rw [hr]; rfl, ?_⟩
    obtain ⟨s, hinv, hfull, -, hms⟩ :=
      p_final hnpt hv hcso (by rw [hr]; rfl)
    have hwl : s.work.length = procs.length := by
      have h1 := congrArg List.length hinv.work_pids
      rwa [List.length_map, List.length_map] at h1
    have hcov := full_coverage hinv.comp_nodup
      (fun a ha => hinv.comp_sub a ha)
      (by rw [List.length_map]; omega)
    intro p hp
    rw [hms]
    exact (hinv.comp_metrics p.pid).mp (hcov p.pid (List.mem_map_of_mem _ hp))
  refine ⟨?_, hnpcov (fun p => p.burst), hnpcov (fun p => p.priority),
    hpcov (fun p => p.remaining) srtfNPT srtfNPT_spec,
    hpcov (fun p => p.priority) prioNPT prioNPT_spec, ?_⟩
  · intro p hp
    have hn := fcfsGo_ms_names cso
      (List.insertionSort (fun a b => a.arrival ≤ b.arrival) procs) 0 [] []
    show p.pid ∈ ((fcfsGo cso
      (List.insertionSort (fun a b => a.arrival ≤ b.arrival) procs)
        0 [] []).2).map (fun e => e.1)
    rw [hn]
    simp only [List.map_nil, List.nil_append]
    exact List.mem_map_of_mem _
      ((List.perm_insertionSort _ procs).mem_iff.mpr hp)
  · obtain ⟨r, hr⟩ := rr_terminates hv hcso hq (rrInit procs)
      (rrInv_init procs cso hv)
    refine ⟨_, r.timeline.reverse, r.metrics, by
      unfold round_robin
      rw [hr]
      rfl, ?_⟩
    obtain ⟨s, hinv, hfull, -, hms⟩ :=
      rr_final hv hcso hq (by
        unfold round_robin
        rw [hr]
        rfl)
    have hwl : s.work.length = procs.length := by
      rw [hinv.work_eq, List.length_map]
    have hnd : s.completed.Nodup := by
      have hbig := hinv.bigN
      rw [List.nodup_append] at hbig
      have h2 := hbig.2.1
      rw [List.nodup_append] at h2
      exact h2.1
    have hcov := full_coverage hnd (fun a ha => hinv.comp_sub a ha)
      (by rw [List.length_map]; omega)
    intro p hp
    rw [hms]
    exact (hinv.comp_metrics p.pid).mp (hcov p.pid (List.mem_map_of_mem _ hp))

/-- Witness for claim C4 at the scenario-A workload with quantum 2. -/
theorem c4_termination_and_coverage_witness :
    ValidWorkload [(⟨"P1",0,5,0⟩ : Proc), ⟨"P2",1,3,0⟩, ⟨"P3",2,1,0⟩] ∧
    (0:ℚ) ≤ 0 ∧ (0:ℚ) < 2 ∧
    ((∀ p ∈ [(⟨"P1",0,5,0⟩ : Proc), ⟨"P2",1,3,0⟩, ⟨"P3",2,1,0⟩],
        p.pid ∈ (fcfs [⟨"P1",0,5,0⟩, ⟨"P2",1,3,0⟩, ⟨"P3",2,1,0⟩] 0).2.map
          (fun e => e.1)) ∧
     (∃ fuel tl ms, sjf_non_preemptive
          [⟨"P1",0,5,0⟩, ⟨"P2",1,3,0⟩, ⟨"P3",2,1,0⟩] 0 fuel = some (tl, ms) ∧
        ∀ p ∈ [(⟨"P1",0,5,0⟩ : Proc), ⟨"P2",1,3,0⟩, ⟨"P3",2,1,0⟩],
          p.pid ∈ ms.map (fun e => e.1)) ∧
     (∃ fuel tl ms, priority_non_preemptive
          [⟨"P1",0,5,0⟩, ⟨"P2",1,3,0⟩, ⟨"P3",2,1,0⟩] 0 fuel = some (tl, ms) ∧
        ∀ p ∈ [(⟨"P1",0,5,0⟩ : Proc), ⟨"P2",1,3,0⟩, ⟨"P3",2,1,0⟩],
          p.pid ∈ ms.map (fun e => e.1)) ∧
     (∃ fuel tl ms, srtf_preemptive
          [⟨"P1",0,5,0⟩, ⟨"P2",1,3,0⟩, ⟨"P3",2,1,0⟩] 0 fuel = some (tl, ms) ∧
        ∀ p ∈ [(⟨"P1",0,5,0⟩ : Proc), ⟨"P2",1,3,0⟩, ⟨"P3",2,1,0⟩],
          p.pid ∈ ms.map (fun e => e.1)) ∧
     (∃ fuel tl ms, priority_preemptive
          [⟨"P1",0,5,0⟩, ⟨"P2",1,3,0⟩, ⟨"P3",2,1,0⟩] 0 fuel = some (tl, ms) ∧
        ∀ p ∈ [(⟨"P1",0,5,0⟩ : Proc), ⟨"P2",1,3,0⟩, ⟨"P3",2,1,0⟩],
          p.pid ∈ ms.map (fun e => e.1)) ∧
     (∃ fuel tl ms, round_robin
          [⟨"P1",0,5,0⟩, ⟨"P2",1,3,0⟩, ⟨"P3",2,1,0⟩] 2 0 fuel =
            some (tl, ms) ∧
        ∀ p ∈ [(⟨"P1",0,5,0⟩ : Proc), ⟨"P2",1,3,0⟩, ⟨"P3",2,1,0⟩],
          p.pid ∈ ms.map (fun e => e.1))) :=
  ⟨by unfold ValidWorkload; decide, by decide, by decide,
    c4_termination_and_coverage [⟨"P1",0,5,0⟩, ⟨"P2",1,3,0⟩, ⟨"P3",2,1,0⟩] 0 2
      (by unfold ValidWorkload; decide) (by decide) (by decide)⟩
